import Mathlib

/-! HIR helper code of mrustc: visibility, compile-time literals, item lookup

A shallow embedding of `src/hir/hir.cpp`.  C++ containers become lists
(`std::vector` a list, `std::map` an association list read by first match),
a null-able `shared_ptr` becomes an `Option`, and the fatal diagnostics
(`BUG`, `ASSERT_BUG`, `ERROR`) become the error side of `Except`.
-/

namespace HIR

/-! ## Simple paths and publicity -/

/-- Modelled from the spec: a crate-qualified sequence of identifiers
(`HIR::SimplePath`, declared in a header that is not among the sources, with
the member names `hir.cpp` reads); the derived equality is the component-wise
comparison plus crate-name comparison of its `operator==`. -/
structure SimplePath where
  m_crate_name : String
  m_components : List String
deriving DecidableEq, Repr

/-- Modelled from the spec: the visibility of an item (`HIR::Publicity`,
declared in hir.hpp, which is not among the sources): `vis_path` is the shared
pointer that `is_visible` tests and dereferences, `none` standing for the null
pointer. -/
structure Publicity where
  vis_path : Option SimplePath
deriving DecidableEq, Repr

/-- The shared sentinel `Publicity::none_path`, built as `SimplePath{"#", {}}`. -/
def Publicity.none_path : SimplePath := ⟨"#", []⟩

/-- The element-wise loop of `Publicity::is_visible`:
`for(i = 0; i < vis.size(); i++) if(p[i] != vis[i]) return false;`.
The first argument counts the iterations still to run, the second is `i`.
After the size test of `is_visible` both reads are in range, so comparing the
optional reads compares the elements. -/
def is_visible_loop (p vis : List String) : Nat → Nat → Bool
  | 0, _ => true
  | k + 1, i =>
    if p[i]? != vis[i]? then false
    else is_visible_loop p vis k (i + 1)

/-- The method `Publicity::is_visible` of the source. -/
def Publicity.is_visible (self : Publicity) (p : SimplePath) : Bool :=
  match self.vis_path with
  -- No path = global public
  | none => true
  | some vis_path =>
    -- Empty simple path = full private
    if vis_path = Publicity.none_path then false
    -- Crate names must match
    else if p.m_crate_name != vis_path.m_crate_name then false
    -- p must be a child of vis_path
    else if p.m_components.length < vis_path.m_components.length then false
    else is_visible_loop p.m_components vis_path.m_components vis_path.m_components.length 0

/-- The visibility rule in the words of the specification: global is visible
everywhere, private nowhere, and a restriction is met exactly by the paths of
the same crate whose components start with the restriction's components. -/
def is_visible_reference (v : Publicity) (p : SimplePath) : Bool :=
  match v.vis_path with
  | none => true
  | some r =>
    if r = Publicity.none_path then false
    else decide (p.m_crate_name = r.m_crate_name ∧ r.m_components <+: p.m_components)

/-! ## Compile-time literals -/

/-- A C++ `double`, kept as its IEEE-754 binary64 bit pattern (only the low 64
bits of `bits` are read: sign bit 63, exponent bits 52..62, fraction bits 0..51). -/
structure Double where
  bits : Nat
deriving DecidableEq, Repr

/-- A NaN has all exponent bits set and a non-zero fraction. -/
def Double.is_nan (d : Double) : Bool :=
  (d.bits / 2 ^ 52) % 2 ^ 11 == 2 ^ 11 - 1 && d.bits % 2 ^ 52 != 0

/-- Positive and negative zero: every bit below the sign bit is clear. -/
def Double.is_zero (d : Double) : Bool :=
  d.bits % 2 ^ 63 == 0

/-- The built-in `==` on `double`: a NaN compares unequal to everything, the
two zeroes compare equal, any other two values compare by bit pattern. -/
def Double.eq (a b : Double) : Bool :=
  if a.is_nan || b.is_nan then false
  else if a.is_zero && b.is_zero then true
  else a.bits % 2 ^ 64 == b.bits % 2 ^ 64

/-- A `std::vector`. -/
abbrev Vec (α : Type) := List α

/-- The operations of the two payload classes of `Literal` that are declared
outside `hir.cpp`: `GenericRef` (type `G`, copied by its copy constructor and
compared by its `operator==`) and `HIR::Path` (type `P`, copied by `clone()`
and compared by its `operator==`). -/
structure PayloadOps (G P : Type) where
  generic_eq : G → G → Bool
  path_eq : P → P → Bool
  path_clone : P → P

/-- Modelled from the spec: the tagged union `HIR::Literal` (declared in
hir.hpp, which is not among the sources), with the ten variants that
`operator==` and `clone` of `hir.cpp` dispatch on.  `Variant.val` and
`BorrowData` are owning pointers dereferenced by both functions: an owned,
never null, nested literal.  `Integer` holds an unsigned machine integer,
`Float` a `double`, `String` a `std::string`. -/
inductive Literal (G P : Type) where
  | Invalid
  | Defer
  | Generic (e : G)
  | List (e : List (Literal G P))
  | Variant (idx : Nat) (val : Literal G P)
  | Integer (e : Nat)
  | Float (e : Double)
  | BorrowPath (e : P)
  | BorrowData (e : Literal G P)
  | String (e : String)

/-- Modelled from the spec: the tag enumeration of `Literal`, one tag for each
variant, as compared by `l.tag() != r.tag()`. -/
inductive LiteralTag where
  | Invalid | Defer | Generic | List | Variant | Integer | Float
  | BorrowPath | BorrowData | String
deriving DecidableEq, Repr

variable {G P : Type}

/-- The accessor `Literal::tag()`. -/
def Literal.tag : Literal G P → LiteralTag
  | .Invalid => .Invalid
  | .Defer => .Defer
  | .Generic _ => .Generic
  | .List _ => .List
  | .Variant _ _ => .Variant
  | .Integer _ => .Integer
  | .Float _ => .Float
  | .BorrowPath _ => .BorrowPath
  | .BorrowData _ => .BorrowData
  | .String _ => .String

mutual
/-- The function `operator==(const Literal&, const Literal&)`.  After the tag
test `TU_MATCH` dispatches on the common tag, so the last alternative is never
reached. -/
def Literal.eq (ops : PayloadOps G P) : Literal G P → Literal G P → Bool
  | l, r =>
    if l.tag != r.tag then false
    else match l, r with
      | .Invalid, .Invalid => true
      | .Defer, .Defer => true
      | .Generic le, .Generic re => ops.generic_eq le re
      | .List le, .List re =>
        if le.length != re.length then false
        else Literal.eq_elems ops le re
      | .Variant lidx lval, .Variant ridx rval =>
        if lidx != ridx then false
        else Literal.eq ops lval rval
      | .Integer le, .Integer re => le == re
      | .Float le, .Float re => Double.eq le re
      | .BorrowPath le, .BorrowPath re => ops.path_eq le re
      | .BorrowData le, .BorrowData re => Literal.eq ops le re
      | .String le, .String re => le == re
      | _, _ => false
termination_by structural l => l
/-- The element loop of the `List` case,
`for(i = 0; i < le.size(); i++) if( le[i] != re[i] ) return false;`,
run over two vectors of equal size; `!=` on literals is the negation of `==`. -/
def Literal.eq_elems (ops : PayloadOps G P) : Vec (Literal G P) → Vec (Literal G P) → Bool
  | l :: ls, r :: rs =>
    if !(Literal.eq ops l r) then false
    else Literal.eq_elems ops ls rs
  | _, _ => true
termination_by structural ls => ls
end

mutual
/-- The method `Literal::clone`. -/
def Literal.clone (ops : PayloadOps G P) : Literal G P → Literal G P
  | .Invalid => .Invalid
  | .Defer => .Defer
  | .Generic e => .Generic e
  | .List e => .List (Literal.clone_vals ops e)
  | .Variant idx val => .Variant idx (Literal.clone ops val)
  | .Integer e => .Integer e
  | .Float e => .Float e
  | .BorrowPath e => .BorrowPath (ops.path_clone e)
  | .BorrowData e => .BorrowData (Literal.clone ops e)
  | .String e => .String e
termination_by structural x => x
/-- The loop of the `List` case of `clone`:
`for(const auto& val : e) vals.push_back( val.clone() );`. -/
def Literal.clone_vals (ops : PayloadOps G P) : Vec (Literal G P) → Vec (Literal G P)
  | [] => []
  | val :: rest => Literal.clone ops val :: Literal.clone_vals ops rest
termination_by structural x => x
end

mutual
/-- Whether a literal holds a NaN `Float` at any depth. -/
def Literal.has_nan : Literal G P → Bool
  | .List e => Literal.has_nan_vals e
  | .Variant _ val => Literal.has_nan val
  | .Float e => e.is_nan
  | .BorrowData e => Literal.has_nan e
  | _ => false
termination_by structural x => x
/-- Whether some literal of a vector holds a NaN `Float` at any depth. -/
def Literal.has_nan_vals : Vec (Literal G P) → Bool
  | [] => false
  | val :: rest => Literal.has_nan val || Literal.has_nan_vals rest
termination_by structural x => x
end

/-- Payload operations for literals whose generic references and paths are
plain numbers, copied and compared as such. -/
def nat_ops : PayloadOps Nat Nat := ⟨fun a b => a == b, fun a b => a == b, fun p => p⟩

/-! ## Enums -/

/-- The not-found result of `find_variant`, for a 64-bit `size_t`. -/
def SIZE_MAX : Nat := 2 ^ 64 - 1

/-- The algorithm `std::find_if` over a whole vector, as the distance of the
returned iterator from `begin()`: the position of the first element that
satisfies `pred`, or the size of the vector (the `end()` iterator) if none does. -/
def find_if {α : Type} (pred : α → Bool) : Vec α → Nat
  | [] => 0
  | x :: rest => if pred x then 0 else find_if pred rest + 1

/-- The enumeration `Enum::Repr`, as listed by `get_repr_type`. -/
inductive Enum.Repr where
  | Rust | C | Usize | U8 | U16 | U32 | U64
deriving DecidableEq

/-- Modelled from the spec: a variant of a value enum (`Enum::ValueVariant`,
declared in hir.hpp, which is not among the sources), a name with its
discriminant value. -/
structure Enum.ValueVariant where
  name : String
  val : Nat
deriving DecidableEq

/-- Modelled from the spec: a variant of a data enum (`Enum::DataVariant`,
declared in hir.hpp, which is not among the sources); of its payload shape
only the struct-like flag is kept, the functions here read the name alone. -/
structure Enum.DataVariant where
  name : String
  is_struct : Bool
deriving DecidableEq

/-- Modelled from the spec: the two representations of an enum (`Enum::Class`,
declared in hir.hpp, which is not among the sources). -/
inductive Enum.Class where
  | Data (e : Vec Enum.DataVariant)
  | Value (repr : Enum.Repr) (variants : Vec Enum.ValueVariant)
deriving DecidableEq

/-- Modelled from the spec: an enum item (`HIR::Enum`, declared in hir.hpp,
which is not among the sources), reduced to the member the functions here read. -/
structure Enum where
  m_data : Enum.Class
deriving DecidableEq

/-- The method `Enum::find_variant`. -/
def Enum.find_variant (self : Enum) (name : String) : Nat :=
  match self.m_data with
  | .Value _ variants =>
    let it := find_if (fun x => x.name == name) variants
    if it == variants.length then SIZE_MAX
    else it
  | .Data e =>
    let it := find_if (fun x => x.name == name) e
    if it == e.length then SIZE_MAX
    else it

/-- The names of the variants of an enum, in declaration order, for either
representation. -/
def Enum.variant_names (self : Enum) : List String :=
  match self.m_data with
  | .Value _ variants => variants.map (fun x => x.name)
  | .Data e => e.map (fun x => x.name)

/-! ## The item tree -/

/-- Modelled from the spec: the body of a struct item (declared in hir.hpp,
which is not among the sources); the lookups hand it on unread, so only an
identifying number is kept. -/
structure Struct where
  id : Nat
deriving DecidableEq

/-- Modelled from the spec: the body of a union item, kept as an identifying
number like `Struct`. -/
structure Union where
  id : Nat
deriving DecidableEq

/-- Modelled from the spec: the body of a trait item, kept as an identifying
number like `Struct`. -/
structure Trait where
  id : Nat
deriving DecidableEq

/-- Modelled from the spec: the body of a type alias, kept as an identifying
number like `Struct`. -/
structure TypeAlias where
  id : Nat
deriving DecidableEq

/-- Modelled from the spec: the body of a function item, kept as an
identifying number like `Struct`. -/
structure Function where
  id : Nat
deriving DecidableEq

/-- Modelled from the spec: the body of a static item, kept as an identifying
number like `Struct`. -/
structure Static where
  id : Nat
deriving DecidableEq

/-- Modelled from the spec: the body of a constant item, kept as an
identifying number like `Struct`. -/
structure Constant where
  id : Nat
deriving DecidableEq

/-- Modelled from the spec: a macro item, kept as an identifying number like
`Struct`. -/
structure MacroItem where
  id : Nat
deriving DecidableEq

/-- Modelled from the spec: an entry of an item map (`VisEnt<T>`, declared in
hir.hpp, which is not among the sources), pairing a publicity with the item
body. -/
structure VisEnt (T : Type) where
  publicity : Publicity
  ent : T

/-- Modelled from the spec: the value items (`ValueItem`, declared in hir.hpp,
which is not among the sources): functions, statics and constants. -/
inductive ValueItem where
  | Constant (e : Constant)
  | Static (e : Static)
  | Function (e : Function)
deriving DecidableEq

mutual
/-- Modelled from the spec: a module (`HIR::Module`, declared in hir.hpp, which
is not among the sources): the three item maps keyed by identifier and the
side list of inline statics. -/
inductive Module where
  | mk (m_value_items : List (String × VisEnt ValueItem))
      (m_mod_items : List (String × VisEnt TypeItem))
      (m_macro_items : List (String × VisEnt MacroItem))
      (m_inline_statics : Vec (String × Static))
/-- Modelled from the spec: the type items (`TypeItem`, declared in hir.hpp,
which is not among the sources): nested modules, type aliases, enums, structs,
unions and traits. -/
inductive TypeItem where
  | Module (e : Module)
  | TypeAlias (e : TypeAlias)
  | Enum (e : Enum)
  | Struct (e : Struct)
  | Union (e : Union)
  | Trait (e : Trait)
end

/-- The member `Module::m_value_items`. -/
def Module.m_value_items : Module → List (String × VisEnt ValueItem)
  | .mk v _ _ _ => v

/-- The member `Module::m_mod_items`. -/
def Module.m_mod_items : Module → List (String × VisEnt TypeItem)
  | .mk _ t _ _ => t

/-- The member `Module::m_macro_items`. -/
def Module.m_macro_items : Module → List (String × VisEnt MacroItem)
  | .mk _ _ m _ => m

/-- The member `Module::m_inline_statics`. -/
def Module.m_inline_statics : Module → Vec (String × Static)
  | .mk _ _ _ s => s

mutual
/-- Modelled from the spec: a crate (`HIR::Crate`, declared in hir.hpp, which is
not among the sources): its name, its root module, the table of loaded
external crates and the table of lang items. -/
inductive Crate where
  | mk (m_crate_name : String) (m_root_module : Module)
      (m_ext_crates : List (String × ExternCrate))
      (m_lang_items : List (String × SimplePath))
/-- Modelled from the spec: the handle of a loaded external crate
(`ExternCrate`), owning the crate through `m_data`. -/
inductive ExternCrate where
  | mk (m_data : Crate)
end

/-- The member `Crate::m_crate_name`. -/
def Crate.m_crate_name : Crate → String
  | .mk n _ _ _ => n

/-- The member `Crate::m_root_module`. -/
def Crate.m_root_module : Crate → Module
  | .mk _ r _ _ => r

/-- The member `Crate::m_ext_crates`. -/
def Crate.m_ext_crates : Crate → List (String × ExternCrate)
  | .mk _ _ e _ => e

/-- The member `Crate::m_lang_items`. -/
def Crate.m_lang_items : Crate → List (String × SimplePath)
  | .mk _ _ _ l => l

/-- The member `ExternCrate::m_data`, dereferenced. -/
def ExternCrate.m_data : ExternCrate → Crate
  | .mk c => c

/-- The lookup `find` of a `std::map` or `std::unordered_map` keyed by a
string: the value stored under the key, `none` standing for `end()`. -/
def map_find {V : Type} (key : String) : List (String × V) → Option V
  | [] => none
  | (k, v) :: rest => if k == key then some v else map_find key rest

/-- The fatal diagnostics raised by the lookups of `hir.cpp`. -/
inductive Error where
  /-- Raised by `ERROR(sp, E0000, "Undefined language item ...")`. -/
  | UndefinedLangItem (name : String)
  /-- Raised as "Invalid path (no nodes)". -/
  | InvalidPathNoNodes
  /-- Raised as "Invalid path (only one node with ignore_last_node". -/
  | InvalidPathOneNode
  /-- Raised as "get_mod_by_path received invalid path with ignore_last_node=true". -/
  | InvalidModPath
  /-- Raised when the crate of the given name is "not loaded". -/
  | UnknownCrate (name : String)
  /-- Raised when component `i` of the path could not be found. -/
  | ComponentNotFound (i : Nat)
  /-- Raised when node `i` of the path was not a module. -/
  | NotAModule (i : Nat)
  /-- Raised as "Could not find macro name", "... type name" or "... value name". -/
  | NameNotFound
  /-- Raised when the path did not point to a module, trait, struct, union,
  enum or function, as the accessor expects. -/
  | WrongItemKind
  /-- Raised when a static path cannot be found. -/
  | StaticNotFound
deriving DecidableEq

/-- The default-constructed `SimplePath` that `get_lang_item_path_opt` keeps as
its `empty_path`. -/
def SimplePath.empty : SimplePath := ⟨"", []⟩

/-- The accessor `is_Module()` of the tagged union `TypeItem`. -/
def TypeItem.is_Module : TypeItem → Bool
  | .Module _ => true
  | _ => false

/-- The method `Crate::get_lang_item_path`. -/
def Crate.get_lang_item_path (self : Crate) (name : String) : Except Error SimplePath :=
  match map_find name self.m_lang_items with
  | none => .error (.UndefinedLangItem name)
  | some path => .ok path

/-- The method `Crate::get_lang_item_path_opt`. -/
def Crate.get_lang_item_path_opt (self : Crate) (name : String) : SimplePath :=
  match map_find name self.m_lang_items with
  | none => SimplePath.empty
  | some path => path

/-- The loop of `get_containing_module` over the walked components `comps`,
entered with the module `mod` reached so far and the index `i` of the next
component. -/
def walk_modules : Module → Nat → List String → Except Error Module
  | mod, _, [] => .ok mod
  | mod, i, pc :: rest =>
    match map_find pc mod.m_mod_items with
    | none => .error (.ComponentNotFound i)
    | some it =>
      match it.ent with
      | .Module e => walk_modules e (i + 1) rest
      | _ => .error (.NotAModule i)

/-- The components that the loop of `get_containing_module` visits: indices
`0 .. size - (ignore_last_node ? 2 : 1)`. -/
def walked_components (path : SimplePath) (ignore_last_node : Bool) : List String :=
  path.m_components.take (path.m_components.length - (if ignore_last_node then 2 else 1))

/-- The function `get_containing_module` of the anonymous namespace. -/
def get_containing_module (crate : Crate) (path : SimplePath)
    (ignore_crate_name ignore_last_node : Bool) : Except Error Module :=
  if ¬ (path.m_components.length > 0) then .error .InvalidPathNoNodes
  else if ¬ (path.m_components.length > (if ignore_last_node then 1 else 0)) then
    .error .InvalidPathOneNode
  else if !ignore_crate_name && path.m_crate_name != crate.m_crate_name then
    match map_find path.m_crate_name crate.m_ext_crates with
    | none => .error (.UnknownCrate path.m_crate_name)
    | some ext => walk_modules ext.m_data.m_root_module 0 (walked_components path ignore_last_node)
  else
    walk_modules crate.m_root_module 0 (walked_components path ignore_last_node)

/-- The name the item lookups search for in the containing module:
`ignore_last_node ? path.m_components[size-2] : path.m_components.back()`.
Both reads are in range once `get_containing_module` has returned. -/
def item_name (path : SimplePath) (ignore_last_node : Bool) : String :=
  if ignore_last_node then
    path.m_components.getD (path.m_components.length - 2) ""
  else
    path.m_components.getLastD ""

/-- The method `Crate::get_macroitem_by_path`. -/
def Crate.get_macroitem_by_path (self : Crate) (path : SimplePath)
    (ignore_crate_name ignore_last_node : Bool) : Except Error MacroItem :=
  match get_containing_module self path ignore_crate_name ignore_last_node with
  | .error e => .error e
  | .ok mod =>
    match map_find (item_name path ignore_last_node) mod.m_macro_items with
    | none => .error .NameNotFound
    | some it => .ok it.ent

/-- The method `Crate::get_typeitem_by_path`. -/
def Crate.get_typeitem_by_path (self : Crate) (path : SimplePath)
    (ignore_crate_name ignore_last_node : Bool) : Except Error TypeItem :=
  match get_containing_module self path ignore_crate_name ignore_last_node with
  | .error e => .error e
  | .ok mod =>
    match map_find (item_name path ignore_last_node) mod.m_mod_items with
    | none => .error .NameNotFound
    | some it => .ok it.ent

/-- The method `Crate::get_mod_by_path`; note the order of its two flags. -/
def Crate.get_mod_by_path (self : Crate) (path : SimplePath)
    (ignore_last_node ignore_crate_name : Bool) : Except Error Module :=
  if ignore_last_node = true ∧ ¬ (path.m_components.length > 0) then .error .InvalidModPath
  -- Special handling for empty paths with ignore_last_node
  else if path.m_components.length = (if ignore_last_node then 1 else 0) then
    if !ignore_crate_name && path.m_crate_name != self.m_crate_name then
      match map_find path.m_crate_name self.m_ext_crates with
      | none => .error (.UnknownCrate path.m_crate_name)
      | some ext => .ok ext.m_data.m_root_module
    else
      .ok self.m_root_module
  else
    match self.get_typeitem_by_path path ignore_crate_name ignore_last_node with
    | .error e => .error e
    | .ok (.Module e) => .ok e
    | .ok _ => .error .WrongItemKind

/-- The method `Crate::get_trait_by_path`; the two flags of
`get_typeitem_by_path` are left at their default `false`. -/
def Crate.get_trait_by_path (self : Crate) (path : SimplePath) : Except Error Trait :=
  match self.get_typeitem_by_path path false false with
  | .error e => .error e
  | .ok (.Trait e) => .ok e
  | .ok _ => .error .WrongItemKind

/-- The method `Crate::get_struct_by_path`. -/
def Crate.get_struct_by_path (self : Crate) (path : SimplePath) : Except Error Struct :=
  match self.get_typeitem_by_path path false false with
  | .error e => .error e
  | .ok (.Struct e) => .ok e
  | .ok _ => .error .WrongItemKind

/-- The method `Crate::get_union_by_path`. -/
def Crate.get_union_by_path (self : Crate) (path : SimplePath) : Except Error Union :=
  match self.get_typeitem_by_path path false false with
  | .error e => .error e
  | .ok (.Union e) => .ok e
  | .ok _ => .error .WrongItemKind

/-- The method `Crate::get_enum_by_path`. -/
def Crate.get_enum_by_path (self : Crate) (path : SimplePath)
    (ignore_crate_name ignore_last_node : Bool) : Except Error Enum :=
  match self.get_typeitem_by_path path ignore_crate_name ignore_last_node with
  | .error e => .error e
  | .ok (.Enum e) => .ok e
  | .ok _ => .error .WrongItemKind

/-- The method `Crate::get_valitem_by_path`. -/
def Crate.get_valitem_by_path (self : Crate) (path : SimplePath)
    (ignore_crate_name : Bool) : Except Error ValueItem :=
  match get_containing_module self path ignore_crate_name false with
  | .error e => .error e
  | .ok mod =>
    match map_find (path.m_components.getLastD "") mod.m_value_items with
    | none => .error .NameNotFound
    | some it => .ok it.ent

/-- The method `Crate::get_function_by_path`; the flag of
`get_valitem_by_path` is left at its default `false`. -/
def Crate.get_function_by_path (self : Crate) (path : SimplePath) : Except Error Function :=
  match self.get_valitem_by_path path false with
  | .error e => .error e
  | .ok (.Function e) => .ok e
  | .ok _ => .error .WrongItemKind

/-- The module at which the walk of a path starts, in the words of the
specification: the root module of the external crate registered under the
path's crate name when that name differs from the current crate's and crate
names are not ignored (`none` when no such crate is loaded), and the root
module of the current crate otherwise. -/
def start_module (crate : Crate) (path : SimplePath) (ignore_crate_name : Bool) :
    Option Module :=
  if ignore_crate_name = false ∧ path.m_crate_name ≠ crate.m_crate_name then
    (map_find path.m_crate_name crate.m_ext_crates).map (fun ext => ext.m_data.m_root_module)
  else some crate.m_root_module

/-- A module holding the struct `S` in its type namespace and the function `f`
in its value namespace. -/
def sample_inner : Module :=
  .mk [("f", ⟨⟨none⟩, .Function ⟨1⟩⟩)] [("S", ⟨⟨none⟩, .Struct ⟨2⟩⟩)] [("m", ⟨⟨none⟩, ⟨3⟩⟩)] []

/-- A root module holding the module `a`, the enum `E`, the trait `T` and the
union `U`, and the function `g`. -/
def sample_root : Module :=
  .mk [("g", ⟨⟨none⟩, .Function ⟨4⟩⟩)]
    [("a", ⟨⟨none⟩, .Module sample_inner⟩), ("E", ⟨⟨none⟩, .Enum ⟨.Data []⟩⟩),
      ("T", ⟨⟨none⟩, .Trait ⟨5⟩⟩), ("U", ⟨⟨none⟩, .Union ⟨6⟩⟩)]
    [] []

/-- An external crate `ext` whose root module is `sample_inner`. -/
def sample_ext : Crate :=
  .mk "ext" sample_inner [] []

/-- A crate `main` with the root module `sample_root`, the loaded external
crate `ext` and two lang items, one of them registered with the empty path. -/
def sample_crate : Crate :=
  .mk "main" sample_root [("ext", .mk sample_ext)]
    [("sized", ⟨"core", ["marker", "Sized"]⟩), ("blank", SimplePath.empty)]

/-- The scan of `get_static_by_path` over the inline statics of a module:
`for(const auto& e : m.m_inline_statics) if(e.first == name) return e.second;`,
`none` standing for the loop running to its end. -/
def find_inline_static (name : String) : Vec (String × Static) → Option Static
  | [] => none
  | e :: rest => if e.1 == name then some e.2 else find_inline_static name rest

/-- The method `Crate::get_static_by_path`; `get_mod_by_path` is called with
`ignore_last_node` set and `ignore_crate_name` left at its default `false`. -/
def Crate.get_static_by_path (self : Crate) (path : SimplePath) : Except Error Static :=
  match self.get_mod_by_path path true false with
  | .error e => .error e
  | .ok m =>
    match map_find (path.m_components.getLastD "") m.m_value_items with
    | some it =>
      match it.ent with
      | .Static e => .ok e
      | _ => .error .WrongItemKind
    | none =>
      match find_inline_static (path.m_components.getLastD "") m.m_inline_statics with
      | some e => .ok e
      | none => .error .StaticNotFound

/-- A crate `main` whose root module holds the static `X` and the function `g`
as value items and two inline statics, both named `anon`. -/
def sample_statics : Crate :=
  .mk "main"
    (.mk [("X", ⟨⟨none⟩, .Static ⟨7⟩⟩), ("g", ⟨⟨none⟩, .Function ⟨4⟩⟩)] [] []
      [("anon", ⟨8⟩), ("anon", ⟨9⟩)])
    [] []

/-- The path `p` without its last component, in the words of the
specification: same crate name, the components but the last. -/
def drop_last (p : SimplePath) : SimplePath :=
  ⟨p.m_crate_name, p.m_components.dropLast⟩

end HIR

namespace Parse

/-! ## The type parser: tokens, type expressions, outcomes

A shallow embedding of `src/parse/types.cpp`.  The lexer state is the list of
the tokens still to be read.  Each parser takes a bound on the depth of its
calls, its fuel: a call and a round of a loop use one unit, and `out_of_fuel`
is the outcome when none is left.  More fuel never changes a finished run
(`parse_mono`, `parses_iff_some_fuel`). -/

/-- Modelled from the spec: the token kinds (`eTokenType`, declared in a header
that is not among the sources): the kinds that `types.cpp` names, the
end-of-input kind and the integer literal that a length expression uses. -/
inductive eTokenType where
  | TOK_NULL | TOK_EOF
  | TOK_IDENT | TOK_LIFETIME | TOK_STRING | TOK_INTEGER | TOK_MACRO
  | TOK_EXCLAM | TOK_UNDERSCORE
  | TOK_LT | TOK_DOUBLE_LT | TOK_GT
  | TOK_COMMA | TOK_SEMICOLON | TOK_COLON | TOK_DOUBLE_COLON
  | TOK_AMP | TOK_DOUBLE_AMP | TOK_STAR | TOK_PLUS
  | TOK_TRIPLE_DOT | TOK_THINARROW
  | TOK_SQUARE_OPEN | TOK_SQUARE_CLOSE | TOK_PAREN_OPEN | TOK_PAREN_CLOSE
  | TOK_RWORD_UNSAFE | TOK_RWORD_EXTERN | TOK_RWORD_FN | TOK_RWORD_FOR
  | TOK_RWORD_SUPER | TOK_RWORD_MUT | TOK_RWORD_CONST
deriving DecidableEq, Repr

/-- Modelled from the spec: a token (`Token`, declared in a header that is not
among the sources): its kind, read by `type()`, and its text, read by `str()`;
`Token(TOK_AMP)` builds a token with an empty text. -/
structure Token where
  type : eTokenType
  str : String
deriving DecidableEq, Repr

/-- The token that the lexer returns at the end of its input. -/
def Token.eof : Token := ⟨.TOK_EOF, ""⟩

/-- Modelled from the spec: the token stream (`TokenStream`, declared in a
header that is not among the sources), with single-token consumption,
single-token putback and peek-by-offset lookahead: the list of the tokens
still to be read, a token put back standing at its head. -/
abbrev TokenStream := List Token

/-- The method `getToken`: the next token and the stream behind it; at the end
of the input the end-of-input token, again and again. -/
def getToken : TokenStream → Token × TokenStream
  | [] => (Token.eof, [])
  | tok :: rest => (tok, rest)

/-- The method `putback`: the token is the next one to be read. -/
def putback (lex : TokenStream) (tok : Token) : TokenStream :=
  tok :: lex

/-- The method `lookahead(i)`: the kind of the token `i` places ahead;
`LOOK_AHEAD(lex)` is `lookahead(0)`. -/
def lookahead (lex : TokenStream) (i : Nat) : eTokenType :=
  match lex[i]? with
  | some tok => tok.type
  | none => .TOK_EOF

/-- Modelled from the spec: the primitive scalar types (`eCoreType`, declared
in a header that is not among the sources). -/
inductive eCoreType where
  | Bool | Char | I8 | U8 | I16 | U16 | I32 | U32 | I64 | U64 | Isize | Usize | F32 | F64
deriving DecidableEq, Repr

/-- The errors a parser throws (`ParseError`): a message, an internal bug
check, an unexpected token with the accepted kinds (none when the source gives
none), and the `std::out_of_range` of a checked vector access. -/
inductive ParseError where
  | Generic (msg : String)
  | BugCheck (msg : String)
  | Unexpected (tok : Token) (expected : List eTokenType)
  | OutOfRange
deriving DecidableEq, Repr

/-- Modelled from the spec: the type expression tree (`TypeRef`, declared in
types.hpp, which is not among the sources), by the constructors that
`types.cpp` calls; source spans are left out.  `P` is the class of paths
(`AST::Path`), `E` the class of expression nodes, `M` the class of macro
invocations.  `Any` is the inference placeholder `TypeRef(Span)`, and the
unit type of `TagUnit` is the empty tuple. -/
inductive TypeRef (P E M : Type) where
  | Any
  | Macro (inv : M)
  | Primitive (ct : eCoreType)
  | Path (path : P)
  | Reference (is_mut : Bool) (inner : TypeRef P E M)
  | Pointer (is_mut : Bool) (inner : TypeRef P E M)
  | SizedArray (inner : TypeRef P E M) (size : E)
  | UnsizedArray (inner : TypeRef P E M)
  | Tuple (types : List (TypeRef P E M))
  | Function (abi : String) (args : List (TypeRef P E M)) (ret : TypeRef P E M)
  | TraitObject (hrls : List String) (traits : List P)

/-- The constructor `TypeRef(TypeRef::TagUnit(), span)`: the empty tuple. -/
def TypeRef.Unit {P E M : Type} : TypeRef P E M := .Tuple []

/-- The result of running a parser with a bound on the depth of its calls:
the value it returns, the error it throws, or `out_of_fuel` when the bound is
reached first. -/
inductive Outcome (α : Type) where
  | ok (a : α)
  | error (e : ParseError)
  | out_of_fuel

/-- Runs the rest of a parser on the value of an outcome; an error that was
thrown and the exhaustion of the bound pass through. -/
def Outcome.andThen {α β : Type} : Outcome α → (α → Outcome β) → Outcome β
  | .ok a, k => k a
  | .error e, _ => .error e
  | .out_of_fuel, _ => .out_of_fuel

/-- The outcome of a parser of another file, which runs without a bound. -/
def Outcome.ofExcept {α : Type} : Except ParseError α → Outcome α
  | .ok a => .ok a
  | .error e => .error e

/-- The parsers and tables that `types.cpp` calls and that live in other
files: `coretype_fromstring` (`none` for the invalid core type),
the path `AST::Path("", {PathNode("#"), PathNode("str")})` built for `str`,
`Parse_Path` in the mode `PATH_GENERIC_TYPE`, `Parse_Expr` followed by
`take_node()`, and `Parse_MacroInvocation` of the macro of a given name.
Each parser returns its value with the stream it leaves, or throws. -/
structure ParseEnv (P E M : Type) where
  coretype_fromstring : String → Option eCoreType
  str_path : P
  Parse_Path : TokenStream → Except ParseError (P × TokenStream)
  Parse_Expr : TokenStream → Except ParseError (E × TokenStream)
  Parse_MacroInvocation : String → TokenStream → Except ParseError (M × TokenStream)

variable {P E M : Type}

/-- The `do ... while( GET_TOK(tok, lex) == TOK_PLUS )` loop of
`Parse_Type_Path`, entered with the bounds collected so far: the trait paths
and lifetimes after the loop, the token that ended it and the stream behind
that token. -/
def Parse_Type_Path_bounds (env : ParseEnv P E M) :
    Nat → List P → List String → TokenStream →
      Outcome (List P × List String × Token × TokenStream)
  | 0, _, _, _ => .out_of_fuel
  | n + 1, traits, lifetimes, lex =>
    if lookahead lex 0 = .TOK_LIFETIME then
      let lifetimes := lifetimes ++ [(getToken lex).1.str]
      let lex := (getToken lex).2
      if (getToken lex).1.type = .TOK_PLUS then
        Parse_Type_Path_bounds env n traits lifetimes (getToken lex).2
      else .ok (traits, lifetimes, (getToken lex).1, (getToken lex).2)
    else
      (Outcome.ofExcept (env.Parse_Path lex)).andThen fun (path, lex) =>
        let traits := traits ++ [path]
        if (getToken lex).1.type = .TOK_PLUS then
          Parse_Type_Path_bounds env n traits lifetimes (getToken lex).2
        else .ok (traits, lifetimes, (getToken lex).1, (getToken lex).2)

/-- The function `Parse_Type_Path`. -/
def Parse_Type_Path (env : ParseEnv P E M) (fuel : Nat) (hrls : List String)
    (lex : TokenStream) : Outcome (TypeRef P E M × TokenStream) :=
  (Parse_Type_Path_bounds env fuel [] [] lex).andThen fun (traits, lifetimes, tok, lex) =>
    let lex := putback lex tok
    if hrls.length > 0 ∨ traits.length > 1 ∨ lifetimes.length > 0 then
      .ok (.TraitObject hrls traits, lex)
    else
      match traits[0]? with
      | some path => .ok (.Path path, lex)
      | none => .error .OutOfRange

/-- The `do ... while( GET_TOK(tok, lex) == TOK_COMMA )` loop of the `for` case
of `Parse_Type_Int`, entered with the lifetimes collected so far: the lifetimes
after the loop, the token that ended it and the stream behind that token. -/
def Parse_Type_hrls : Nat → List String → TokenStream →
    Outcome (List String × Token × TokenStream)
  | 0, _, _ => .out_of_fuel
  | n + 1, hrls, lex =>
    if (getToken lex).1.type ≠ .TOK_LIFETIME then
      .error (.Unexpected (getToken lex).1 [.TOK_LIFETIME])
    else
      let hrls := hrls ++ [(getToken lex).1.str]
      let lex := (getToken lex).2
      if (getToken lex).1.type = .TOK_COMMA then
        Parse_Type_hrls n hrls (getToken lex).2
      else .ok (hrls, (getToken lex).1, (getToken lex).2)

mutual
/-- The function `Parse_Type`. -/
def Parse_Type (env : ParseEnv P E M) : Nat → TokenStream →
    Outcome (TypeRef P E M × TokenStream)
  | 0, _ => .out_of_fuel
  | n + 1, lex => Parse_Type_Int env n lex
/-- The function `Parse_Type_Int`. -/
def Parse_Type_Int (env : ParseEnv P E M) : Nat → TokenStream →
    Outcome (TypeRef P E M × TokenStream)
  | 0, _ => .out_of_fuel
  | n + 1, lex0 =>
    let tok := (getToken lex0).1
    let lex := (getToken lex0).2
    match tok.type with
    | .TOK_MACRO =>
      (Outcome.ofExcept (env.Parse_MacroInvocation tok.str lex)).andThen fun (inv, lex) =>
        .ok (.Macro inv, lex)
    | .TOK_EXCLAM => .error (.Generic "! is not a real type")
    | .TOK_UNDERSCORE => .ok (.Any, lex)
    | .TOK_RWORD_UNSAFE | .TOK_RWORD_EXTERN | .TOK_RWORD_FN =>
      Parse_Type_Fn env n [] (putback lex tok)
    | .TOK_LT | .TOK_DOUBLE_LT =>
      (Outcome.ofExcept (env.Parse_Path (putback lex tok))).andThen fun (path, lex) =>
        .ok (.Path path, lex)
    | .TOK_RWORD_FOR =>
      if (getToken lex).1.type ≠ .TOK_LT then
        .error (.Unexpected (getToken lex).1 [.TOK_LT])
      else
        (Parse_Type_hrls n [] (getToken lex).2).andThen fun (hrls, tok, lex) =>
          if tok.type ≠ .TOK_GT then .error (.Unexpected tok [.TOK_GT])
          else
            match lookahead lex 0 with
            | .TOK_RWORD_UNSAFE | .TOK_RWORD_EXTERN | .TOK_RWORD_FN =>
              Parse_Type_Fn env n hrls lex
            | _ => Parse_Type_Path env n hrls lex
    | .TOK_IDENT =>
      match env.coretype_fromstring tok.str with
      | some ct => .ok (.Primitive ct, lex)
      | none =>
        if tok.str = "str" then .ok (.Path env.str_path, lex)
        else Parse_Type_Path env n [] (putback lex tok)
    | .TOK_DOUBLE_COLON => Parse_Type_Path env n [] (putback lex tok)
    | .TOK_RWORD_SUPER => Parse_Type_Path env n [] (putback lex tok)
    | .TOK_DOUBLE_AMP | .TOK_AMP =>
      -- HACK! Convert && into & &
      let lex := if tok.type = .TOK_DOUBLE_AMP then putback lex ⟨.TOK_AMP, ""⟩ else lex
      -- tok = lex.getToken();
      let tok := (getToken lex).1
      let lex := (getToken lex).2
      -- if( tok.type() == TOK_LIFETIME ) tok = lex.getToken();
      -- tok1 and lex1 are tok and lex after this step
      let lex1 := if tok.type = .TOK_LIFETIME then (getToken lex).2 else lex
      let tok1 := if tok.type = .TOK_LIFETIME then (getToken lex).1 else tok
      if tok1.type = .TOK_RWORD_MUT then
        (Parse_Type env n lex1).andThen fun (inner, lex) =>
          .ok (.Reference true inner, lex)
      else
        (Parse_Type env n (putback lex1 tok1)).andThen fun (inner, lex) =>
          .ok (.Reference false inner, lex)
    | .TOK_STAR =>
      match (getToken lex).1.type with
      | .TOK_RWORD_MUT =>
        (Parse_Type env n (getToken lex).2).andThen fun (inner, lex) =>
          .ok (.Pointer true inner, lex)
      | .TOK_RWORD_CONST =>
        (Parse_Type env n (getToken lex).2).andThen fun (inner, lex) =>
          .ok (.Pointer false inner, lex)
      | _ => .error (.Unexpected (getToken lex).1 [.TOK_RWORD_CONST, .TOK_RWORD_MUT])
    | .TOK_SQUARE_OPEN =>
      (Parse_Type env n lex).andThen fun (inner, lex) =>
        if (getToken lex).1.type = .TOK_SEMICOLON then
          (Outcome.ofExcept (env.Parse_Expr (getToken lex).2)).andThen fun (array_size, lex) =>
            if (getToken lex).1.type ≠ .TOK_SQUARE_CLOSE then
              .error (.Unexpected (getToken lex).1 [.TOK_SQUARE_CLOSE])
            else .ok (.SizedArray inner array_size, (getToken lex).2)
        else if (getToken lex).1.type = .TOK_SQUARE_CLOSE then
          .ok (.UnsizedArray inner, (getToken lex).2)
        else .error (.Unexpected (getToken lex).1 [])
    | .TOK_PAREN_OPEN =>
      if (getToken lex).1.type = .TOK_PAREN_CLOSE then .ok (.Tuple [], (getToken lex).2)
      else
        (Parse_Type env n (putback (getToken lex).2 (getToken lex).1)).andThen
          fun (inner, lex) =>
            if (getToken lex).1.type = .TOK_PLUS then
              -- Lifetime bounded type, NOT a tuple
              let lex := (getToken lex).2
              if (getToken lex).1.type ≠ .TOK_LIFETIME then
                .error (.Unexpected (getToken lex).1 [.TOK_LIFETIME])
              else
                let lex := (getToken lex).2
                if (getToken lex).1.type ≠ .TOK_PAREN_CLOSE then
                  .error (.Unexpected (getToken lex).1 [.TOK_PAREN_CLOSE])
                else .ok (inner, (getToken lex).2)
            else
              (Parse_Type_tuple env n [inner] (putback (getToken lex).2 (getToken lex).1)).andThen
                fun (types, tok, lex) =>
                  if tok.type ≠ .TOK_PAREN_CLOSE then
                    .error (.Unexpected tok [.TOK_PAREN_CLOSE])
                  else .ok (.Tuple types, lex)
    | _ => .error (.Unexpected tok [])
/-- The `while( GET_TOK(tok, lex) == TOK_COMMA )` loop of the tuple case of
`Parse_Type_Int`, entered with the element types collected so far: the element
types after the loop, the token that ended it and the stream behind that
token. -/
def Parse_Type_tuple (env : ParseEnv P E M) : Nat → List (TypeRef P E M) → TokenStream →
    Outcome (List (TypeRef P E M) × Token × TokenStream)
  | 0, _, _ => .out_of_fuel
  | n + 1, types, lex0 =>
    let tok := (getToken lex0).1
    let lex := (getToken lex0).2
    if tok.type = .TOK_COMMA then
      if (getToken lex).1.type = .TOK_PAREN_CLOSE then
        .ok (types, (getToken lex).1, (getToken lex).2)
      else
        (Parse_Type env n (putback (getToken lex).2 (getToken lex).1)).andThen fun (ty, lex) =>
          Parse_Type_tuple env n (types ++ [ty]) lex
    else .ok (types, tok, lex)
/-- The function `Parse_Type_Fn`; the higher-ranked lifetimes are accepted and
not used. -/
def Parse_Type_Fn (env : ParseEnv P E M) : Nat → List String → TokenStream →
    Outcome (TypeRef P E M × TokenStream)
  | 0, _, _ => .out_of_fuel
  | n + 1, _hrls, lex0 =>
    -- GET_TOK(tok, lex);
    let tok := (getToken lex0).1
    let lex := (getToken lex0).2
    -- if( tok.type() == TOK_RWORD_UNSAFE ) GET_TOK(tok, lex);
    -- tok1 and lex1 are tok and lex after this step
    let tok1 := if tok.type = .TOK_RWORD_UNSAFE then (getToken lex).1 else tok
    let lex1 := if tok.type = .TOK_RWORD_UNSAFE then (getToken lex).2 else lex
    -- if( tok.type() == TOK_RWORD_EXTERN ): the next token is read; when it is a
    -- string literal it is the ABI and one more token is read, otherwise the ABI is "C";
    -- tok2 and lex2 are tok and lex after this step
    let is_extern : Bool := tok1.type = .TOK_RWORD_EXTERN
    let has_abi : Bool := is_extern && (getToken lex1).1.type = .TOK_STRING
    let abi := if is_extern then (if has_abi then (getToken lex1).1.str else "C") else ""
    let tok2 :=
      if is_extern then
        (if has_abi then (getToken (getToken lex1).2).1 else (getToken lex1).1)
      else tok1
    let lex2 :=
      if is_extern then
        (if has_abi then (getToken (getToken lex1).2).2 else (getToken lex1).2)
      else lex1
    -- CHECK_TOK(tok, TOK_RWORD_FN); GET_CHECK_TOK(tok, lex, TOK_PAREN_OPEN);
    if tok2.type ≠ .TOK_RWORD_FN then .error (.Unexpected tok2 [.TOK_RWORD_FN])
    else if (getToken lex2).1.type ≠ .TOK_PAREN_OPEN then
      .error (.Unexpected (getToken lex2).1 [.TOK_PAREN_OPEN])
    else
      (Parse_Type_Fn_args env n [] (getToken lex2).2).andThen fun (args, lex) =>
        if (getToken lex).1.type ≠ .TOK_PAREN_CLOSE then
          .error (.Unexpected (getToken lex).1 [.TOK_PAREN_CLOSE])
        else
          let lex := (getToken lex).2
          if (getToken lex).1.type = .TOK_THINARROW then
            (Parse_Type env n (getToken lex).2).andThen fun (ret_type, lex) =>
              .ok (.Function abi args ret_type, lex)
          else
            .ok (.Function abi args TypeRef.Unit, putback (getToken lex).2 (getToken lex).1)
/-- The `while( LOOK_AHEAD(lex) != TOK_PAREN_CLOSE )` loop of `Parse_Type_Fn`,
entered with the argument types collected so far: the argument types after the
loop and the stream it leaves. -/
def Parse_Type_Fn_args (env : ParseEnv P E M) : Nat → List (TypeRef P E M) → TokenStream →
    Outcome (List (TypeRef P E M) × TokenStream)
  | 0, _, _ => .out_of_fuel
  | n + 1, args, lex =>
    if lookahead lex 0 ≠ .TOK_PAREN_CLOSE then
      if lookahead lex 0 = .TOK_TRIPLE_DOT then
        .ok (args, (getToken lex).2)
      else
        -- Handle ident:
        let lex :=
          if lookahead lex 0 = .TOK_IDENT ∧ lookahead lex 1 = .TOK_COLON then
            (getToken (getToken lex).2).2
          else lex
        (Parse_Type env n lex).andThen fun (ty, lex) =>
          if (getToken lex).1.type ≠ .TOK_COMMA then
            .ok (args ++ [ty], putback (getToken lex).2 (getToken lex).1)
          else Parse_Type_Fn_args env n (args ++ [ty]) (getToken lex).2
    else .ok (args, lex)
end

/-! ## Spec-side notions and sample inputs of the type parser -/


/-- Holds when `Parse_Type` succeeds on the stream `lex` with the type `ty` and
leaves the stream `rest`: every large enough bound on the call depth gives
that result. -/
def ParsesTo (env : ParseEnv P E M) (lex : TokenStream) (ty : TypeRef P E M)
    (rest : TokenStream) : Prop :=
  ∃ fuel0, ∀ fuel, fuel0 ≤ fuel → Parse_Type env fuel lex = .ok (ty, rest)

/-- Holds when `Parse_Type` fails on the stream `lex` with the error `err`:
every large enough bound on the call depth gives that error. -/
def FailsWith (env : ParseEnv P E M) (lex : TokenStream) (err : ParseError) : Prop :=
  ∃ fuel0, ∀ fuel, fuel0 ≤ fuel → Parse_Type env fuel lex = .error err

/-- Holds when the outcome `b` is the outcome `a`, unless `a` ran out of fuel:
what a run gives with more fuel refines what it gives with less. -/
def Outcome.le {α : Type} (a b : Outcome α) : Prop :=
  a = .out_of_fuel ∨ b = a

/-- The trait-bound paths a type expression carries at its top: the path of a
plain path type, the bounds of a trait-object node. -/
def TypeRef.trait_paths : TypeRef P E M → List P
  | .Path path => [path]
  | .TraitObject _ traits => traits
  | _ => []

/-- Whether a type expression is a trait-object node. -/
def TypeRef.is_trait_object : TypeRef P E M → Bool
  | .TraitObject _ _ => true
  | _ => false

/-- Whether a type expression is a tuple. -/
def TypeRef.is_tuple : TypeRef P E M → Bool
  | .Tuple _ => true
  | _ => false

/-- Whether the bounds at the head of a stream are all lifetimes: a lifetime
token, followed by `+` and a lifetime token any number of times, and then by
no further `+`. -/
def only_lifetime_bounds : TokenStream → Bool
  | [] => false
  | [tok] => tok.type = .TOK_LIFETIME
  | tok :: plus :: rest =>
    tok.type = .TOK_LIFETIME &&
      (if plus.type = .TOK_PLUS then only_lifetime_bounds rest else true)

/-- The tokens of a lifetime position that may be left empty. -/
def lifetime_tokens : Option String → TokenStream
  | none => []
  | some name => [⟨.TOK_LIFETIME, name⟩]

/-- The tokens of a `mut` position that may be left empty. -/
def mut_tokens : Bool → TokenStream
  | true => [⟨.TOK_RWORD_MUT, ""⟩]
  | false => []

/-- A small table of primitive names for the sample parsers. -/
def sample_coretype_fromstring (name : String) : Option eCoreType :=
  if name = "bool" then some .Bool
  else if name = "char" then some .Char
  else if name = "u8" then some .U8
  else if name = "i32" then some .I32
  else if name = "u32" then some .U32
  else if name = "usize" then some .Usize
  else if name = "f64" then some .F64
  else none

/-- A sample environment: a path is one identifier, a length expression is one
integer literal, a macro invocation keeps the name of the macro; paths are
lists of names, expression nodes and macro invocations are texts. -/
def sample_env : ParseEnv (List String) String String where
  coretype_fromstring := sample_coretype_fromstring
  str_path := ["#", "str"]
  Parse_Path := fun lex =>
    if (getToken lex).1.type = .TOK_IDENT then .ok ([(getToken lex).1.str], (getToken lex).2)
    else .error (.Unexpected (getToken lex).1 [.TOK_IDENT])
  Parse_Expr := fun lex =>
    if (getToken lex).1.type = .TOK_INTEGER then .ok ((getToken lex).1.str, (getToken lex).2)
    else .error (.Unexpected (getToken lex).1 [.TOK_INTEGER])
  Parse_MacroInvocation := fun name lex => .ok (name, lex)

/-- The token of a kind that carries no text. -/
def tk (type : eTokenType) : Token := ⟨type, ""⟩

/-- The identifier token of a given name. -/
def ident (name : String) : Token := ⟨.TOK_IDENT, name⟩

/-- The lifetime token of a given name. -/
def lifetime (name : String) : Token := ⟨.TOK_LIFETIME, name⟩

/-- Holds when a stream starts with `,` or `)`, the tokens that end an element
of a tuple or a parameter of a function type. -/
def at_delimiter (lex : TokenStream) : Prop :=
  (getToken lex).1.type = .TOK_COMMA ∨ (getToken lex).1.type = .TOK_PAREN_CLOSE

/-- Holds when `toks` is the token sequence of a type that parses to `ty`:
followed by `,` or `)`, `Parse_Type` consumes just these tokens and returns
`ty`. -/
def TypeTokens (env : ParseEnv P E M) (toks : TokenStream) (ty : TypeRef P E M) : Prop :=
  ∀ cont, at_delimiter cont → ParsesTo env (toks ++ cont) ty cont

/-- The tokens of further elements, each one after a `,`. -/
def more_elems : List TokenStream → TokenStream
  | [] => []
  | toks :: others => tk .TOK_COMMA :: (toks ++ more_elems others)

/-- The stream read again after its next token was read and put back: the
stream itself, or the end-of-input token when it is empty. -/
def reread (lex : TokenStream) : TokenStream :=
  putback (getToken lex).2 (getToken lex).1

/-- The tokens before the parameter list of a function type: `unsafe` when
asked for, then nothing, `extern`, or `extern` and an ABI string, then `fn`. -/
def fn_head (is_unsafe_fn : Bool) (ext : Option (Option String)) : TokenStream :=
  (if is_unsafe_fn then [tk .TOK_RWORD_UNSAFE] else []) ++
    ((match ext with
      | none => []
      | some none => [tk .TOK_RWORD_EXTERN]
      | some (some abi) => [tk .TOK_RWORD_EXTERN, ⟨.TOK_STRING, abi⟩]) ++
    [tk .TOK_RWORD_FN])

/-- The ABI string of a function type: empty without `extern`, `C` for `extern`
alone, the string literal when there is one. -/
def fn_abi : Option (Option String) → String
  | none => ""
  | some none => "C"
  | some (some abi) => abi

/-- The tokens of one parameter: the name and `:` when the parameter is named,
then the tokens of its type. -/
def param_tokens (name : Option String) (toks : TokenStream) : TokenStream :=
  (match name with
    | none => []
    | some n => [ident n, tk .TOK_COLON]) ++ toks

/-- The tokens of further parameters, each one after a `,`; a parameter is
given by its name, if it has one, the tokens of its type, and that type. -/
def more_params : List (Option String × TokenStream × TypeRef P E M) → TokenStream
  | [] => []
  | p :: others => tk .TOK_COMMA :: (param_tokens p.1 p.2.1 ++ more_params others)

/-- The tokens of a parameter list, the parameters separated by `,`. -/
def params_tokens : List (Option String × TokenStream × TypeRef P E M) → TokenStream
  | [] => []
  | p :: others => param_tokens p.1 p.2.1 ++ more_params others

/-- Whether a stream starts with an identifier and `:`. -/
def starts_ident_colon (lex : TokenStream) : Prop :=
  lookahead lex 0 = .TOK_IDENT ∧ lookahead lex 1 = .TOK_COLON

/-! ## Consumption of tokens and termination of the type parser -/

/-- The number of tokens of the input that a token stands for: none for the
end-of-input token, two for `&&`, which the parser reads as two `&`, and one
for any other token. -/
def Token.weight (tok : Token) : Nat :=
  match tok.type with
  | .TOK_EOF => 0
  | .TOK_DOUBLE_AMP => 2
  | _ => 1

/-- The number of tokens still to be read from a stream, `&&` counting for
two. -/
def weight : TokenStream → Nat
  | [] => 0
  | tok :: rest => tok.weight + weight rest

/-- Holds when `rest` is what is left of the stream `lex` after tokens were
read from its front: a suffix of `lex`, or the end-of-input token alone, which
is what a putback leaves once the end of the input was read. -/
def LeftOf (rest lex : TokenStream) : Prop :=
  rest <:+ lex ∨ rest = [Token.eof]

/-- Holds when the parsers of other files only consume tokens from the front
of the stream: the stream that each of them leaves when it returns is what is
left of the stream it was given. -/
def ParseEnv.consumes_only (env : ParseEnv P E M) : Prop :=
  (∀ lex path rest, env.Parse_Path lex = .ok (path, rest) → LeftOf rest lex) ∧
  (∀ lex expr rest, env.Parse_Expr lex = .ok (expr, rest) → LeftOf rest lex) ∧
  (∀ name lex inv rest, env.Parse_MacroInvocation name lex = .ok (inv, rest) → LeftOf rest lex)

/-- Holds when the path parser consumes at least one token whenever it
returns. -/
def ParseEnv.path_consumes (env : ParseEnv P E M) : Prop :=
  ∀ lex path rest, env.Parse_Path lex = .ok (path, rest) → weight rest < weight lex

/-- Whether the next token of a stream is one at which `Parse_Type_Int` hands
the stream, that token included, to the path parser: an identifier, `::`,
`super`, `<` or `<<`. -/
def starts_path (lex : TokenStream) : Bool :=
  match (getToken lex).1.type with
  | .TOK_IDENT | .TOK_DOUBLE_COLON | .TOK_RWORD_SUPER | .TOK_LT | .TOK_DOUBLE_LT => true
  | _ => false

/-- Holds when an outcome meets a condition on its value and, given enough
fuel, is not the exhaustion of the fuel: if the run returned a value then
`post` holds of it, and if `enough` holds then the run finished. -/
def Outcome.Meets {α : Type} (a : Outcome α) (post : α → Prop) (enough : Prop) : Prop :=
  (∀ v, a = .ok v → post v) ∧ (enough → a ≠ .out_of_fuel)

/-- An environment whose path parser returns at once, reading no token. -/
def idle_path_env : ParseEnv (List String) String String where
  coretype_fromstring := sample_coretype_fromstring
  str_path := ["#", "str"]
  Parse_Path := fun lex => .ok ([], lex)
  Parse_Expr := sample_env.Parse_Expr
  Parse_MacroInvocation := sample_env.Parse_MacroInvocation

end Parse

/-! ## Theorems -/

namespace HIR

variable {G P : Type}

/-- The element-wise loop succeeds exactly when the two vectors agree at each
of the positions it visits. -/
theorem is_visible_loop_iff (p vis : List String) (k i : Nat) :
    is_visible_loop p vis k i = true ↔ ∀ j, j < k → p[i + j]? = vis[i + j]? := by
  induction k generalizing i with
  | zero => simp [is_visible_loop]
  | succ k ih =>
    simp only [is_visible_loop]
    constructor
    · intro h j hj
      by_cases hne : p[i]? = vis[i]?
      · simp [hne] at h
        cases j with
        | zero => simpa using hne
        | succ j =>
          have := (ih (i + 1)).1 h j (by omega)
          rw [show i + (j + 1) = i + 1 + j by omega]
          exact this
      · simp [hne] at h
    · intro h
      have h0 := h 0 (by omega)
      simp at h0
      simp [h0]
      apply (ih (i + 1)).2
      intro j hj
      have := h (j + 1) (by omega)
      rw [show i + 1 + j = i + (j + 1) by omega]
      exact this

/-- Run over all of `vis` from position 0, the loop decides whether `vis` is an
initial segment of `p`. -/
theorem is_visible_loop_initial (p vis : List String) :
    is_visible_loop p vis vis.length 0 = true ↔ vis <+: p := by
  rw [is_visible_loop_iff, List.prefix_iff_eq_take]
  constructor
  · intro h
    apply List.ext_getElem?
    intro j
    by_cases hj : j < vis.length
    · have := h j hj
      simp at this
      rw [List.getElem?_take_of_lt hj]
      exact this.symm
    · rw [List.getElem?_eq_none (by omega), List.getElem?_eq_none (by simp; omega)]
  · intro h j hj
    simp
    conv => rhs; rw [h]
    rw [List.getElem?_take_of_lt hj]

/-- C1: `Publicity::is_visible` computes the reference visibility rule, for every
publicity and every path: global is visible, private is not, and a restriction
is met exactly when the crate names agree and the restriction's components
are a prefix of the path's components. -/
theorem is_visible_eq_reference (v : Publicity) (p : SimplePath) :
    v.is_visible p = is_visible_reference v p := by
  unfold Publicity.is_visible is_visible_reference
  cases hv : v.vis_path with
  | none => rfl
  | some r =>
    simp only
    by_cases hnone : r = Publicity.none_path
    · simp [hnone]
    · simp only [hnone, if_false]
      by_cases hc : p.m_crate_name = r.m_crate_name
      · by_cases hl : p.m_components.length < r.m_components.length
        · have : ¬ r.m_components <+: p.m_components := fun h => by
            have := h.length_le; omega
          simp [hc, hl, this]
        · have hpre := is_visible_loop_initial p.m_components r.m_components
          simp only [hc, bne_self_eq_false, Bool.false_eq_true, if_false, hl, true_and]
          by_cases hp : r.m_components <+: p.m_components
          · simp [hp, hpre.2 hp]
          · have : is_visible_loop p.m_components r.m_components r.m_components.length 0 = false := by
              cases h : is_visible_loop p.m_components r.m_components r.m_components.length 0
              · rfl
              · exact absurd (hpre.1 h) hp
            simp [hp, this]
      · simp [hc]

/-- The element loop over two vectors of one size succeeds exactly when the
literals at each position compare equal. -/
theorem eq_elems_iff (ops : PayloadOps G P) :
    ∀ (a b : Vec (Literal G P)), a.length = b.length →
      (Literal.eq_elems ops a b = true ↔
        ∀ (i : Nat) (ha : i < a.length) (hb : i < b.length), Literal.eq ops a[i] b[i] = true)
  | [], [], _ => by simp [Literal.eq_elems]
  | [], _ :: _, h => by simp at h
  | _ :: _, [], h => by simp at h
  | x :: xs, y :: ys, h => by
    have ih := eq_elems_iff ops xs ys (by simpa using h)
    simp only [Literal.eq_elems]
    constructor
    · intro hxy i ha hb
      cases hx : Literal.eq ops x y
      · simp [hx] at hxy
      · simp [hx] at hxy
        cases i with
        | zero => simpa using hx
        | succ i => simpa using ih.1 hxy i (by simpa using ha) (by simpa using hb)
    · intro hall
      have h0 := hall 0 (by simp) (by simp)
      simp at h0
      simp [h0]
      apply ih.2
      intro i ha hb
      simpa using hall (i + 1) (by simpa using ha) (by simpa using hb)

/-- C3: the literal `==` is structural equality on operands of one variant: two
lists are equal iff they have one length and equal elements at each position,
two variants iff their indices are equal and their payloads are equal, two
borrowed literals iff their pointees are equal, two `Invalid` or two `Defer`
always, and `Integer`, `Float`, `Generic`, `BorrowPath` and `String` compare by
the equality of their payloads. -/
theorem literal_eq_structural (ops : PayloadOps G P) :
    (∀ a b : Vec (Literal G P), Literal.eq ops (.List a) (.List b) = true ↔
      (a.length = b.length ∧
        ∀ (i : Nat) (ha : i < a.length) (hb : i < b.length), Literal.eq ops a[i] b[i] = true)) ∧
    (∀ (i j : Nat) (a b : Literal G P), Literal.eq ops (.Variant i a) (.Variant j b) = true ↔
      (i = j ∧ Literal.eq ops a b = true)) ∧
    (∀ a b : Literal G P, Literal.eq ops (.BorrowData a) (.BorrowData b) = Literal.eq ops a b) ∧
    Literal.eq ops .Invalid .Invalid = true ∧
    Literal.eq ops .Defer .Defer = true ∧
    (∀ a b : Nat, Literal.eq ops (.Integer a) (.Integer b) = (a == b)) ∧
    (∀ a b : Double, Literal.eq ops (.Float a) (.Float b) = Double.eq a b) ∧
    (∀ a b : G, Literal.eq ops (.Generic a) (.Generic b) = ops.generic_eq a b) ∧
    (∀ a b : P, Literal.eq ops (.BorrowPath a) (.BorrowPath b) = ops.path_eq a b) ∧
    (∀ a b : String, Literal.eq ops (.String a) (.String b) = (a == b)) := by
  refine ⟨?_, ?_, ?_, ?_, ?_, ?_, ?_, ?_, ?_, ?_⟩
  · intro a b
    by_cases hlen : a.length = b.length
    · simp [Literal.eq, Literal.tag, hlen, eq_elems_iff ops a b hlen]
    · simp [Literal.eq, Literal.tag, hlen]
  · intro i j a b
    by_cases hij : i = j
    · simp [Literal.eq, Literal.tag, hij]
    · simp [Literal.eq, Literal.tag, hij]
  · intro a b; simp [Literal.eq, Literal.tag]
  · simp [Literal.eq, Literal.tag]
  · simp [Literal.eq, Literal.tag]
  · intro a b; simp [Literal.eq, Literal.tag]
  · intro a b; simp [Literal.eq, Literal.tag]
  · intro a b; simp [Literal.eq, Literal.tag]
  · intro a b; simp [Literal.eq, Literal.tag]
  · intro a b; simp [Literal.eq, Literal.tag]

/-- C4: two literals whose active variants differ never compare equal, whatever
their payloads are. -/
theorem literal_eq_tag_strict (ops : PayloadOps G P) (l r : Literal G P)
    (h : l.tag ≠ r.tag) : Literal.eq ops l r = false := by
  cases l <;> cases r <;> first
    | exact absurd rfl h
    | simp [Literal.eq, Literal.tag]

/-- An integer and a one-element list holding that integer are unequal. -/
theorem literal_eq_tag_strict_witness :
    Literal.eq nat_ops (.Integer 5) (.List [.Integer 5]) = false :=
  literal_eq_tag_strict nat_ops (.Integer 5) (.List [.Integer 5]) (by decide)

/-- A `double` that is not a NaN compares equal to itself. -/
theorem double_eq_self (d : Double) (h : d.is_nan = false) : Double.eq d d = true := by
  simp [Double.eq, h]

mutual
/-- A NaN-free literal compares equal to its clone, by recursion over the
literal. -/
theorem clone_eq_of_no_nan (ops : PayloadOps G P)
    (hg : ∀ g, ops.generic_eq g g = true) (hp : ∀ p, ops.path_eq (ops.path_clone p) p = true) :
    ∀ x : Literal G P, x.has_nan = false → Literal.eq ops (Literal.clone ops x) x = true
  | .Invalid, _ => by simp [Literal.clone, Literal.eq, Literal.tag]
  | .Defer, _ => by simp [Literal.clone, Literal.eq, Literal.tag]
  | .Generic e, _ => by simp [Literal.clone, Literal.eq, Literal.tag, hg]
  | .List e, h => by
    have ih := clone_vals_eq_of_no_nan ops hg hp e (by simpa [Literal.has_nan] using h)
    simp [Literal.clone, Literal.eq, Literal.tag, ih.1, ih.2]
  | .Variant idx val, h => by
    have ih := clone_eq_of_no_nan ops hg hp val (by simpa [Literal.has_nan] using h)
    simp [Literal.clone, Literal.eq, Literal.tag, ih]
  | .Integer e, _ => by simp [Literal.clone, Literal.eq, Literal.tag]
  | .Float e, h => by
    have := double_eq_self e (by simpa [Literal.has_nan] using h)
    simp [Literal.clone, Literal.eq, Literal.tag, this]
  | .BorrowPath e, _ => by simp [Literal.clone, Literal.eq, Literal.tag, hp]
  | .BorrowData e, h => by
    have ih := clone_eq_of_no_nan ops hg hp e (by simpa [Literal.has_nan] using h)
    simp [Literal.clone, Literal.eq, Literal.tag, ih]
  | .String e, _ => by simp [Literal.clone, Literal.eq, Literal.tag]
termination_by structural x => x
/-- The clone of a NaN-free vector has the size of the vector and passes the
element loop against it. -/
theorem clone_vals_eq_of_no_nan (ops : PayloadOps G P)
    (hg : ∀ g, ops.generic_eq g g = true) (hp : ∀ p, ops.path_eq (ops.path_clone p) p = true) :
    ∀ e : Vec (Literal G P), Literal.has_nan_vals e = false →
      (Literal.clone_vals ops e).length = e.length ∧
        Literal.eq_elems ops (Literal.clone_vals ops e) e = true
  | [], _ => by simp [Literal.clone_vals, Literal.eq_elems]
  | val :: rest, h => by
    simp [Literal.has_nan_vals] at h
    have ih1 := clone_eq_of_no_nan ops hg hp val h.1
    have ih2 := clone_vals_eq_of_no_nan ops hg hp rest h.2
    simp [Literal.clone_vals, Literal.eq_elems, ih1, ih2.1, ih2.2]
termination_by structural e => e
end

/-- The clone of the `Float` literal holding the quiet NaN `0x7FF8000000000000`
does not compare equal to the literal. -/
theorem clone_nan_not_eq :
    Literal.eq nat_ops (Literal.clone nat_ops (.Float ⟨0x7FF8000000000000⟩))
      (.Float ⟨0x7FF8000000000000⟩) = false := by
  decide

/-- C2: a clone compares equal to its original under the literal `==`, for every
literal, of any variant and nesting depth, that holds no NaN `Float`; the
copy and comparison of the `GenericRef` and `HIR::Path` payloads, which are
declared elsewhere, are taken to yield a payload equal to the original. -/
theorem clone_eq_self (ops : PayloadOps G P)
    (hg : ∀ g, ops.generic_eq g g = true) (hp : ∀ p, ops.path_eq (ops.path_clone p) p = true)
    (x : Literal G P) (hx : x.has_nan = false) :
    Literal.eq ops (Literal.clone ops x) x = true :=
  clone_eq_of_no_nan ops hg hp x hx

/-- A nested list literal with every kind of recursive payload equals its clone. -/
theorem clone_eq_self_witness :
    Literal.eq nat_ops (Literal.clone nat_ops
        (.List [.Variant 2 (.BorrowData (.Float ⟨0x3FF8000000000000⟩)), .String "a", .Generic 3, .BorrowPath 4]))
      (.List [.Variant 2 (.BorrowData (.Float ⟨0x3FF8000000000000⟩)), .String "a", .Generic 3, .BorrowPath 4]) = true :=
  clone_eq_self nat_ops (by intro g; simp [nat_ops]) (by intro p; simp [nat_ops]) _ (by decide)

/-- The search `find_if` reaches the end exactly when no element satisfies the
predicate. -/
theorem find_if_eq_length_iff {α : Type} (pred : α → Bool) (xs : Vec α) :
    find_if pred xs = xs.length ↔ ∀ x ∈ xs, pred x = false := by
  induction xs with
  | nil => simp [find_if]
  | cons x rest ih =>
    simp only [find_if]
    by_cases hx : pred x = true
    · simp [hx]
    · simp [hx, ih]

/-- The search `find_if` stops at the first position whose element satisfies the
predicate. -/
theorem find_if_first {α : Type} (pred : α → Bool) (xs : Vec α) (i : Nat) (x : α)
    (hi : xs[i]? = some x) (hx : pred x = true)
    (hfirst : ∀ j y, j < i → xs[j]? = some y → pred y = false) :
    find_if pred xs = i := by
  induction xs generalizing i with
  | nil => simp at hi
  | cons a rest ih =>
    simp only [find_if]
    cases i with
    | zero =>
      simp at hi
      simp [hi, hx]
    | succ i =>
      have ha : pred a = false := hfirst 0 a (by omega) (by simp)
      simp [ha]
      apply ih i (by simpa using hi)
      intro j y hj hy
      exact hfirst (j + 1) y (by omega) (by simpa using hy)

/-- C5: for every enum, of either representation, and every position `i` that
holds a variant named `n` while no earlier position does, `find_variant n`
returns `i`. -/
theorem find_variant_first_position (e : Enum) (i : Nat) (n : String)
    (hi : e.variant_names[i]? = some n)
    (hfirst : ∀ j, j < i → e.variant_names[j]? ≠ some n) :
    e.find_variant n = i := by
  obtain ⟨d⟩ := e
  cases d with
  | Value repr variants =>
    simp only [Enum.variant_names, List.getElem?_map, Option.map_eq_some'] at hi hfirst
    obtain ⟨x, hx, hxn⟩ := hi
    have hfi : find_if (fun x => x.name == n) variants = i := by
      apply find_if_first _ variants i x hx (by simp [hxn])
      intro j y hj hy
      have := hfirst j hj
      simp only [hy, Option.map_some', ne_eq, Option.some.injEq] at this
      simpa using this
    have hlt : i < variants.length := by
      rcases Nat.lt_or_ge i variants.length with h | h
      · exact h
      · rw [List.getElem?_eq_none h] at hx; cases hx
    simp only [Enum.find_variant, hfi]
    have : i ≠ variants.length := by omega
    simp [this]
  | Data variants =>
    simp only [Enum.variant_names, List.getElem?_map, Option.map_eq_some'] at hi hfirst
    obtain ⟨x, hx, hxn⟩ := hi
    have hfi : find_if (fun x => x.name == n) variants = i := by
      apply find_if_first _ variants i x hx (by simp [hxn])
      intro j y hj hy
      have := hfirst j hj
      simp only [hy, Option.map_some', ne_eq, Option.some.injEq] at this
      simpa using this
    have hlt : i < variants.length := by
      rcases Nat.lt_or_ge i variants.length with h | h
      · exact h
      · rw [List.getElem?_eq_none h] at hx; cases hx
    simp only [Enum.find_variant, hfi]
    have : i ≠ variants.length := by omega
    simp [this]

/-- In an enum with the names A, B, B the lookup of B gives position 1. -/
theorem find_variant_first_position_witness :
    (Enum.mk (.Value .Rust [⟨"A", 0⟩, ⟨"B", 5⟩, ⟨"B", 7⟩])).find_variant "B" = 1 :=
  find_variant_first_position _ 1 "B" (by decide) (by decide)

/-- In an enum with two variants named A, position 1 holds a variant named A
and `find_variant` returns 0 for that name, not 1. -/
theorem find_variant_duplicate_name :
    (Enum.mk (.Value .Rust [⟨"A", 0⟩, ⟨"A", 1⟩])).variant_names[1]? = some "A" ∧
      (Enum.mk (.Value .Rust [⟨"A", 0⟩, ⟨"A", 1⟩])).find_variant "A" = 0 ∧
      (Enum.mk (.Value .Rust [⟨"A", 0⟩, ⟨"A", 1⟩])).find_variant "A" ≠ 1 := by
  decide

/-- C6: for every enum, of either representation, and every name that no variant
carries, the total function `find_variant` returns the sentinel `SIZE_MAX`;
in particular an enum without variants gives the sentinel for every name. -/
theorem find_variant_absent (e : Enum) (n : String) (h : n ∉ e.variant_names) :
    e.find_variant n = SIZE_MAX ∧ (e.variant_names = [] → ∀ m, e.find_variant m = SIZE_MAX) := by
  obtain ⟨d⟩ := e
  cases d with
  | Value repr variants =>
    constructor
    · have : find_if (fun x => x.name == n) variants = variants.length := by
        rw [find_if_eq_length_iff]
        intro x hx
        simp only [Enum.variant_names, List.mem_map, not_exists, not_and] at h
        simpa using h x hx
      simp [Enum.find_variant, this]
    · intro hnil m
      simp only [Enum.variant_names, List.map_eq_nil_iff] at hnil
      simp [Enum.find_variant, hnil, find_if]
  | Data variants =>
    constructor
    · have : find_if (fun x => x.name == n) variants = variants.length := by
        rw [find_if_eq_length_iff]
        intro x hx
        simp only [Enum.variant_names, List.mem_map, not_exists, not_and] at h
        simpa using h x hx
      simp [Enum.find_variant, this]
    · intro hnil m
      simp only [Enum.variant_names, List.map_eq_nil_iff] at hnil
      simp [Enum.find_variant, hnil, find_if]

/-- A data enum with the variants A and B gives the sentinel for C. -/
theorem find_variant_absent_witness :
    (Enum.mk (.Data [⟨"A", false⟩, ⟨"B", true⟩])).find_variant "C" = SIZE_MAX :=
  (find_variant_absent (Enum.mk (.Data [⟨"A", false⟩, ⟨"B", true⟩])) "C" (by decide)).1

/-- A map lookup finds nothing exactly when the key is not among the keys. -/
theorem map_find_eq_none_iff {V : Type} (key : String) (m : List (String × V)) :
    map_find key m = none ↔ key ∉ m.map Prod.fst := by
  induction m with
  | nil => simp [map_find]
  | cons kv rest ih =>
    obtain ⟨k, v⟩ := kv
    simp only [map_find]
    by_cases hk : k = key
    · simp [hk]
    · have : key ≠ k := fun h => hk h.symm
      simp [hk, ih, this]

/-- The function `get_containing_module` checks the length of the path, picks
the start module and walks from it. -/
theorem get_containing_module_eq (crate : Crate) (path : SimplePath) (icn iln : Bool) :
    get_containing_module crate path icn iln =
      if path.m_components.length = 0 then .error .InvalidPathNoNodes
      else if path.m_components.length ≤ (if iln then 1 else 0) then .error .InvalidPathOneNode
      else match start_module crate path icn with
        | none => .error (.UnknownCrate path.m_crate_name)
        | some start => walk_modules start 0 (walked_components path iln) := by
  unfold get_containing_module start_module
  by_cases h0 : path.m_components.length = 0
  · simp [h0]
  · by_cases h1 : path.m_components.length ≤ (if iln then 1 else 0)
    · have : ¬ path.m_components.length > (if iln = true then 1 else 0) := by omega
      simp [h0, h1, this, Nat.pos_of_ne_zero h0]
    · have h1' : path.m_components.length > (if iln = true then 1 else 0) := by omega
      have h0' : path.m_components.length > 0 := Nat.pos_of_ne_zero h0
      simp only [h0', h1', not_true_eq_false, if_false, h0, h1]
      by_cases hc : icn = false ∧ path.m_crate_name ≠ crate.m_crate_name
      · obtain ⟨rfl, hne⟩ := hc
        cases hm : map_find path.m_crate_name crate.m_ext_crates <;> simp [hne]
      · have hb : (!icn && path.m_crate_name != crate.m_crate_name) = false := by
          cases icn <;> simp_all
        simp [hb, hc]

/-- A walk that has reached `m` after `k` components, where component `k` is
missing from `m` or is no module there, fails at index `k` however many
further components are to be walked. -/
theorem walk_modules_broken (comps : List String) :
    ∀ (start : Module) (i k : Nat) (m : Module) (pc : String),
      comps[k]? = some pc →
      walk_modules start i (comps.take k) = .ok m →
      (map_find pc m.m_mod_items = none ∨
        ∃ it, map_find pc m.m_mod_items = some it ∧ it.ent.is_Module = false) →
      ∃ err, (err = Error.ComponentNotFound (i + k) ∨ err = Error.NotAModule (i + k)) ∧
        ∀ n, k < n → walk_modules start i (comps.take n) = .error err := by
  induction comps with
  | nil => intro start i k m pc hpc; simp at hpc
  | cons c rest ih =>
    intro start i k m pc hpc hreach hbad
    cases k with
    | zero =>
      simp at hpc
      subst hpc
      simp [walk_modules] at hreach
      subst hreach
      rcases hbad with hnone | ⟨it, hit, hmod⟩
      · refine ⟨.ComponentNotFound i, Or.inl rfl, ?_⟩
        intro n hn
        obtain ⟨n', rfl⟩ : ∃ n', n = n' + 1 := ⟨n - 1, by omega⟩
        simp [walk_modules, hnone]
      · refine ⟨.NotAModule i, Or.inr rfl, ?_⟩
        intro n hn
        obtain ⟨n', rfl⟩ : ∃ n', n = n' + 1 := ⟨n - 1, by omega⟩
        simp only [List.take_succ_cons, walk_modules, hit]
        cases hent : it.ent <;> simp_all [TypeItem.is_Module]
    | succ k =>
      simp only [List.take_succ_cons, walk_modules] at hreach
      cases hf : map_find c start.m_mod_items with
      | none => simp [hf] at hreach
      | some it =>
        simp only [hf] at hreach
        cases hent : it.ent with
        | Module e =>
          simp only [hent] at hreach
          obtain ⟨err, herr, hall⟩ := ih e (i + 1) k m pc (by simpa using hpc) hreach hbad
          refine ⟨err, ?_, ?_⟩
          · rw [show i + (k + 1) = i + 1 + k by omega]; exact herr
          · intro n hn
            obtain ⟨n', rfl⟩ : ∃ n', n = n' + 1 := ⟨n - 1, by omega⟩
            simp only [List.take_succ_cons, walk_modules, hf, hent]
            exact hall n' (by omega)
        | _ => simp [hent] at hreach

/-- C7: when a walked component is missing from the type-item map of the module
reached so far, or names a type item that is not a module, the type, value and
macro item lookups all fail, with the broken-path diagnostic of that component. -/
theorem broken_path_lookups_fail (crate : Crate) (path : SimplePath) (icn iln : Bool)
    (start m : Module) (k : Nat) (pc : String)
    (hstart : start_module crate path icn = some start)
    (hk : k < path.m_components.length - (if iln then 2 else 1))
    (hpc : path.m_components[k]? = some pc)
    (hreach : walk_modules start 0 (path.m_components.take k) = .ok m)
    (hbad : map_find pc m.m_mod_items = none ∨
      ∃ it, map_find pc m.m_mod_items = some it ∧ it.ent.is_Module = false) :
    ∃ err, (err = Error.ComponentNotFound k ∨ err = Error.NotAModule k) ∧
      crate.get_typeitem_by_path path icn iln = .error err ∧
      crate.get_macroitem_by_path path icn iln = .error err ∧
      crate.get_valitem_by_path path icn = .error err := by
  obtain ⟨err, herr, hall⟩ := walk_modules_broken path.m_components start 0 k m pc hpc hreach hbad
  refine ⟨err, by simpa using herr, ?_, ?_, ?_⟩
  · have hw := hall (path.m_components.length - (if iln then 2 else 1)) hk
    have hg : get_containing_module crate path icn iln = .error err := by
      rw [get_containing_module_eq, hstart]
      have h0 : path.m_components.length ≠ 0 := by omega
      have h1 : ¬ path.m_components.length ≤ (if iln = true then 1 else 0) := by
        split_ifs at hk ⊢ <;> omega
      simp only [h0, h1, if_false]
      exact hw
    simp [Crate.get_typeitem_by_path, hg]
  · have hw := hall (path.m_components.length - (if iln then 2 else 1)) hk
    have hg : get_containing_module crate path icn iln = .error err := by
      rw [get_containing_module_eq, hstart]
      have h0 : path.m_components.length ≠ 0 := by omega
      have h1 : ¬ path.m_components.length ≤ (if iln = true then 1 else 0) := by
        split_ifs at hk ⊢ <;> omega
      simp only [h0, h1, if_false]
      exact hw
    simp [Crate.get_macroitem_by_path, hg]
  · have hk1 : k < path.m_components.length - 1 := by
      split_ifs at hk <;> omega
    have hw := hall (path.m_components.length - 1) hk1
    have hg : get_containing_module crate path icn false = .error err := by
      rw [get_containing_module_eq, hstart]
      have h0 : path.m_components.length ≠ 0 := by omega
      have h1 : ¬ path.m_components.length ≤ 0 := by omega
      simp only [h0, h1, if_false, Bool.false_eq_true]
      exact hw
    simp [Crate.get_valitem_by_path, hg]

/-- The struct `S` used as a module segment of `main::a::S::x::y`. -/
theorem broken_path_lookups_fail_witness :
    ∃ err, (err = Error.ComponentNotFound 1 ∨ err = Error.NotAModule 1) ∧
      sample_crate.get_typeitem_by_path ⟨"main", ["a", "S", "x", "y"]⟩ false true = .error err ∧
      sample_crate.get_macroitem_by_path ⟨"main", ["a", "S", "x", "y"]⟩ false true = .error err ∧
      sample_crate.get_valitem_by_path ⟨"main", ["a", "S", "x", "y"]⟩ false = .error err :=
  broken_path_lookups_fail sample_crate ⟨"main", ["a", "S", "x", "y"]⟩ false true
    sample_root sample_inner 1 "S" rfl (by decide) rfl rfl (Or.inr ⟨_, rfl, rfl⟩)

/-- No start module exists for a foreign crate name that is not loaded. -/
theorem start_module_none (crate : Crate) (path : SimplePath)
    (hdiff : path.m_crate_name ≠ crate.m_crate_name)
    (hkey : path.m_crate_name ∉ crate.m_ext_crates.map Prod.fst) :
    start_module crate path false = none := by
  simp [start_module, hdiff, (map_find_eq_none_iff _ _).2 hkey]

/-- A loaded foreign crate gives its root module as the start module. -/
theorem start_module_ext (crate : Crate) (path : SimplePath) (ext : ExternCrate)
    (hdiff : path.m_crate_name ≠ crate.m_crate_name)
    (hkey : map_find path.m_crate_name crate.m_ext_crates = some ext) :
    start_module crate path false = some ext.m_data.m_root_module := by
  simp [start_module, hdiff, hkey]

/-- The current crate gives its own root module as the start module. -/
theorem start_module_own (crate : Crate) (path : SimplePath) (icn : Bool)
    (h : icn = true ∨ path.m_crate_name = crate.m_crate_name) :
    start_module crate path icn = some crate.m_root_module := by
  rcases h with h | h <;> simp [start_module, h]

/-- On a non-empty path without meaningful components `get_mod_by_path`
returns the start module. -/
theorem get_mod_by_path_short (crate : Crate) (path : SimplePath) (icn iln : Bool)
    (hne : path.m_components ≠ [])
    (hlen : path.m_components.length = (if iln then 1 else 0)) :
    crate.get_mod_by_path path iln icn =
      match start_module crate path icn with
      | none => .error (.UnknownCrate path.m_crate_name)
      | some start => .ok start := by
  have hpos : path.m_components.length > 0 := List.length_pos.2 hne
  unfold Crate.get_mod_by_path start_module
  have h0 : ¬ (iln = true ∧ ¬ path.m_components.length > 0) := fun h => h.2 hpos
  simp only [h0, if_false, hlen, if_true]
  by_cases hc : icn = false ∧ path.m_crate_name ≠ crate.m_crate_name
  · obtain ⟨rfl, hdiff⟩ := hc
    cases hm : map_find path.m_crate_name crate.m_ext_crates <;> simp [hdiff]
  · have hb : (!icn && path.m_crate_name != crate.m_crate_name) = false := by
      cases icn <;> simp_all
    simp [hb, hc]

/-- C8: where the walk of a non-empty path starts.  With crate names not
ignored, a path into a crate other than the current one fails to resolve when
that crate is not loaded and otherwise is walked from the root module of the
loaded crate; a path into the current crate, or any path when crate names are
ignored, is walked from the root module of the current crate. -/
theorem walk_start_module (crate : Crate) (path : SimplePath) (iln : Bool)
    (hne : path.m_components ≠ []) :
    (path.m_crate_name ≠ crate.m_crate_name →
      path.m_crate_name ∉ crate.m_ext_crates.map Prod.fst →
        (∃ e, get_containing_module crate path false iln = .error e) ∧
        (∃ e, crate.get_typeitem_by_path path false iln = .error e) ∧
        (∃ e, crate.get_macroitem_by_path path false iln = .error e) ∧
        (∃ e, crate.get_valitem_by_path path false = .error e) ∧
        (∃ e, crate.get_mod_by_path path iln false = .error e)) ∧
    (∀ ext : ExternCrate, path.m_crate_name ≠ crate.m_crate_name →
      map_find path.m_crate_name crate.m_ext_crates = some ext →
        get_containing_module crate path false iln =
          (if path.m_components.length > (if iln then 1 else 0) then
            walk_modules ext.m_data.m_root_module 0 (walked_components path iln)
          else .error .InvalidPathOneNode) ∧
        (path.m_components.length = (if iln then 1 else 0) →
          crate.get_mod_by_path path iln false = .ok ext.m_data.m_root_module)) ∧
    (∀ icn : Bool, icn = true ∨ path.m_crate_name = crate.m_crate_name →
        get_containing_module crate path icn iln =
          (if path.m_components.length > (if iln then 1 else 0) then
            walk_modules crate.m_root_module 0 (walked_components path iln)
          else .error .InvalidPathOneNode) ∧
        (path.m_components.length = (if iln then 1 else 0) →
          crate.get_mod_by_path path iln icn = .ok crate.m_root_module)) := by
  have hpos : path.m_components.length > 0 := List.length_pos.2 hne
  have h0 : path.m_components.length ≠ 0 := by omega
  refine ⟨?_, ?_, ?_⟩
  · intro hdiff hkey
    have hs := start_module_none crate path hdiff hkey
    have hg : ∀ b, ∃ e, get_containing_module crate path false b = .error e := by
      intro b
      rw [get_containing_module_eq, hs]
      simp only [h0, if_false]
      split_ifs <;> exact ⟨_, rfl⟩
    have hty : ∃ e, crate.get_typeitem_by_path path false iln = .error e := by
      obtain ⟨e, he⟩ := hg iln
      exact ⟨e, by simp [Crate.get_typeitem_by_path, he]⟩
    refine ⟨hg iln, hty, ?_, ?_, ?_⟩
    · obtain ⟨e, he⟩ := hg iln
      exact ⟨e, by simp [Crate.get_macroitem_by_path, he]⟩
    · obtain ⟨e, he⟩ := hg false
      exact ⟨e, by simp [Crate.get_valitem_by_path, he]⟩
    · by_cases hlen : path.m_components.length = (if iln then 1 else 0)
      · rw [get_mod_by_path_short crate path false iln hne hlen, hs]
        exact ⟨_, rfl⟩
      · obtain ⟨e, he⟩ := hty
        have h1 : ¬ (iln = true ∧ ¬ path.m_components.length > 0) := fun h => h.2 hpos
        exact ⟨e, by simp only [Crate.get_mod_by_path, h1, if_false, hlen, he]⟩
  · intro ext hdiff hkey
    have hs := start_module_ext crate path ext hdiff hkey
    constructor
    · rw [get_containing_module_eq, hs]
      simp only [h0, if_false]
      split_ifs <;> first | rfl | omega
    · intro hlen
      rw [get_mod_by_path_short crate path false iln hne hlen, hs]
  · intro icn hicn
    have hs := start_module_own crate path icn hicn
    constructor
    · rw [get_containing_module_eq, hs]
      simp only [h0, if_false]
      split_ifs <;> first | rfl | omega
    · intro hlen
      rw [get_mod_by_path_short crate path icn iln hne hlen, hs]

/-- The three cases on the sample crate: an unknown crate, the loaded crate
`ext`, and the current crate (by name, or with crate names ignored). -/
theorem walk_start_module_witness :
    (∃ e, sample_crate.get_typeitem_by_path ⟨"other", ["a", "S"]⟩ false false = .error e) ∧
    get_containing_module sample_crate ⟨"ext", ["S"]⟩ false false = .ok sample_inner ∧
    get_containing_module sample_crate ⟨"main", ["a", "S"]⟩ false false = .ok sample_inner ∧
    get_containing_module sample_crate ⟨"ext", ["a", "S"]⟩ true false = .ok sample_inner :=
  ⟨((walk_start_module sample_crate ⟨"other", ["a", "S"]⟩ false (by decide)).1
      (by decide) (by decide)).2.1,
    (((walk_start_module sample_crate ⟨"ext", ["S"]⟩ false (by decide)).2.1
      (.mk sample_ext) (by decide) rfl).1).trans rfl,
    (((walk_start_module sample_crate ⟨"main", ["a", "S"]⟩ false (by decide)).2.2
      false (Or.inr rfl)).1).trans rfl,
    (((walk_start_module sample_crate ⟨"ext", ["a", "S"]⟩ false (by decide)).2.2
      true (Or.inl rfl)).1).trans rfl⟩

/-- C9: each accessor that narrows a looked-up item to one kind succeeds exactly
when the underlying lookup succeeds with an item of that kind, returns that
item, and fails on an item of another kind. -/
theorem narrowing_accessors (crate : Crate) (path : SimplePath) :
    (∀ s, crate.get_struct_by_path path = .ok s ↔
      crate.get_typeitem_by_path path false false = .ok (.Struct s)) ∧
    (∀ t, crate.get_trait_by_path path = .ok t ↔
      crate.get_typeitem_by_path path false false = .ok (.Trait t)) ∧
    (∀ u, crate.get_union_by_path path = .ok u ↔
      crate.get_typeitem_by_path path false false = .ok (.Union u)) ∧
    (∀ icn iln e, crate.get_enum_by_path path icn iln = .ok e ↔
      crate.get_typeitem_by_path path icn iln = .ok (.Enum e)) ∧
    (∀ f, crate.get_function_by_path path = .ok f ↔
      crate.get_valitem_by_path path false = .ok (.Function f)) ∧
    (∀ iln icn m, path.m_components.length > (if iln then 1 else 0) →
      (crate.get_mod_by_path path iln icn = .ok m ↔
        crate.get_typeitem_by_path path icn iln = .ok (.Module m))) ∧
    (∀ ti, crate.get_typeitem_by_path path false false = .ok ti →
      ((∀ s, ti ≠ .Struct s) → crate.get_struct_by_path path = .error .WrongItemKind) ∧
      ((∀ t, ti ≠ .Trait t) → crate.get_trait_by_path path = .error .WrongItemKind) ∧
      ((∀ u, ti ≠ .Union u) → crate.get_union_by_path path = .error .WrongItemKind)) ∧
    (∀ icn iln ti, crate.get_typeitem_by_path path icn iln = .ok ti →
      ((∀ e, ti ≠ .Enum e) → crate.get_enum_by_path path icn iln = .error .WrongItemKind) ∧
      (path.m_components.length > (if iln then 1 else 0) → (∀ m, ti ≠ .Module m) →
        crate.get_mod_by_path path iln icn = .error .WrongItemKind)) ∧
    (∀ vi, crate.get_valitem_by_path path false = .ok vi → (∀ f, vi ≠ .Function f) →
      crate.get_function_by_path path = .error .WrongItemKind) := by
  refine ⟨?_, ?_, ?_, ?_, ?_, ?_, ?_, ?_, ?_⟩
  · intro s
    unfold Crate.get_struct_by_path
    cases h : crate.get_typeitem_by_path path false false with
    | error e => simp
    | ok ti => cases ti <;> simp
  · intro s
    unfold Crate.get_trait_by_path
    cases h : crate.get_typeitem_by_path path false false with
    | error e => simp
    | ok ti => cases ti <;> simp
  · intro s
    unfold Crate.get_union_by_path
    cases h : crate.get_typeitem_by_path path false false with
    | error e => simp
    | ok ti => cases ti <;> simp
  · intro icn iln s
    unfold Crate.get_enum_by_path
    cases h : crate.get_typeitem_by_path path icn iln with
    | error e => simp
    | ok ti => cases ti <;> simp
  · intro s
    unfold Crate.get_function_by_path
    cases h : crate.get_valitem_by_path path false with
    | error e => simp
    | ok ti => cases ti <;> simp
  · intro iln icn m hlen
    have h1 : ¬ (iln = true ∧ ¬ path.m_components.length > 0) := fun h => h.2 (by omega)
    have h2 : path.m_components.length ≠ (if iln = true then 1 else 0) := by omega
    simp only [Crate.get_mod_by_path, h1, h2, if_false]
    cases h : crate.get_typeitem_by_path path icn iln with
    | error e => simp
    | ok ti => cases ti <;> simp
  · intro ti hti
    refine ⟨?_, ?_, ?_⟩
    · intro hk
      simp only [Crate.get_struct_by_path, hti]
    · intro hk
      simp only [Crate.get_trait_by_path, hti]
    · intro hk
      simp only [Crate.get_union_by_path, hti]
  · intro icn iln ti hti
    refine ⟨?_, ?_⟩
    · intro hk
      simp only [Crate.get_enum_by_path, hti]
    · intro hlen hk
      have h1 : ¬ (iln = true ∧ ¬ path.m_components.length > 0) := fun h => h.2 (by omega)
      have h2 : path.m_components.length ≠ (if iln = true then 1 else 0) := by omega
      simp only [Crate.get_mod_by_path, h1, h2, if_false, hti]
  · intro vi hvi hk
    simp only [Crate.get_function_by_path, hvi]

/-- On the sample crate `main::a::S` is a struct, `main::a` a module, and
`main::a::S` is not a trait. -/
theorem narrowing_accessors_witness :
    sample_crate.get_struct_by_path ⟨"main", ["a", "S"]⟩ = .ok ⟨2⟩ ∧
    sample_crate.get_mod_by_path ⟨"main", ["a"]⟩ false false = .ok sample_inner ∧
    sample_crate.get_trait_by_path ⟨"main", ["a", "S"]⟩ = .error .WrongItemKind :=
  ⟨((narrowing_accessors sample_crate ⟨"main", ["a", "S"]⟩).1 ⟨2⟩).2 rfl,
    ((narrowing_accessors sample_crate ⟨"main", ["a"]⟩).2.2.2.2.2.1 false false sample_inner
      (by decide)).2 rfl,
    ((narrowing_accessors sample_crate ⟨"main", ["a", "S"]⟩).2.2.2.2.2.2.1 (.Struct ⟨2⟩) rfl).2.1
      (by intro t h; cases h)⟩

/-- C10: `get_lang_item_path` fails exactly on names that are not keys of the
lang-item table and returns the registered path otherwise; the total function
`get_lang_item_path_opt` returns that same path whenever `get_lang_item_path`
succeeds and the empty path whenever it fails, so its result is the empty path
exactly when `get_lang_item_path` fails or the registered path is itself empty. -/
theorem lang_item_lookup (crate : Crate) (name : String) :
    ((∃ e, crate.get_lang_item_path name = .error e) ↔
      name ∉ crate.m_lang_items.map Prod.fst) ∧
    (∀ p, map_find name crate.m_lang_items = some p → crate.get_lang_item_path name = .ok p) ∧
    (∀ p, crate.get_lang_item_path name = .ok p → crate.get_lang_item_path_opt name = p) ∧
    (∀ e, crate.get_lang_item_path name = .error e →
      crate.get_lang_item_path_opt name = SimplePath.empty) ∧
    (crate.get_lang_item_path_opt name = SimplePath.empty ↔
      ((∃ e, crate.get_lang_item_path name = .error e) ∨
        crate.get_lang_item_path name = .ok SimplePath.empty)) := by
  unfold Crate.get_lang_item_path Crate.get_lang_item_path_opt
  rw [← map_find_eq_none_iff]
  cases h : map_find name crate.m_lang_items with
  | none => simp
  | some p => simp

/-- The lang item `sized` of the sample crate is found by both lookups, the
name `absent` gives the empty path. -/
theorem lang_item_lookup_witness :
    sample_crate.get_lang_item_path "sized" = .ok ⟨"core", ["marker", "Sized"]⟩ ∧
    sample_crate.get_lang_item_path_opt "sized" = ⟨"core", ["marker", "Sized"]⟩ ∧
    sample_crate.get_lang_item_path_opt "absent" = SimplePath.empty :=
  ⟨(lang_item_lookup sample_crate "sized").2.1 _ rfl,
    (lang_item_lookup sample_crate "sized").2.2.1 _ rfl,
    (lang_item_lookup sample_crate "absent").2.2.2.1 _ rfl⟩

/-- The lang item `blank` of the sample crate is registered with the empty path:
`get_lang_item_path_opt` returns the empty path although `get_lang_item_path`
succeeds. -/
theorem lang_item_registered_empty :
    sample_crate.get_lang_item_path_opt "blank" = SimplePath.empty ∧
      sample_crate.get_lang_item_path "blank" = .ok SimplePath.empty ∧
      ¬ ∃ e, sample_crate.get_lang_item_path "blank" = .error e := by
  refine ⟨rfl, rfl, ?_⟩
  rintro ⟨e, he⟩
  cases he

/-- On a path without meaningful components `get_mod_by_path` returns the
start module, whatever the components are. -/
theorem get_mod_by_path_special (crate : Crate) (path : SimplePath) (icn iln : Bool)
    (hlen : path.m_components.length = (if iln then 1 else 0)) :
    crate.get_mod_by_path path iln icn =
      match start_module crate path icn with
      | none => .error (.UnknownCrate path.m_crate_name)
      | some start => .ok start := by
  unfold Crate.get_mod_by_path start_module
  have h0 : ¬ (iln = true ∧ ¬ path.m_components.length > 0) := by
    rintro ⟨h1, h2⟩
    rw [hlen, if_pos h1] at h2
    exact h2 (by decide)
  simp only [h0, if_false, hlen, if_true]
  by_cases hc : icn = false ∧ path.m_crate_name ≠ crate.m_crate_name
  · obtain ⟨rfl, hdiff⟩ := hc
    cases hm : map_find path.m_crate_name crate.m_ext_crates <;> simp [hdiff]
  · have hb : (!icn && path.m_crate_name != crate.m_crate_name) = false := by
      cases icn <;> simp_all
    simp [hb, hc]

/-- C11: on a path with no component (`ignore_last_node` clear) or exactly one
component (`ignore_last_node` set) `get_mod_by_path` returns the root module
of the crate the path is resolved in: the current crate when the crate names
agree or crate names are ignored, the loaded external crate otherwise.  No
component is looked up: the result is the root module whatever it holds, and
it is the same for every path of that crate name and length. -/
theorem get_mod_by_path_root (crate : Crate) (path : SimplePath) (iln icn : Bool)
    (hlen : path.m_components.length = (if iln then 1 else 0)) :
    (icn = true ∨ path.m_crate_name = crate.m_crate_name →
      crate.get_mod_by_path path iln icn = .ok crate.m_root_module) ∧
    (∀ ext : ExternCrate, icn = false → path.m_crate_name ≠ crate.m_crate_name →
      map_find path.m_crate_name crate.m_ext_crates = some ext →
        crate.get_mod_by_path path iln icn = .ok ext.m_data.m_root_module) ∧
    (∀ other : SimplePath, other.m_crate_name = path.m_crate_name →
      other.m_components.length = path.m_components.length →
        crate.get_mod_by_path other iln icn = crate.get_mod_by_path path iln icn) := by
  refine ⟨?_, ?_, ?_⟩
  · intro h
    rw [get_mod_by_path_special crate path icn iln hlen, start_module_own crate path icn h]
  · intro ext hicn hdiff hkey
    subst hicn
    rw [get_mod_by_path_special crate path false iln hlen,
      start_module_ext crate path ext hdiff hkey]
  · intro other hname hlen2
    rw [get_mod_by_path_special crate path icn iln hlen,
      get_mod_by_path_special crate other icn iln (hlen2.trans hlen)]
    simp [start_module, hname]

/-- The single component `nothing` names no item of the sample crate, and the
empty path names none either: both give the root module. -/
theorem get_mod_by_path_root_witness :
    sample_crate.get_mod_by_path ⟨"main", ["nothing"]⟩ true false = .ok sample_root ∧
    sample_crate.get_mod_by_path ⟨"ext", []⟩ false false = .ok sample_inner :=
  ⟨(get_mod_by_path_root sample_crate ⟨"main", ["nothing"]⟩ true false rfl).1 (Or.inr rfl),
    (get_mod_by_path_root sample_crate ⟨"ext", []⟩ false false rfl).2.1 (.mk sample_ext) rfl
      (by decide) rfl⟩

/-- The scan over the inline statics returns the static of the first entry
with the given identifier. -/
theorem find_inline_static_eq (name : String) (statics : Vec (String × Static)) :
    find_inline_static name statics =
      (statics.find? (fun e => e.1 == name)).map (fun e => e.2) := by
  induction statics with
  | nil => rfl
  | cons e rest ih =>
    simp only [find_inline_static, List.find?_cons]
    cases h : e.1 == name <;> simp [ih]

/-- C12: for a path whose parent path resolves to a module `m`: when the value
items of `m` have an entry for the last component, `get_static_by_path`
succeeds exactly when that entry is a static, and returns it; when they have
none, it returns the static of the first inline static of `m` whose identifier
is the last component, and fails exactly when there is no such inline static. -/
theorem get_static_by_path_spec (crate : Crate) (path : SimplePath) (m : Module)
    (hm : crate.get_mod_by_path path true false = .ok m) :
    (∀ it, map_find (path.m_components.getLastD "") m.m_value_items = some it →
      (∀ s, crate.get_static_by_path path = .ok s ↔ it.ent = .Static s) ∧
      ((∀ s, it.ent ≠ .Static s) → crate.get_static_by_path path = .error .WrongItemKind)) ∧
    (map_find (path.m_components.getLastD "") m.m_value_items = none →
      (∀ e, m.m_inline_statics.find? (fun e => e.1 == path.m_components.getLastD "") = some e →
        crate.get_static_by_path path = .ok e.2) ∧
      ((∃ err, crate.get_static_by_path path = .error err) ↔
        m.m_inline_statics.find? (fun e => e.1 == path.m_components.getLastD "") = none)) := by
  constructor
  · intro it hit
    simp only [Crate.get_static_by_path, hm, hit]
    cases hent : it.ent <;> simp
  · intro hnone
    simp only [Crate.get_static_by_path, hm, hnone, find_inline_static_eq]
    cases hf : m.m_inline_statics.find? (fun e => e.1 == path.m_components.getLastD "") <;> simp

/-- On the sample crate `main::X` is a static among the value items, and
`main::anon` is found among the inline statics, the first of the two entries. -/
theorem get_static_by_path_spec_witness :
    sample_statics.get_static_by_path ⟨"main", ["X"]⟩ = .ok ⟨7⟩ ∧
    sample_statics.get_static_by_path ⟨"main", ["anon"]⟩ = .ok ⟨8⟩ ∧
    sample_statics.get_static_by_path ⟨"main", ["g"]⟩ = .error .WrongItemKind :=
  ⟨(((get_static_by_path_spec sample_statics ⟨"main", ["X"]⟩ _ rfl).1 _ rfl).1 ⟨7⟩).2 rfl,
    ((get_static_by_path_spec sample_statics ⟨"main", ["anon"]⟩ _ rfl).2 rfl).1 _ rfl,
    ((get_static_by_path_spec sample_statics ⟨"main", ["g"]⟩ _ rfl).1 _ rfl).2
      (by intro s h; cases h)⟩

/-- The last element of a list without its last element is the element before
the last. -/
theorem getLastD_dropLast (d : String) (l : List String) (h : 2 ≤ l.length) :
    l.dropLast.getLastD d = l.getD (l.length - 2) d := by
  rw [List.getLastD_eq_getLast?, List.getLast?_eq_getElem?, List.getD_eq_getElem?_getD,
    List.dropLast_eq_take, List.getElem?_take]
  simp only [List.length_take]
  have h1 : min (l.length - 1) l.length - 1 = l.length - 2 := by omega
  rw [h1, if_pos (by omega)]

/-- All but the last element of a list without its last element are all but
the last two elements of the list. -/
theorem take_dropLast (l : List String) :
    l.dropLast.take (l.dropLast.length - 1) = l.take (l.length - 2) := by
  rw [List.dropLast_eq_take, List.take_take]
  simp only [List.length_take]
  congr 1
  omega

/-- With `ignore_last_node` set, `get_containing_module` returns on a path of
two components or more what it returns without the flag on the path without
its last component. -/
theorem get_containing_module_drop_last (crate : Crate) (icn : Bool) (p : SimplePath)
    (h : 2 ≤ p.m_components.length) :
    get_containing_module crate p icn true = get_containing_module crate (drop_last p) icn false := by
  have hw : walked_components (drop_last p) false = walked_components p true := by
    simp only [walked_components, drop_last, if_true, Bool.false_eq_true, if_false]
    exact take_dropLast _
  have hs : start_module crate (drop_last p) icn = start_module crate p icn := rfl
  have hl : (drop_last p).m_components.length = p.m_components.length - 1 := by
    simp [drop_last]
  rw [get_containing_module_eq, get_containing_module_eq, hw, hs, hl]
  have h0 : ¬ p.m_components.length = 0 := by omega
  have h1 : ¬ p.m_components.length - 1 = 0 := by omega
  have h2 : ¬ p.m_components.length ≤ 1 := by omega
  have hc : (drop_last p).m_crate_name = p.m_crate_name := rfl
  simp [h0, h1, h2, hc]

/-- With `ignore_last_node` set, the name looked up on a path of two components
or more is the last component of the path without its last component. -/
theorem item_name_drop_last (p : SimplePath) (h : 2 ≤ p.m_components.length) :
    item_name p true = item_name (drop_last p) false := by
  simp only [item_name, drop_last, if_true, Bool.false_eq_true, if_false]
  exact (getLastD_dropLast "" _ h).symm

/-- C22: setting `ignore_last_node` is dropping the last component:
for every crate, every value of `ignore_crate_name` and every path `p`,
when `p` has two components or more `get_typeitem_by_path` and
`get_macroitem_by_path` return with the flag set the item or the failure they
return without it on `p` without its last component, and when `p` has one
component or more so does `get_mod_by_path`. -/
theorem ignore_last_node_drops_last (crate : Crate) (icn : Bool) (p : SimplePath) :
    (2 ≤ p.m_components.length →
      crate.get_typeitem_by_path p icn true = crate.get_typeitem_by_path (drop_last p) icn false ∧
      crate.get_macroitem_by_path p icn true =
        crate.get_macroitem_by_path (drop_last p) icn false) ∧
    (1 ≤ p.m_components.length →
      crate.get_mod_by_path p true icn = crate.get_mod_by_path (drop_last p) false icn) := by
  have hty : 2 ≤ p.m_components.length →
      crate.get_typeitem_by_path p icn true =
        crate.get_typeitem_by_path (drop_last p) icn false := fun h => by
    simp only [Crate.get_typeitem_by_path, get_containing_module_drop_last crate icn p h,
      item_name_drop_last p h]
  have hmac : 2 ≤ p.m_components.length →
      crate.get_macroitem_by_path p icn true =
        crate.get_macroitem_by_path (drop_last p) icn false := fun h => by
    simp only [Crate.get_macroitem_by_path, get_containing_module_drop_last crate icn p h,
      item_name_drop_last p h]
  refine ⟨fun h => ⟨hty h, hmac h⟩, fun h => ?_⟩
  have hl : (drop_last p).m_components.length = p.m_components.length - 1 := by
    simp [drop_last]
  have hc : (drop_last p).m_crate_name = p.m_crate_name := rfl
  by_cases h1 : p.m_components.length = 1
  · have h0 : (drop_last p).m_components.length = 0 := by omega
    simp [Crate.get_mod_by_path, h1, h0, hc]
  · have h2 : 2 ≤ p.m_components.length := by omega
    have h0 : ¬ (drop_last p).m_components.length = 0 := by omega
    have hpos : p.m_components.length > 0 := by omega
    simp [Crate.get_mod_by_path, h1, h0, hty h2, hpos]

/-- In the sample crate the paths `a::S::x` and `a::x` with `ignore_last_node`
set are looked up as `a::S` and `a`: the struct `S` of the module `a`, no
macro `S`, and the module `a`. -/
theorem ignore_last_node_drops_last_witness :
    (sample_crate.get_typeitem_by_path ⟨"main", ["a", "S", "x"]⟩ false true =
        sample_crate.get_typeitem_by_path ⟨"main", ["a", "S"]⟩ false false ∧
      sample_crate.get_macroitem_by_path ⟨"main", ["a", "S", "x"]⟩ false true =
        sample_crate.get_macroitem_by_path ⟨"main", ["a", "S"]⟩ false false) ∧
    sample_crate.get_mod_by_path ⟨"main", ["a", "x"]⟩ true false =
      sample_crate.get_mod_by_path ⟨"main", ["a"]⟩ false false :=
  ⟨(ignore_last_node_drops_last sample_crate false ⟨"main", ["a", "S", "x"]⟩).1 (by decide),
    (ignore_last_node_drops_last sample_crate false ⟨"main", ["a", "x"]⟩).2 (by decide)⟩

end HIR

namespace Parse

variable {P E M : Type}

/-- The rest of a parser runs on the value of a successful outcome. -/
@[simp] theorem Outcome.andThen_ok {α β : Type} (a : α) (k : α → Outcome β) :
    (Outcome.ok a).andThen k = k a := rfl

/-- An error passes through the rest of a parser. -/
@[simp] theorem Outcome.andThen_error {α β : Type} (e : ParseError) (k : α → Outcome β) :
    (Outcome.error e : Outcome α).andThen k = .error e := rfl

/-- The exhaustion of the bound passes through the rest of a parser. -/
@[simp] theorem Outcome.andThen_out_of_fuel {α β : Type} (k : α → Outcome β) :
    (Outcome.out_of_fuel : Outcome α).andThen k = .out_of_fuel := rfl

/-- A value returned by a parser of another file is a successful outcome. -/
@[simp] theorem Outcome.ofExcept_ok {α : Type} (a : α) :
    Outcome.ofExcept (Except.ok a) = .ok a := rfl

/-- An error thrown by a parser of another file is an error outcome. -/
@[simp] theorem Outcome.ofExcept_error {α : Type} (e : ParseError) :
    (Outcome.ofExcept (Except.error e) : Outcome α) = .error e := rfl

/-- Reading from a stream that is not empty takes its first token. -/
theorem getToken_cons (tok : Token) (rest : TokenStream) :
    getToken (tok :: rest) = (tok, rest) := rfl

/-- Reading from the empty stream gives the end-of-input token. -/
theorem getToken_nil : getToken [] = (Token.eof, []) := rfl

/-- The kinds of token at which `Parse_Type_Int` does not throw at once. -/
theorem parse_type_int_head (env : ParseEnv P E M) (n : Nat) (lex : TokenStream)
    (r : TypeRef P E M × TokenStream) (h : Parse_Type_Int env n lex = .ok r) :
    (getToken lex).1.type ≠ .TOK_EOF ∧ (getToken lex).1.type ≠ .TOK_LIFETIME ∧
      (getToken lex).1.type ≠ .TOK_RWORD_MUT ∧ (getToken lex).1.type ≠ .TOK_RWORD_CONST ∧
      (getToken lex).1.type ≠ .TOK_PAREN_CLOSE ∧ (getToken lex).1.type ≠ .TOK_TRIPLE_DOT ∧
      (getToken lex).1.type ≠ .TOK_COMMA ∧ (getToken lex).1.type ≠ .TOK_PLUS := by
  cases n with
  | zero => simp [Parse_Type_Int] at h
  | succ n =>
    refine ⟨?_, ?_, ?_, ?_, ?_, ?_, ?_, ?_⟩ <;>
    · intro hk
      simp [Parse_Type_Int, hk] at h

/-- A successful run of `Parse_Type` starts at a token that can start a type. -/
theorem parse_type_head (env : ParseEnv P E M) (n : Nat) (lex : TokenStream)
    (r : TypeRef P E M × TokenStream) (h : Parse_Type env n lex = .ok r) :
    (getToken lex).1.type ≠ .TOK_EOF ∧ (getToken lex).1.type ≠ .TOK_LIFETIME ∧
      (getToken lex).1.type ≠ .TOK_RWORD_MUT ∧ (getToken lex).1.type ≠ .TOK_RWORD_CONST ∧
      (getToken lex).1.type ≠ .TOK_PAREN_CLOSE ∧ (getToken lex).1.type ≠ .TOK_TRIPLE_DOT ∧
      (getToken lex).1.type ≠ .TOK_COMMA ∧ (getToken lex).1.type ≠ .TOK_PLUS := by
  cases n with
  | zero => simp [Parse_Type] at h
  | succ n => exact parse_type_int_head env n lex r (by simpa [Parse_Type] using h)

/-- A stream on which `Parse_Type` succeeds is not empty, and reading its first
token and putting it back gives the stream again. -/
theorem parses_putback (env : ParseEnv P E M) (lex : TokenStream) (ty : TypeRef P E M)
    (rest : TokenStream) (h : ParsesTo env lex ty rest) :
    putback (getToken lex).2 (getToken lex).1 = lex := by
  obtain ⟨f0, hf⟩ := h
  have := (parse_type_head env f0 lex _ (hf f0 (Nat.le_refl _))).1
  cases lex with
  | nil => simp [getToken_nil, Token.eof] at this
  | cons tok rest => rfl

/-- A primitive name followed by anything parses to the primitive type. -/
theorem parses_primitive (env : ParseEnv P E M) (name : String) (ct : eCoreType)
    (cont : TokenStream) (h : env.coretype_fromstring name = some ct) :
    ParsesTo env (ident name :: cont) (.Primitive ct) cont := by
  refine ⟨2, fun fuel hf => ?_⟩
  obtain ⟨k, rfl⟩ : ∃ k, fuel = k + 2 := ⟨fuel - 2, by omega⟩
  simp [Parse_Type, Parse_Type_Int, getToken_cons, ident, h]

/-- C14: a stream of `&`, an optional lifetime, an optional `mut` and tokens on
which `Parse_Type` succeeds with the type `T` parses to the reference to `T`
that is mutable exactly when `mut` is present, whether or not a lifetime is
present, and leaves what the parse of `T` leaves. -/
theorem parse_reference (env : ParseEnv P E M) (lex : TokenStream) (T : TypeRef P E M)
    (rest : TokenStream) (lt : Option String) (is_mut : Bool)
    (h : ParsesTo env lex T rest) :
    ParsesTo env (tk .TOK_AMP :: (lifetime_tokens lt ++ (mut_tokens is_mut ++ lex)))
      (.Reference is_mut T) rest := by
  have hput := parses_putback env lex T rest h
  obtain ⟨f0, hf⟩ := h
  have hhead := parse_type_head env f0 lex _ (hf f0 (Nat.le_refl _))
  refine ⟨f0 + 2, fun fuel hfuel => ?_⟩
  obtain ⟨k, rfl⟩ : ∃ k, fuel = k + 2 := ⟨fuel - 2, by omega⟩
  have hk := hf k (by omega)
  cases lt <;> cases is_mut <;>
    simp [Parse_Type, Parse_Type_Int, getToken_cons, tk, lifetime_tokens, mut_tokens, hk, hput,
      hhead.2.1, hhead.2.2.1]

/-- The tokens of `&mut i32` parse to the mutable reference to the primitive
`i32`. -/
theorem parse_reference_witness :
    ParsesTo sample_env [tk .TOK_AMP, tk .TOK_RWORD_MUT, ident "i32"]
      (.Reference true (.Primitive .I32)) [] :=
  parse_reference sample_env [ident "i32"] (.Primitive .I32) [] none true
    (parses_primitive sample_env "i32" .I32 [] rfl)

/-- C15: after `*`, the token `mut` or `const` followed by tokens on which
`Parse_Type` succeeds with `T` gives the raw pointer to `T`, mutable for `mut`
and not for `const`; any other next token makes `Parse_Type` fail with the
unexpected-token error for that token whose expected set is `const`, `mut`. -/
theorem parse_pointer (env : ParseEnv P E M) (lex : TokenStream) :
    (∀ (T : TypeRef P E M) (rest : TokenStream), ParsesTo env lex T rest →
      ParsesTo env (tk .TOK_STAR :: tk .TOK_RWORD_MUT :: lex) (.Pointer true T) rest ∧
      ParsesTo env (tk .TOK_STAR :: tk .TOK_RWORD_CONST :: lex) (.Pointer false T) rest) ∧
    ((getToken lex).1.type ≠ .TOK_RWORD_MUT → (getToken lex).1.type ≠ .TOK_RWORD_CONST →
      FailsWith env (tk .TOK_STAR :: lex)
        (.Unexpected (getToken lex).1 [.TOK_RWORD_CONST, .TOK_RWORD_MUT])) := by
  constructor
  · intro T rest h
    obtain ⟨f0, hf⟩ := h
    constructor <;>
    · refine ⟨f0 + 2, fun fuel hfuel => ?_⟩
      obtain ⟨k, rfl⟩ : ∃ k, fuel = k + 2 := ⟨fuel - 2, by omega⟩
      simp [Parse_Type, Parse_Type_Int, getToken_cons, tk, hf k (by omega)]
  · intro hm hc
    refine ⟨2, fun fuel hfuel => ?_⟩
    obtain ⟨k, rfl⟩ : ∃ k, fuel = k + 2 := ⟨fuel - 2, by omega⟩
    simp [Parse_Type, Parse_Type_Int, getToken_cons, tk, hm, hc]

/-- The tokens of `*const u8` parse to the immutable pointer to the primitive
`u8`, and `*` followed by an identifier fails. -/
theorem parse_pointer_witness :
    ParsesTo sample_env [tk .TOK_STAR, tk .TOK_RWORD_CONST, ident "u8"]
      (.Pointer false (.Primitive .U8)) [] ∧
    FailsWith sample_env [tk .TOK_STAR, ident "u8"]
      (.Unexpected (ident "u8") [.TOK_RWORD_CONST, .TOK_RWORD_MUT]) :=
  ⟨((parse_pointer sample_env [ident "u8"]).1 _ _
      (parses_primitive sample_env "u8" .U8 [] rfl)).2,
    (parse_pointer sample_env [ident "u8"]).2 (by decide) (by decide)⟩

/-- C16: after `[` and tokens on which `Parse_Type` succeeds with the element
type `T`: a following `]` gives the unsized slice of `T`; a following `;`, a
length expression and `]` give the sized array of `T` with that length
expression; any other following token makes `Parse_Type` fail with the
unexpected-token error for that token. -/
theorem parse_array (env : ParseEnv P E M) (lex after : TokenStream) (T : TypeRef P E M)
    (h : ParsesTo env lex T after) :
    (∀ rest, after = tk .TOK_SQUARE_CLOSE :: rest →
      ParsesTo env (tk .TOK_SQUARE_OPEN :: lex) (.UnsizedArray T) rest) ∧
    (∀ expr_tokens size rest, after = tk .TOK_SEMICOLON :: expr_tokens →
      env.Parse_Expr expr_tokens = .ok (size, tk .TOK_SQUARE_CLOSE :: rest) →
      ParsesTo env (tk .TOK_SQUARE_OPEN :: lex) (.SizedArray T size) rest) ∧
    ((getToken after).1.type ≠ .TOK_SEMICOLON →
      (getToken after).1.type ≠ .TOK_SQUARE_CLOSE →
      FailsWith env (tk .TOK_SQUARE_OPEN :: lex) (.Unexpected (getToken after).1 [])) := by
  obtain ⟨f0, hf⟩ := h
  refine ⟨?_, ?_, ?_⟩
  · intro rest hafter
    refine ⟨f0 + 2, fun fuel hfuel => ?_⟩
    obtain ⟨k, rfl⟩ : ∃ k, fuel = k + 2 := ⟨fuel - 2, by omega⟩
    simp [Parse_Type, Parse_Type_Int, getToken_cons, tk, hf k (by omega), hafter]
  · intro expr_tokens size rest hafter hexpr
    refine ⟨f0 + 2, fun fuel hfuel => ?_⟩
    obtain ⟨k, rfl⟩ : ∃ k, fuel = k + 2 := ⟨fuel - 2, by omega⟩
    simp [Parse_Type, Parse_Type_Int, getToken_cons, tk, hf k (by omega), hafter, hexpr]
  · intro hs hc
    refine ⟨f0 + 2, fun fuel hfuel => ?_⟩
    obtain ⟨k, rfl⟩ : ∃ k, fuel = k + 2 := ⟨fuel - 2, by omega⟩
    simp [Parse_Type, Parse_Type_Int, getToken_cons, tk, hf k (by omega), hs, hc]

/-- The tokens of `[u8; 4]` parse to the sized array of `u8` with the length
expression `4`, those of `[u8]` to the slice, and `[u8,` fails. -/
theorem parse_array_witness :
    ParsesTo sample_env
      [tk .TOK_SQUARE_OPEN, ident "u8", tk .TOK_SEMICOLON, ⟨.TOK_INTEGER, "4"⟩,
        tk .TOK_SQUARE_CLOSE]
      (.SizedArray (.Primitive .U8) "4") [] ∧
    ParsesTo sample_env [tk .TOK_SQUARE_OPEN, ident "u8", tk .TOK_SQUARE_CLOSE]
      (.UnsizedArray (.Primitive .U8)) [] ∧
    FailsWith sample_env [tk .TOK_SQUARE_OPEN, ident "u8", tk .TOK_COMMA]
      (.Unexpected (tk .TOK_COMMA) []) :=
  ⟨(parse_array sample_env _ _ _ (parses_primitive sample_env "u8" .U8 _ rfl)).2.1
      [⟨.TOK_INTEGER, "4"⟩, tk .TOK_SQUARE_CLOSE] "4" [] rfl rfl,
    (parse_array sample_env _ _ _ (parses_primitive sample_env "u8" .U8 _ rfl)).1 [] rfl,
    (parse_array sample_env _ _ _ (parses_primitive sample_env "u8" .U8 [tk .TOK_COMMA] rfl)).2.2
      (by decide) (by decide)⟩

/-- An outcome refines itself. -/
theorem Outcome.le_refl {α : Type} (a : Outcome α) : Outcome.le a a := Or.inr rfl

/-- Refinement of outcomes is transitive. -/
theorem Outcome.le_trans {α : Type} {a b c : Outcome α} (hab : Outcome.le a b)
    (hbc : Outcome.le b c) : Outcome.le a c := by
  rcases hab with h | h
  · exact Or.inl h
  · subst h
    exact hbc

/-- Refinement passes through the rest of a parser. -/
theorem Outcome.le_andThen {α β : Type} {a b : Outcome α} {k l : α → Outcome β}
    (h : Outcome.le a b) (hk : ∀ v, Outcome.le (k v) (l v)) :
    Outcome.le (a.andThen k) (b.andThen l) := by
  rcases h with h | h
  · exact Or.inl (by rw [h]; rfl)
  · subst h
    cases b with
    | ok v => exact hk v
    | error e => exact Or.inr rfl
    | out_of_fuel => exact Or.inl rfl

/-- One more unit of fuel does not change a finished run of the bounds loop. -/
theorem path_bounds_mono (env : ParseEnv P E M) :
    ∀ (n : Nat) (traits : List P) (lifetimes : List String) (lex : TokenStream),
      Outcome.le (Parse_Type_Path_bounds env n traits lifetimes lex)
        (Parse_Type_Path_bounds env (n + 1) traits lifetimes lex) := by
  intro n
  induction n with
  | zero => intro traits lifetimes lex; exact Or.inl rfl
  | succ n ih =>
    intro traits lifetimes lex
    rw [Parse_Type_Path_bounds, Parse_Type_Path_bounds]
    dsimp only
    repeat' (first
      | exact Outcome.le_refl _
      | exact ih _ _ _
      | refine Outcome.le_andThen ?_ ?_
      | (intro _; dsimp only)
      | split)

/-- One more unit of fuel does not change a finished run of the lifetime-list
loop. -/
theorem hrls_mono :
    ∀ (n : Nat) (hrls : List String) (lex : TokenStream),
      Outcome.le (Parse_Type_hrls n hrls lex) (Parse_Type_hrls (n + 1) hrls lex) := by
  intro n
  induction n with
  | zero => intro hrls lex; exact Or.inl rfl
  | succ n ih =>
    intro hrls lex
    rw [Parse_Type_hrls, Parse_Type_hrls]
    dsimp only
    repeat' (first
      | exact Outcome.le_refl _
      | exact ih _ _
      | split)

/-- One more unit of fuel does not change a finished run of `Parse_Type_Path`. -/
theorem parse_type_path_mono (env : ParseEnv P E M) (n : Nat) (hrls : List String)
    (lex : TokenStream) :
    Outcome.le (Parse_Type_Path env n hrls lex) (Parse_Type_Path env (n + 1) hrls lex) := by
  unfold Parse_Type_Path
  exact Outcome.le_andThen (path_bounds_mono env n [] [] lex) (fun v => Outcome.le_refl _)

/-- The step of the fuel induction for `Parse_Type_Int`. -/
theorem parse_type_int_step (env : ParseEnv P E M) (n : Nat)
    (ihT : ∀ lex, Outcome.le (Parse_Type env n lex) (Parse_Type env (n + 1) lex))
    (ihU : ∀ types lex, Outcome.le (Parse_Type_tuple env n types lex)
      (Parse_Type_tuple env (n + 1) types lex))
    (ihF : ∀ hrls lex, Outcome.le (Parse_Type_Fn env n hrls lex)
      (Parse_Type_Fn env (n + 1) hrls lex))
    (lex : TokenStream) :
    Outcome.le (Parse_Type_Int env (n + 1) lex) (Parse_Type_Int env (n + 2) lex) := by
  have ihP := parse_type_path_mono env n
  have ihH := hrls_mono n
  rw [Parse_Type_Int, Parse_Type_Int]
  dsimp only
  cases htt : (getToken lex).1.type <;> simp only [htt]
  all_goals
    repeat' (first
      | exact Outcome.le_refl _
      | exact ihT _
      | exact ihU _ _
      | exact ihF _ _
      | exact ihP _ _
      | exact ihH _ _
      | refine Outcome.le_andThen ?_ ?_
      | (intro _; dsimp only)
      | split)

/-- The step of the fuel induction for the tuple loop. -/
theorem parse_type_tuple_step (env : ParseEnv P E M) (n : Nat)
    (ihT : ∀ lex, Outcome.le (Parse_Type env n lex) (Parse_Type env (n + 1) lex))
    (ihU : ∀ types lex, Outcome.le (Parse_Type_tuple env n types lex)
      (Parse_Type_tuple env (n + 1) types lex))
    (types : List (TypeRef P E M)) (lex : TokenStream) :
    Outcome.le (Parse_Type_tuple env (n + 1) types lex)
      (Parse_Type_tuple env (n + 2) types lex) := by
  rw [Parse_Type_tuple, Parse_Type_tuple]
  dsimp only
  repeat' (first
      | exact Outcome.le_refl _
      | exact ihT _
      | exact ihU _ _
      | refine Outcome.le_andThen ?_ ?_
      | (intro _; dsimp only)
      | split)

set_option maxHeartbeats 1000000 in
/-- The step of the fuel induction for `Parse_Type_Fn`. -/
theorem parse_type_fn_step (env : ParseEnv P E M) (n : Nat)
    (ihT : ∀ lex, Outcome.le (Parse_Type env n lex) (Parse_Type env (n + 1) lex))
    (ihA : ∀ args lex, Outcome.le (Parse_Type_Fn_args env n args lex)
      (Parse_Type_Fn_args env (n + 1) args lex))
    (hrls : List String) (lex : TokenStream) :
    Outcome.le (Parse_Type_Fn env (n + 1) hrls lex) (Parse_Type_Fn env (n + 2) hrls lex) := by
  rw [Parse_Type_Fn, Parse_Type_Fn]
  dsimp only
  split_ifs
  all_goals
    repeat' (first
      | exact Outcome.le_refl _
      | exact ihT _
      | exact ihA _ _
      | refine Outcome.le_andThen ?_ ?_
      | (intro _; dsimp only)
      | split)

/-- The step of the fuel induction for the argument loop. -/
theorem parse_type_fn_args_step (env : ParseEnv P E M) (n : Nat)
    (ihT : ∀ lex, Outcome.le (Parse_Type env n lex) (Parse_Type env (n + 1) lex))
    (ihA : ∀ args lex, Outcome.le (Parse_Type_Fn_args env n args lex)
      (Parse_Type_Fn_args env (n + 1) args lex))
    (args : List (TypeRef P E M)) (lex : TokenStream) :
    Outcome.le (Parse_Type_Fn_args env (n + 1) args lex)
      (Parse_Type_Fn_args env (n + 2) args lex) := by
  rw [Parse_Type_Fn_args, Parse_Type_Fn_args]
  dsimp only
  repeat' (first
      | exact Outcome.le_refl _
      | exact ihT _
      | exact ihA _ _
      | refine Outcome.le_andThen ?_ ?_
      | (intro _; dsimp only)
      | split)

/-- One more unit of fuel does not change a finished run of any of the five
mutually recursive parsers. -/
theorem parse_mono (env : ParseEnv P E M) :
    ∀ n : Nat,
      (∀ lex, Outcome.le (Parse_Type env n lex) (Parse_Type env (n + 1) lex)) ∧
      (∀ lex, Outcome.le (Parse_Type_Int env n lex) (Parse_Type_Int env (n + 1) lex)) ∧
      (∀ types lex, Outcome.le (Parse_Type_tuple env n types lex)
        (Parse_Type_tuple env (n + 1) types lex)) ∧
      (∀ hrls lex, Outcome.le (Parse_Type_Fn env n hrls lex)
        (Parse_Type_Fn env (n + 1) hrls lex)) ∧
      (∀ args lex, Outcome.le (Parse_Type_Fn_args env n args lex)
        (Parse_Type_Fn_args env (n + 1) args lex)) := by
  intro n
  induction n with
  | zero =>
    exact ⟨fun _ => Or.inl rfl, fun _ => Or.inl rfl, fun _ _ => Or.inl rfl,
      fun _ _ => Or.inl rfl, fun _ _ => Or.inl rfl⟩
  | succ n ih =>
    obtain ⟨ihT, ihI, ihU, ihF, ihA⟩ := ih
    refine ⟨?_, parse_type_int_step env n ihT ihU ihF,
      parse_type_tuple_step env n ihT ihU, parse_type_fn_step env n ihT ihA,
      parse_type_fn_args_step env n ihT ihA⟩
    intro lex
    rw [Parse_Type, Parse_Type]
    exact ihI lex

/-- More fuel does not change a finished run of `Parse_Type`. -/
theorem parse_type_fuel_le (env : ParseEnv P E M) (lex : TokenStream) (n : Nat) :
    ∀ m, n ≤ m → Outcome.le (Parse_Type env n lex) (Parse_Type env m lex) := by
  intro m hm
  induction m with
  | zero =>
    have : n = 0 := by omega
    subst this
    exact Outcome.le_refl _
  | succ m ih =>
    rcases Nat.lt_or_ge n (m + 1) with h | h
    · exact Outcome.le_trans (ih (by omega)) ((parse_mono env m).1 lex)
    · have : n = m + 1 := by omega
      subst this
      exact Outcome.le_refl _

/-- The function `Parse_Type` succeeds with a result for every large enough
fuel exactly when it does so for some fuel. -/
theorem parses_iff_some_fuel (env : ParseEnv P E M) (lex : TokenStream) (ty : TypeRef P E M)
    (rest : TokenStream) :
    ParsesTo env lex ty rest ↔ ∃ fuel, Parse_Type env fuel lex = .ok (ty, rest) := by
  constructor
  · rintro ⟨f0, hf⟩
    exact ⟨f0, hf f0 (Nat.le_refl _)⟩
  · rintro ⟨f0, hf⟩
    refine ⟨f0, fun fuel hfuel => ?_⟩
    rcases parse_type_fuel_le env lex f0 fuel hfuel with h | h
    · rw [hf] at h; cases h
    · rw [h, hf]

/-- The function `Parse_Type` fails with an error for every large enough fuel
exactly when it does so for some fuel. -/
theorem fails_iff_some_fuel (env : ParseEnv P E M) (lex : TokenStream) (err : ParseError) :
    FailsWith env lex err ↔ ∃ fuel, Parse_Type env fuel lex = .error err := by
  constructor
  · rintro ⟨f0, hf⟩
    exact ⟨f0, hf f0 (Nat.le_refl _)⟩
  · rintro ⟨f0, hf⟩
    refine ⟨f0, fun fuel hfuel => ?_⟩
    rcases parse_type_fuel_le env lex f0 fuel hfuel with h | h
    · rw [hf] at h; cases h
    · rw [h, hf]

/-- Looking ahead at a lifetime means that the stream starts with a lifetime
token. -/
theorem lookahead_lifetime (lex : TokenStream) (h : lookahead lex 0 = .TOK_LIFETIME) :
    ∃ tok rest, lex = tok :: rest ∧ tok.type = .TOK_LIFETIME := by
  cases lex with
  | nil => simp [lookahead] at h
  | cons tok rest => exact ⟨tok, rest, rfl, by simpa [lookahead] using h⟩

/-- The bounds loop extends the trait paths it is entered with, by nothing
exactly when the bounds at the head of the stream are all lifetimes, and it
collects at least one bound. -/
theorem path_bounds_extend (env : ParseEnv P E M) :
    ∀ (fuel : Nat) (traits : List P) (lifetimes : List String) (lex : TokenStream)
      (traits1 : List P) (lifetimes1 : List String) (tok : Token) (lex1 : TokenStream),
      Parse_Type_Path_bounds env fuel traits lifetimes lex =
        .ok (traits1, lifetimes1, tok, lex1) →
      ∃ more, traits1 = traits ++ more ∧ (more = [] ↔ only_lifetime_bounds lex = true) ∧
        traits.length + lifetimes.length < traits1.length + lifetimes1.length := by
  intro fuel
  induction fuel with
  | zero => intro traits lifetimes lex traits1 lifetimes1 tok lex1 h; simp [Parse_Type_Path_bounds] at h
  | succ n ih =>
    intro traits lifetimes lex traits1 lifetimes1 tok lex1 h
    by_cases hl : lookahead lex 0 = .TOK_LIFETIME
    · obtain ⟨t0, rest0, rfl, ht0⟩ := lookahead_lifetime lex hl
      simp only [Parse_Type_Path_bounds, hl, if_true, getToken_cons] at h
      cases rest0 with
      | nil =>
        simp [getToken_nil, Token.eof] at h
        obtain ⟨h1, h2, -, -⟩ := h
        subst h1 h2
        exact ⟨[], by simp, by simp [only_lifetime_bounds, ht0], by simp⟩
      | cons t1 rest1 =>
        simp only [getToken_cons] at h
        by_cases hp : t1.type = .TOK_PLUS
        · simp only [hp, if_true] at h
          obtain ⟨more, hm1, hm2, hm3⟩ := ih _ _ _ _ _ _ _ h
          refine ⟨more, hm1, ?_, ?_⟩
          · simp [only_lifetime_bounds, ht0, hp, hm2]
          · simp at hm3 ⊢; omega
        · simp only [hp, if_false, Outcome.ok.injEq, Prod.mk.injEq] at h
          obtain ⟨h1, h2, -, -⟩ := h
          subst h1 h2
          exact ⟨[], by simp, by simp [only_lifetime_bounds, ht0, hp], by simp⟩
    · have hnot : only_lifetime_bounds lex = false := by
        cases lex with
        | nil => rfl
        | cons t0 rest0 =>
          have : t0.type ≠ .TOK_LIFETIME := by simpa [lookahead] using hl
          cases rest0 <;> simp [only_lifetime_bounds, this]
      simp only [Parse_Type_Path_bounds, hl, if_false] at h
      cases hpath : env.Parse_Path lex with
      | error e => simp [hpath] at h
      | ok r =>
        obtain ⟨path, lex2⟩ := r
        simp only [hpath, Outcome.ofExcept_ok, Outcome.andThen_ok] at h
        by_cases hp : (getToken lex2).1.type = .TOK_PLUS
        · simp only [hp, if_true] at h
          obtain ⟨more, hm1, -, hm3⟩ := ih _ _ _ _ _ _ _ h
          refine ⟨path :: more, by simp [hm1], by simp [hnot], ?_⟩
          simp at hm3 ⊢; omega
        · simp only [hp, if_false, Outcome.ok.injEq, Prod.mk.injEq] at h
          obtain ⟨h1, h2, -, -⟩ := h
          subst h1 h2
          exact ⟨[path], by simp, by simp [hnot], by simp⟩

/-- C13: a successful run of `Parse_Type_Path` returns a trait-object node,
carrying the given higher-ranked lifetimes and the trait paths collected by
the bounds loop in their order, exactly when higher-ranked lifetimes were
supplied, or more than one trait path was parsed, or a lifetime bound was
parsed; otherwise it returns the plain path type of the one trait path
parsed.  The tokens `A + B` give a trait object of two bounds and the token
`A` alone gives a plain path type. -/
theorem parse_type_path_result :
    (∀ (P E M : Type) (env : ParseEnv P E M) (fuel : Nat) (hrls : List String)
      (lex : TokenStream) (ty : TypeRef P E M) (rest : TokenStream),
      Parse_Type_Path env fuel hrls lex = .ok (ty, rest) →
      ∃ traits lifetimes tok lex1,
        Parse_Type_Path_bounds env fuel [] [] lex = .ok (traits, lifetimes, tok, lex1) ∧
        rest = putback lex1 tok ∧
        (ty.is_trait_object = true ↔ (hrls ≠ [] ∨ traits.length > 1 ∨ lifetimes ≠ [])) ∧
        ((hrls ≠ [] ∨ traits.length > 1 ∨ lifetimes ≠ []) → ty = .TraitObject hrls traits) ∧
        (¬ (hrls ≠ [] ∨ traits.length > 1 ∨ lifetimes ≠ []) →
          ∃ path, traits = [path] ∧ ty = .Path path)) ∧
    Parse_Type_Path sample_env 2 [] [ident "A", tk .TOK_PLUS, ident "B"] =
      .ok (.TraitObject [] [["A"], ["B"]], [Token.eof]) ∧
    Parse_Type sample_env 4 [ident "A", tk .TOK_PLUS, ident "B"] =
      .ok (.TraitObject [] [["A"], ["B"]], [Token.eof]) ∧
    Parse_Type_Path sample_env 1 [] [ident "A"] = .ok (.Path ["A"], [Token.eof]) ∧
    Parse_Type sample_env 3 [ident "A"] = .ok (.Path ["A"], [Token.eof]) := by
  refine ⟨?_, rfl, rfl, rfl, rfl⟩
  intro P E M env fuel hrls lex ty rest h
  unfold Parse_Type_Path at h
  cases hb : Parse_Type_Path_bounds env fuel [] [] lex with
  | out_of_fuel => simp [hb] at h
  | error e => simp [hb] at h
  | ok r =>
    obtain ⟨traits, lifetimes, tok, lex1⟩ := r
    obtain ⟨more, -, -, hcount⟩ := path_bounds_extend env fuel [] [] lex _ _ _ _ hb
    simp only [hb, Outcome.andThen_ok] at h
    refine ⟨traits, lifetimes, tok, lex1, rfl, ?_⟩
    by_cases hc : hrls.length > 0 ∨ traits.length > 1 ∨ lifetimes.length > 0
    · have hc' : hrls ≠ [] ∨ traits.length > 1 ∨ lifetimes ≠ [] := by
        simpa [List.length_pos] using hc
      simp only [hc, if_true, Outcome.ok.injEq, Prod.mk.injEq] at h
      obtain ⟨rfl, rfl⟩ := h
      exact ⟨rfl, by simp [TypeRef.is_trait_object, hc'], fun _ => rfl, fun hn => absurd hc' hn⟩
    · have hc' : ¬ (hrls ≠ [] ∨ traits.length > 1 ∨ lifetimes ≠ []) := by
        simpa [List.length_pos] using hc
      simp only [hc, if_false] at h
      have hlt : lifetimes = [] := by
        by_contra hne; exact hc' (Or.inr (Or.inr hne))
      have htl : traits.length = 1 := by
        have h1 : ¬ traits.length > 1 := fun hgt => hc' (Or.inr (Or.inl hgt))
        subst hlt
        simp at hcount
        omega
      obtain ⟨path, rfl⟩ := List.length_eq_one.1 htl
      simp only [List.getElem?_cons_zero, Outcome.ok.injEq, Prod.mk.injEq] at h
      obtain ⟨rfl, rfl⟩ := h
      refine ⟨rfl, ?_, fun hp => absurd hp hc', fun _ => ⟨path, rfl, rfl⟩⟩
      constructor
      · intro hto; simp [TypeRef.is_trait_object] at hto
      · intro hp; exact absurd hp hc'

/-- The parse of `A + 'a` gives a trait object with the one bound `A`, the
lifetime having been parsed. -/
theorem parse_type_path_result_witness :
    ∃ traits lifetimes tok lex1,
      Parse_Type_Path_bounds sample_env 2 [] [] [ident "A", tk .TOK_PLUS, lifetime "a"] =
        .ok (traits, lifetimes, tok, lex1) ∧
      [Token.eof] = putback lex1 tok ∧
      ((TypeRef.TraitObject [] [["A"]] : TypeRef (List String) String String).is_trait_object
          = true ↔
        (([] : List String) ≠ [] ∨ traits.length > 1 ∨ lifetimes ≠ [])) ∧
      ((([] : List String) ≠ [] ∨ traits.length > 1 ∨ lifetimes ≠ []) →
        (TypeRef.TraitObject [] [["A"]] : TypeRef (List String) String String) =
          .TraitObject [] traits) ∧
      (¬ (([] : List String) ≠ [] ∨ traits.length > 1 ∨ lifetimes ≠ []) →
        ∃ path, traits = [path] ∧
          (TypeRef.TraitObject [] [["A"]] : TypeRef (List String) String String) = .Path path) :=
  parse_type_path_result.1 _ _ _ sample_env 2 [] [ident "A", tk .TOK_PLUS, lifetime "a"]
    (.TraitObject [] [["A"]]) [Token.eof] rfl

/-- C20: a type that `Parse_Type_Path` returns carries no trait-bound path
exactly when the bounds at the head of the stream are all lifetimes; on every
other stream it carries at least one. -/
theorem parse_type_path_trait_paths (env : ParseEnv P E M) (fuel : Nat) (hrls : List String)
    (lex : TokenStream) (ty : TypeRef P E M) (rest : TokenStream)
    (h : Parse_Type_Path env fuel hrls lex = .ok (ty, rest)) :
    (ty.trait_paths = [] ↔ only_lifetime_bounds lex = true) ∧
      (only_lifetime_bounds lex = false → 1 ≤ ty.trait_paths.length) := by
  unfold Parse_Type_Path at h
  cases hb : Parse_Type_Path_bounds env fuel [] [] lex with
  | out_of_fuel => simp [hb] at h
  | error e => simp [hb] at h
  | ok r =>
    obtain ⟨traits, lifetimes, tok, lex1⟩ := r
    obtain ⟨more, hmore, hiff, -⟩ := path_bounds_extend env fuel [] [] lex _ _ _ _ hb
    simp only [List.nil_append] at hmore
    subst hmore
    simp only [hb, Outcome.andThen_ok] at h
    have key : ty.trait_paths = traits := by
      by_cases hc : hrls.length > 0 ∨ traits.length > 1 ∨ lifetimes.length > 0
      · simp only [hc, if_true, Outcome.ok.injEq, Prod.mk.injEq] at h
        obtain ⟨rfl, -⟩ := h
        rfl
      · simp only [hc, if_false] at h
        cases traits with
        | nil => simp at h
        | cons path tl =>
          have : tl = [] := by
            have : ¬ (path :: tl).length > 1 := fun hgt => hc (Or.inr (Or.inl hgt))
            rw [List.length_cons] at this
            exact List.length_eq_zero.1 (by omega)
          subst this
          simp only [List.getElem?_cons_zero, Outcome.ok.injEq, Prod.mk.injEq] at h
          obtain ⟨rfl, -⟩ := h
          rfl
    rw [key]
    refine ⟨hiff, fun hf => ?_⟩
    cases traits with
    | nil => rw [hiff.1 rfl] at hf; cases hf
    | cons _ _ => simp

/-- The token `A` followed by `+ 'a` is not a run of lifetimes: the result
carries the bound `A`. -/
theorem parse_type_path_trait_paths_witness :
    ((TypeRef.TraitObject [] [["A"]] : TypeRef (List String) String String).trait_paths = [] ↔
      only_lifetime_bounds [ident "A", tk .TOK_PLUS, lifetime "a"] = true) ∧
    (only_lifetime_bounds [ident "A", tk .TOK_PLUS, lifetime "a"] = false →
      1 ≤ (TypeRef.TraitObject [] [["A"]] :
        TypeRef (List String) String String).trait_paths.length) :=
  parse_type_path_trait_paths sample_env 2 [] [ident "A", tk .TOK_PLUS, lifetime "a"]
    (.TraitObject [] [["A"]]) [Token.eof] rfl

/-- After `for<'a>` a lifetime token alone is accepted as the bounds: the
result is a trait-object node whose list of trait bounds is empty. -/
theorem parse_for_lifetime_only :
    Parse_Type sample_env 4
        [tk .TOK_RWORD_FOR, tk .TOK_LT, lifetime "a", tk .TOK_GT, lifetime "b"] =
      .ok (.TraitObject ["a"] [], [Token.eof]) ∧
    Parse_Type_Path sample_env 1 ["a"] [lifetime "b"] =
      .ok (.TraitObject ["a"] [], [Token.eof]) ∧
    (TypeRef.TraitObject ["a"] [] : TypeRef (List String) String String).trait_paths = [] :=
  ⟨rfl, rfl, rfl⟩

/-- Looking ahead by zero reads the kind of the next token. -/
theorem lookahead_zero (lex : TokenStream) : lookahead lex 0 = (getToken lex).1.type := by
  cases lex <;> simp [lookahead, getToken_cons, getToken_nil, Token.eof]

/-- A stream that starts with `,` or `)` is not empty: rereading it changes
nothing. -/
theorem reread_at_delimiter (lex : TokenStream) (h : at_delimiter lex) :
    putback (getToken lex).2 (getToken lex).1 = lex := by
  cases lex with
  | nil => rcases h with h | h <;> simp [getToken_nil, Token.eof] at h
  | cons tok rest => rfl

/-- The token sequence of a type is not empty and starts with a token that can
start a type. -/
theorem type_tokens_head (env : ParseEnv P E M) (toks : TokenStream) (ty : TypeRef P E M)
    (h : TypeTokens env toks ty) :
    ∃ tok rest, toks = tok :: rest ∧ tok.type ≠ .TOK_PAREN_CLOSE ∧
      tok.type ≠ .TOK_TRIPLE_DOT ∧ tok.type ≠ .TOK_COMMA := by
  obtain ⟨f0, hf⟩ := h [tk .TOK_COMMA] (Or.inl rfl)
  have hh := parse_type_head env f0 _ _ (hf f0 (Nat.le_refl _))
  cases toks with
  | nil => exact absurd rfl hh.2.2.2.2.2.2.1
  | cons tok rest =>
    exact ⟨tok, rest, rfl, hh.2.2.2.2.1, hh.2.2.2.2.2.1, hh.2.2.2.2.2.2.1⟩

/-- The tuple loop, entered before the tokens of further elements and a
closing `)`, with or without a `,` before it, collects the types of these
elements and ends at the `)`. -/
theorem tuple_loop_collects (env : ParseEnv P E M) (rest : TokenStream) (trailing : Bool) :
    ∀ (elems : List (TokenStream × TypeRef P E M)) (types : List (TypeRef P E M)),
      (∀ e ∈ elems, TypeTokens env e.1 e.2) →
      ∃ fuel0, ∀ fuel, fuel0 ≤ fuel →
        Parse_Type_tuple env fuel types
          (more_elems (elems.map (fun e => e.1)) ++
            ((if trailing then [tk .TOK_COMMA] else []) ++ tk .TOK_PAREN_CLOSE :: rest)) =
          .ok (types ++ elems.map (fun e => e.2), tk .TOK_PAREN_CLOSE, rest) := by
  intro elems
  induction elems with
  | nil =>
    intro types _
    refine ⟨1, fun fuel hfuel => ?_⟩
    obtain ⟨k, rfl⟩ : ∃ k, fuel = k + 1 := ⟨fuel - 1, by omega⟩
    cases trailing <;> simp [more_elems, Parse_Type_tuple, getToken_cons, tk]
  | cons e others ih =>
    intro types hall
    have he : TypeTokens env e.1 e.2 := hall e (List.mem_cons_self _ _)
    obtain ⟨tok0, toks0, htoks, hne, -, -⟩ := type_tokens_head env e.1 e.2 he
    obtain ⟨f1, hf1⟩ := ih (types ++ [e.2]) (fun x hx => hall x (List.mem_cons_of_mem _ hx))
    have hdelim : at_delimiter (more_elems (others.map (fun e => e.1)) ++
        ((if trailing then [tk .TOK_COMMA] else []) ++ tk .TOK_PAREN_CLOSE :: rest)) := by
      cases others <;> cases trailing <;> simp [at_delimiter, more_elems, getToken_cons, tk]
    obtain ⟨f2, hf2⟩ := he _ hdelim
    refine ⟨max f1 f2 + 1, fun fuel hfuel => ?_⟩
    obtain ⟨k, rfl⟩ : ∃ k, fuel = k + 1 := ⟨fuel - 1, by omega⟩
    have h2 := hf2 k (by omega)
    have h1 := hf1 k (by omega)
    rw [htoks] at h2
    simp only [List.map_cons, more_elems, List.cons_append, Parse_Type_tuple, getToken_cons, tk,
      if_true, htoks, hne, if_false, putback, List.append_assoc]
    simp only [List.cons_append, List.append_assoc] at h2
    simp only [tk] at h2 h1
    rw [h2]
    simp only [List.append_assoc, List.singleton_append] at h1 ⊢
    exact h1

/-- C19: the tokens `(` `)` parse to the empty tuple; and for one or more
element token sequences, separated by `,`, the stream in parentheses parses
to the tuple of the element types in their order, the same with and without
one more `,` before the `)`. -/
theorem parse_tuple (env : ParseEnv P E M) (rest : TokenStream) :
    ParsesTo env (tk .TOK_PAREN_OPEN :: tk .TOK_PAREN_CLOSE :: rest) (.Tuple []) rest ∧
    ∀ (first : TokenStream × TypeRef P E M) (others : List (TokenStream × TypeRef P E M)),
      (∀ e ∈ first :: others, TypeTokens env e.1 e.2) →
      ParsesTo env
        (tk .TOK_PAREN_OPEN :: (first.1 ++ (more_elems (others.map (fun e => e.1)) ++
          tk .TOK_PAREN_CLOSE :: rest)))
        (.Tuple (first.2 :: others.map (fun e => e.2))) rest ∧
      ParsesTo env
        (tk .TOK_PAREN_OPEN :: (first.1 ++ (more_elems (others.map (fun e => e.1)) ++
          tk .TOK_COMMA :: tk .TOK_PAREN_CLOSE :: rest)))
        (.Tuple (first.2 :: others.map (fun e => e.2))) rest := by
  constructor
  · refine ⟨2, fun fuel hfuel => ?_⟩
    obtain ⟨k, rfl⟩ : ∃ k, fuel = k + 2 := ⟨fuel - 2, by omega⟩
    simp [Parse_Type, Parse_Type_Int, getToken_cons, tk]
  · intro first others hall
    have key : ∀ trailing : Bool, ParsesTo env
        (tk .TOK_PAREN_OPEN :: (first.1 ++ (more_elems (others.map (fun e => e.1)) ++
          ((if trailing then [tk .TOK_COMMA] else []) ++ tk .TOK_PAREN_CLOSE :: rest))))
        (.Tuple (first.2 :: others.map (fun e => e.2))) rest := by
      intro trailing
      have he : TypeTokens env first.1 first.2 := hall first (List.mem_cons_self _ _)
      obtain ⟨tok0, toks0, htoks, hne, -, -⟩ := type_tokens_head env first.1 first.2 he
      have hdelim : at_delimiter (more_elems (others.map (fun e => e.1)) ++
          ((if trailing then [tk .TOK_COMMA] else []) ++ tk .TOK_PAREN_CLOSE :: rest)) := by
        cases others <;> cases trailing <;> simp [at_delimiter, more_elems, getToken_cons, tk]
      have hnp : (getToken (more_elems (others.map (fun e => e.1)) ++
          ((if trailing then [tk .TOK_COMMA] else []) ++ tk .TOK_PAREN_CLOSE :: rest))).1.type
            ≠ .TOK_PLUS := by
        rcases hdelim with h | h <;> rw [h] <;> decide
      obtain ⟨f1, hf1⟩ := tuple_loop_collects env rest trailing others [first.2]
        (fun x hx => hall x (List.mem_cons_of_mem _ hx))
      obtain ⟨f2, hf2⟩ := he _ hdelim
      refine ⟨max f1 f2 + 2, fun fuel hfuel => ?_⟩
      obtain ⟨k, rfl⟩ : ∃ k, fuel = k + 2 := ⟨fuel - 2, by omega⟩
      have h2 := hf2 k (by omega)
      have h1 := hf1 k (by omega)
      rw [htoks] at h2
      simp only [Parse_Type, Parse_Type_Int, getToken_cons, tk, htoks, List.cons_append, hne,
        if_false, putback]
      simp only [List.cons_append, tk] at h2
      rw [h2]
      simp only [tk] at hnp h1
      have hre := reread_at_delimiter _ hdelim
      simp only [putback, tk] at hre
      simp only [Outcome.andThen_ok, hnp, if_false, hre, h1, List.singleton_append]
      simp
    exact ⟨by simpa using key false, by simpa using key true⟩

/-- A primitive name is the token sequence of its primitive type. -/
theorem type_tokens_primitive (env : ParseEnv P E M) (name : String) (ct : eCoreType)
    (h : env.coretype_fromstring name = some ct) :
    TypeTokens env [ident name] (.Primitive ct) :=
  fun cont _ => parses_primitive env name ct cont h

/-- The tokens of `(u8)` and of `(u8,)` both parse to the tuple of the one
element `u8`. -/
theorem parse_tuple_witness :
    ParsesTo sample_env [tk .TOK_PAREN_OPEN, ident "u8", tk .TOK_PAREN_CLOSE]
      (.Tuple [.Primitive .U8]) [] ∧
    ParsesTo sample_env [tk .TOK_PAREN_OPEN, ident "u8", tk .TOK_COMMA, tk .TOK_PAREN_CLOSE]
      (.Tuple [.Primitive .U8]) [] :=
  (parse_tuple sample_env []).2 ([ident "u8"], .Primitive .U8) []
    (by
      intro e he
      simp only [List.mem_singleton] at he
      subst he
      exact type_tokens_primitive sample_env "u8" .U8 rfl)

/-- Looking ahead by one past a first token looks at the stream behind it. -/
theorem lookahead_one_cons (tok : Token) (lex : TokenStream) :
    lookahead (tok :: lex) 1 = lookahead lex 0 := by
  simp [lookahead]

/-- The tokens of a named parameter. -/
theorem param_tokens_some (n : String) (toks : TokenStream) :
    param_tokens (some n) toks = ident n :: tk .TOK_COLON :: toks := rfl

/-- The tokens of a parameter without a name. -/
theorem param_tokens_none (toks : TokenStream) : param_tokens none toks = toks := rfl

/-- The argument loop, entered before the tokens of one or more parameters and
the closing `)`, collects the types of the parameters, named or not, and
stops before the `)`. -/
theorem fn_args_collects (env : ParseEnv P E M) (rest : TokenStream) :
    ∀ (others : List (Option String × TokenStream × TypeRef P E M))
      (p : Option String × TokenStream × TypeRef P E M) (args : List (TypeRef P E M)),
      (∀ q ∈ p :: others, TypeTokens env q.2.1 q.2.2 ∧
        (q.1 = none → ¬ starts_ident_colon q.2.1)) →
      ∃ fuel0, ∀ fuel, fuel0 ≤ fuel →
        Parse_Type_Fn_args env fuel args
          (param_tokens p.1 p.2.1 ++ (more_params others ++ tk .TOK_PAREN_CLOSE :: rest)) =
          .ok (args ++ (p :: others).map (fun q => q.2.2), tk .TOK_PAREN_CLOSE :: rest) := by
  intro others
  induction others with
  | nil =>
    intro p args hall
    obtain ⟨name, toks, ty⟩ := p
    obtain ⟨he, hnic⟩ := hall _ (List.mem_cons_self _ _)
    simp only at he hnic
    obtain ⟨tok0, toks0, rfl, hne, hnd, -⟩ := type_tokens_head env toks ty he
    obtain ⟨f2, hf2⟩ := he (tk .TOK_PAREN_CLOSE :: rest) (Or.inr rfl)
    refine ⟨f2 + 1, fun fuel hfuel => ?_⟩
    obtain ⟨k, rfl⟩ : ∃ k, fuel = k + 1 := ⟨fuel - 1, by omega⟩
    have h2 := hf2 k (by omega)
    cases name with
    | some n =>
      simp only [more_params, List.nil_append, param_tokens, List.cons_append,
        Parse_Type_Fn_args, lookahead_zero, lookahead_one_cons, getToken_cons, ident, tk]
      simp only [List.cons_append, tk] at h2
      simp [h2, getToken_cons, putback]
    | none =>
      have hnic' := hnic rfl
      simp only [starts_ident_colon, lookahead_zero, lookahead_one_cons, getToken_cons] at hnic'
      have hcolon : ¬ (tok0.type = .TOK_IDENT ∧
          (getToken (toks0 ++ tk .TOK_PAREN_CLOSE :: rest)).1.type = .TOK_COLON) := by
        rintro ⟨h1, h3⟩
        cases toks0 with
        | nil => simp [getToken_cons, tk] at h3
        | cons t1 ts => exact hnic' ⟨h1, by simpa [getToken_cons] using h3⟩
      simp only [more_params, List.nil_append, param_tokens, List.cons_append,
        Parse_Type_Fn_args, lookahead_zero, lookahead_one_cons, getToken_cons, tk]
      simp only [List.cons_append, tk] at h2 hcolon
      simp [hne, hnd, hcolon, h2, getToken_cons, putback]
  | cons q qs ih =>
    intro p args hall
    obtain ⟨name, toks, ty⟩ := p
    obtain ⟨he, hnic⟩ := hall _ (List.mem_cons_self _ _)
    simp only at he hnic
    obtain ⟨tok0, toks0, rfl, hne, hnd, -⟩ := type_tokens_head env toks ty he
    obtain ⟨f1, hf1⟩ := ih q (args ++ [ty]) (fun x hx => hall x (List.mem_cons_of_mem _ hx))
    obtain ⟨f2, hf2⟩ := he (more_params (q :: qs) ++ tk .TOK_PAREN_CLOSE :: rest)
      (Or.inl (by simp [more_params, getToken_cons, tk]))
    refine ⟨max f1 f2 + 1, fun fuel hfuel => ?_⟩
    obtain ⟨k, rfl⟩ : ∃ k, fuel = k + 1 := ⟨fuel - 1, by omega⟩
    have h2 := hf2 k (by omega)
    have h1 := hf1 k (by omega)
    cases name with
    | some n =>
      simp only [param_tokens_some, more_params, List.cons_append, List.nil_append,
        List.append_assoc, Parse_Type_Fn_args, lookahead_zero, lookahead_one_cons,
        getToken_cons, ident, tk]
      simp only [more_params, List.cons_append, List.append_assoc, tk] at h2
      simp only [tk] at h1
      simp [h2, getToken_cons, h1]
    | none =>
      have hnic' := hnic rfl
      simp only [starts_ident_colon, lookahead_zero, lookahead_one_cons, getToken_cons] at hnic'
      have hcolon : ¬ (tok0.type = .TOK_IDENT ∧
          (getToken (toks0 ++ (more_params (q :: qs) ++ tk .TOK_PAREN_CLOSE :: rest))).1.type
            = .TOK_COLON) := by
        rintro ⟨h1, h3⟩
        cases toks0 with
        | nil => simp [more_params, getToken_cons, tk] at h3
        | cons t1 ts => exact hnic' ⟨h1, by simpa [getToken_cons] using h3⟩
      simp only [param_tokens_none, more_params, List.nil_append, List.cons_append,
        List.append_assoc, Parse_Type_Fn_args, lookahead_zero, lookahead_one_cons,
        getToken_cons, tk]
      simp only [more_params, List.cons_append, List.append_assoc, tk] at h2 hcolon
      simp only [tk] at h1
      simp [hne, hnd, hcolon, h2, getToken_cons, h1]

/-- The argument loop run on a whole parameter list, empty or not. -/
theorem fn_args_list (env : ParseEnv P E M) (rest : TokenStream)
    (params : List (Option String × TokenStream × TypeRef P E M))
    (hall : ∀ q ∈ params, TypeTokens env q.2.1 q.2.2 ∧
      (q.1 = none → ¬ starts_ident_colon q.2.1)) :
    ∃ fuel0, ∀ fuel, fuel0 ≤ fuel →
      Parse_Type_Fn_args env fuel [] (params_tokens params ++ tk .TOK_PAREN_CLOSE :: rest) =
        .ok (params.map (fun q => q.2.2), tk .TOK_PAREN_CLOSE :: rest) := by
  cases params with
  | nil =>
    refine ⟨1, fun fuel hfuel => ?_⟩
    obtain ⟨k, rfl⟩ : ∃ k, fuel = k + 1 := ⟨fuel - 1, by omega⟩
    simp [params_tokens, Parse_Type_Fn_args, lookahead_zero, getToken_cons, tk]
  | cons p others =>
    obtain ⟨f0, hf0⟩ := fn_args_collects env rest others p [] hall
    exact ⟨f0, fun fuel hfuel => by simpa [params_tokens] using hf0 fuel hfuel⟩

/-- The function `Parse_Type_Fn` on the tokens of a function type whose
argument loop and return type are known. -/
theorem parse_type_fn_eq (env : ParseEnv P E M) (is_unsafe_fn : Bool)
    (ext : Option (Option String)) (hrls : List String) (lex : TokenStream) (n : Nat) :
    Parse_Type_Fn env (n + 1) hrls (fn_head is_unsafe_fn ext ++ tk .TOK_PAREN_OPEN :: lex) =
      (Parse_Type_Fn_args env n [] lex).andThen fun (args, lex) =>
        if (getToken lex).1.type ≠ .TOK_PAREN_CLOSE then
          .error (.Unexpected (getToken lex).1 [.TOK_PAREN_CLOSE])
        else
          if (getToken (getToken lex).2).1.type = .TOK_THINARROW then
            (Parse_Type env n (getToken (getToken lex).2).2).andThen fun (ret_type, lex) =>
              .ok (.Function (fn_abi ext) args ret_type, lex)
          else
            .ok (.Function (fn_abi ext) args TypeRef.Unit, reread (getToken lex).2) := by
  cases is_unsafe_fn <;> rcases ext with _ | _ | abi <;>
    simp [fn_head, fn_abi, Parse_Type_Fn, getToken_cons, tk, reread]

/-- The function `Parse_Type` hands the tokens of a function type to
`Parse_Type_Fn` unread. -/
theorem parse_type_fn_head (env : ParseEnv P E M) (is_unsafe_fn : Bool)
    (ext : Option (Option String)) (lex : TokenStream) (n : Nat) :
    Parse_Type env (n + 2) (fn_head is_unsafe_fn ext ++ lex) =
      Parse_Type_Fn env n [] (fn_head is_unsafe_fn ext ++ lex) := by
  cases is_unsafe_fn <;> rcases ext with _ | _ | abi <;>
    simp [fn_head, Parse_Type, Parse_Type_Int, getToken_cons, tk, putback]

/-- C17: the tokens of a function type, an optional `unsafe`, an optional
`extern` with an optional ABI string, `fn`, and a parameter list in
parentheses, parse to the function type whose ABI string is empty without
`extern`, `C` for `extern` alone and the string literal otherwise, whose
parameters are the parsed parameter types in their order, a name and `:`
before a parameter changing nothing, and whose return type is the type parsed
after `->`, or the unit type when no `->` follows. -/
theorem parse_fn_type (env : ParseEnv P E M) (is_unsafe_fn : Bool)
    (ext : Option (Option String))
    (params : List (Option String × TokenStream × TypeRef P E M)) (rest : TokenStream)
    (hparams : ∀ q ∈ params, TypeTokens env q.2.1 q.2.2 ∧
      (q.1 = none → ¬ starts_ident_colon q.2.1)) :
    (∀ (ret_lex : TokenStream) (ret_type : TypeRef P E M), ParsesTo env ret_lex ret_type rest →
      ParsesTo env
        (fn_head is_unsafe_fn ext ++ tk .TOK_PAREN_OPEN ::
          (params_tokens params ++ tk .TOK_PAREN_CLOSE :: tk .TOK_THINARROW :: ret_lex))
        (.Function (fn_abi ext) (params.map (fun q => q.2.2)) ret_type) rest) ∧
    ((getToken rest).1.type ≠ .TOK_THINARROW →
      ParsesTo env
        (fn_head is_unsafe_fn ext ++ tk .TOK_PAREN_OPEN ::
          (params_tokens params ++ tk .TOK_PAREN_CLOSE :: rest))
        (.Function (fn_abi ext) (params.map (fun q => q.2.2)) TypeRef.Unit) (reread rest)) := by
  constructor
  · intro ret_lex ret_type hret
    obtain ⟨f1, hf1⟩ := fn_args_list env (tk .TOK_THINARROW :: ret_lex) params hparams
    obtain ⟨f2, hf2⟩ := hret
    refine ⟨max f1 f2 + 3, fun fuel hfuel => ?_⟩
    obtain ⟨k, rfl⟩ : ∃ k, fuel = k + 3 := ⟨fuel - 3, by omega⟩
    rw [parse_type_fn_head, parse_type_fn_eq, hf1 k (by omega)]
    simp [getToken_cons, tk, hf2 k (by omega)]
  · intro hno
    obtain ⟨f1, hf1⟩ := fn_args_list env rest params hparams
    refine ⟨f1 + 3, fun fuel hfuel => ?_⟩
    obtain ⟨k, rfl⟩ : ∃ k, fuel = k + 3 := ⟨fuel - 3, by omega⟩
    rw [parse_type_fn_head, parse_type_fn_eq, hf1 k (by omega)]
    simp [getToken_cons, tk, hno]

/-- The tokens of `fn(i32, i32) -> bool` parse to the function type with no
ABI string, two `i32` parameters and the return type `bool`; those of
`extern fn(x: u8)` to the function type with the ABI `C`, one `u8` parameter
and the unit return type. -/
theorem parse_fn_type_witness :
    ParsesTo sample_env
      [tk .TOK_RWORD_FN, tk .TOK_PAREN_OPEN, ident "i32", tk .TOK_COMMA, ident "i32",
        tk .TOK_PAREN_CLOSE, tk .TOK_THINARROW, ident "bool"]
      (.Function "" [.Primitive .I32, .Primitive .I32] (.Primitive .Bool)) [] ∧
    ParsesTo sample_env
      [tk .TOK_RWORD_EXTERN, tk .TOK_RWORD_FN, tk .TOK_PAREN_OPEN, ident "x", tk .TOK_COLON,
        ident "u8", tk .TOK_PAREN_CLOSE]
      (.Function "C" [.Primitive .U8] TypeRef.Unit) [Token.eof] :=
  ⟨(parse_fn_type sample_env false none
      [(none, [ident "i32"], .Primitive .I32), (none, [ident "i32"], .Primitive .I32)] []
      (by
        intro q hq
        simp only [List.mem_cons, List.mem_singleton, List.not_mem_nil, or_false, or_self] at hq
        subst hq
        exact ⟨type_tokens_primitive sample_env "i32" .I32 rfl,
          fun _ h => by simp [starts_ident_colon, lookahead, ident] at h⟩)).1
      [ident "bool"] (.Primitive .Bool) (parses_primitive sample_env "bool" .Bool [] rfl),
    (parse_fn_type sample_env false (some none)
      [(some "x", [ident "u8"], .Primitive .U8)] []
      (by
        intro q hq
        simp only [List.mem_singleton] at hq
        subst hq
        exact ⟨type_tokens_primitive sample_env "u8" .U8 rfl, fun h => by cases h⟩)).2
      (by decide)⟩

/-- When the parse of the inner type stops before `+`, a lifetime and `)`, the
type in parentheses is that inner type and the lifetime bound is dropped. -/
theorem paren_bound_after_inner (env : ParseEnv P E M) (lex rest : TokenStream)
    (T : TypeRef P E M) (name : String)
    (h : ParsesTo env lex T (tk .TOK_PLUS :: lifetime name :: tk .TOK_PAREN_CLOSE :: rest)) :
    ParsesTo env (tk .TOK_PAREN_OPEN :: lex) T rest := by
  have hput := parses_putback env lex T _ h
  obtain ⟨f0, hf⟩ := h
  have hhead := parse_type_head env f0 lex _ (hf f0 (Nat.le_refl _))
  refine ⟨f0 + 2, fun fuel hfuel => ?_⟩
  obtain ⟨k, rfl⟩ : ∃ k, fuel = k + 2 := ⟨fuel - 2, by omega⟩
  simp [Parse_Type, Parse_Type_Int, getToken_cons, tk, lifetime, hhead.2.2.2.2.1, hput,
    hf k (by omega)]

/-- The tokens of `(i32 + 'a)` parse to the primitive `i32`. -/
theorem paren_bound_after_inner_witness :
    ParsesTo sample_env
      [tk .TOK_PAREN_OPEN, ident "i32", tk .TOK_PLUS, lifetime "a", tk .TOK_PAREN_CLOSE]
      (.Primitive .I32) [] :=
  paren_bound_after_inner sample_env _ [] _ "a" (parses_primitive sample_env "i32" .I32 _ rfl)

/-- C18: on the tokens of `(A + 'a)`, where the path `A` alone parses to the
plain path type of `A`, `Parse_Type` returns the tuple of one element, the
trait object with the bound `A`: the bounds loop of `Parse_Type_Path` takes
the `+` and the lifetime before the tuple case looks for them.  The same
happens behind a reference, for `(&A + 'a)`. -/
theorem paren_path_bound_is_tuple :
    ParsesTo sample_env [ident "A"] (.Path ["A"]) [Token.eof] ∧
    ParsesTo sample_env
      [tk .TOK_PAREN_OPEN, ident "A", tk .TOK_PLUS, lifetime "a", tk .TOK_PAREN_CLOSE]
      (.Tuple [.TraitObject [] [["A"]]]) [] ∧
    (TypeRef.Tuple [.TraitObject [] [["A"]]] :
      TypeRef (List String) String String).is_tuple = true ∧
    ParsesTo sample_env
      [tk .TOK_PAREN_OPEN, tk .TOK_AMP, ident "A", tk .TOK_PLUS, lifetime "a",
        tk .TOK_PAREN_CLOSE]
      (.Tuple [.Reference false (.TraitObject [] [["A"]])]) [] := by
  refine ⟨⟨3, fun fuel hfuel => ?_⟩, ⟨6, fun fuel hfuel => ?_⟩, rfl, ⟨8, fun fuel hfuel => ?_⟩⟩
  · obtain ⟨k, rfl⟩ : ∃ k, fuel = k + 3 := ⟨fuel - 3, by omega⟩
    rfl
  · obtain ⟨k, rfl⟩ : ∃ k, fuel = k + 6 := ⟨fuel - 6, by omega⟩
    rfl
  · obtain ⟨k, rfl⟩ : ∃ k, fuel = k + 8 := ⟨fuel - 8, by omega⟩
    rfl

/-- A sequence of two steps gives a value exactly when the first step gives a
value on which the second gives that value. -/
theorem Outcome.andThen_eq_ok {α β : Type} (a : Outcome α) (k : α → Outcome β) (r : β) :
    a.andThen k = .ok r ↔ ∃ v, a = .ok v ∧ k v = .ok r := by
  cases a <;> simp [Outcome.andThen]

/-- On a stream that starts with `&`, the text of that token plays no part. -/
theorem parse_type_amp_text (env : ParseEnv P E M) (fuel : Nat) (amp other : Token)
    (rest : TokenStream) (h : amp.type = .TOK_AMP) (hother : other.type = .TOK_AMP) :
    Parse_Type env fuel (amp :: rest) = Parse_Type env fuel (other :: rest) := by
  cases fuel with
  | zero => simp [Parse_Type]
  | succ n =>
    cases n with
    | zero => simp [Parse_Type, Parse_Type_Int]
    | succ k => simp [Parse_Type, Parse_Type_Int, getToken_cons, h, hother]

/-- C21: with any bound on the call depth, `Parse_Type` gives on `&&` followed
by `rest` the outcome it gives on `&` `&` followed by `rest`, type, error and
remaining stream alike; that outcome is the outcome of `Parse_Type` on `&`
followed by `rest`, wrapped when it is a type in an immutable reference, and
a type parsed from `&` followed by `rest` is itself a reference. -/
theorem parse_double_amp (env : ParseEnv P E M) (rest : TokenStream) (damp amp1 amp2 : Token)
    (hd : damp.type = .TOK_DOUBLE_AMP) (h1 : amp1.type = .TOK_AMP)
    (h2 : amp2.type = .TOK_AMP) :
    (∀ fuel, Parse_Type env fuel (damp :: rest) = Parse_Type env fuel (amp1 :: amp2 :: rest)) ∧
    (∀ fuel, Parse_Type env (fuel + 2) (damp :: rest) =
      (Parse_Type env fuel (amp2 :: rest)).andThen fun (inner, lex) =>
        .ok (.Reference false inner, lex)) ∧
    (∀ fuel inner lex, Parse_Type env fuel (amp2 :: rest) = .ok (inner, lex) →
      ∃ is_mut target, inner = .Reference is_mut target) := by
  refine ⟨fun fuel => ?_, fun fuel => ?_, fun fuel inner lex h => ?_⟩
  · cases fuel with
    | zero => simp [Parse_Type]
    | succ n =>
      cases n with
      | zero => simp [Parse_Type, Parse_Type_Int]
      | succ k =>
        have := parse_type_amp_text env k ⟨.TOK_AMP, ""⟩ amp2 rest rfl h2
        simp [Parse_Type, Parse_Type_Int, getToken_cons, hd, h1, h2, putback, this]
  · have := parse_type_amp_text env fuel ⟨.TOK_AMP, ""⟩ amp2 rest rfl h2
    simp [Parse_Type, Parse_Type_Int, getToken_cons, hd, putback, this]
  · cases fuel with
    | zero => simp [Parse_Type] at h
    | succ n =>
      cases n with
      | zero => simp [Parse_Type, Parse_Type_Int] at h
      | succ k =>
        simp only [Parse_Type, Parse_Type_Int, getToken_cons, h2] at h
        split_ifs at h <;>
        · obtain ⟨v, -, hv⟩ := (Outcome.andThen_eq_ok _ _ _).1 h
          simp only [Outcome.ok.injEq, Prod.mk.injEq] at hv
          exact ⟨_, _, hv.1.symm⟩

/-- The tokens `&& i32` and `& & i32` give the same outcome in the sample
environment: the immutable reference to the immutable reference to the
primitive `i32`, with nothing left. -/
theorem parse_double_amp_witness :
    Parse_Type sample_env 6 [tk .TOK_DOUBLE_AMP, ident "i32"] =
      Parse_Type sample_env 6 [tk .TOK_AMP, tk .TOK_AMP, ident "i32"] ∧
    Parse_Type sample_env 6 [tk .TOK_DOUBLE_AMP, ident "i32"] =
      .ok (.Reference false (.Reference false (.Primitive .I32)), []) :=
  ⟨(parse_double_amp sample_env [ident "i32"] (tk .TOK_DOUBLE_AMP) (tk .TOK_AMP) (tk .TOK_AMP)
      rfl rfl rfl).1 6, rfl⟩

/-- A value meets a condition that holds of it. -/
theorem Outcome.meets_ok {α : Type} {post : α → Prop} {enough : Prop} {v : α} (h : post v) :
    (Outcome.ok v).Meets post enough :=
  ⟨fun w hw => (by cases hw; exact h), fun _ hc => (by cases hc)⟩

/-- An error meets every condition. -/
theorem Outcome.meets_error {α : Type} (post : α → Prop) (enough : Prop) (e : ParseError) :
    (Outcome.error e : Outcome α).Meets post enough :=
  ⟨fun w hw => (by cases hw), fun _ hc => (by cases hc)⟩

/-- A sequence of two steps meets a condition when the first step meets one
under which the second step meets it. -/
theorem Outcome.meets_andThen {α β : Type} {a : Outcome α} {k : α → Outcome β}
    {pa : α → Prop} {ea : Prop} {post : β → Prop} {enough : Prop}
    (ha : a.Meets pa ea) (he : enough → ea) (hk : ∀ v, pa v → (k v).Meets post enough) :
    (a.andThen k).Meets post enough := by
  cases a with
  | ok v => exact hk v (ha.1 v rfl)
  | error e => exact Outcome.meets_error _ _ _
  | out_of_fuel => exact ⟨fun w hw => (by cases hw), fun h => absurd rfl (ha.2 (he h))⟩

/-- An outcome that meets a condition meets every weaker one. -/
theorem Outcome.meets_weaken {α : Type} {a : Outcome α} {pa post : α → Prop}
    {ea enough : Prop} (ha : a.Meets pa ea) (he : enough → ea) (hp : ∀ v, pa v → post v) :
    a.Meets post enough :=
  ⟨fun v hv => hp v (ha.1 v hv), fun h => ha.2 (he h)⟩

/-- The outcome of a parser of another file meets what holds of its value. -/
theorem Outcome.meets_ofExcept {α : Type} {post : α → Prop} (enough : Prop)
    (x : Except ParseError α) (h : ∀ v, x = .ok v → post v) :
    (Outcome.ofExcept x).Meets post enough := by
  cases x with
  | ok v => exact Outcome.meets_ok (h v rfl)
  | error e => exact Outcome.meets_error _ _ _

/-- The weight of a stream with a token in front. -/
theorem weight_cons (tok : Token) (lex : TokenStream) :
    weight (tok :: lex) = tok.weight + weight lex := rfl

/-- A token put back counts again. -/
theorem weight_putback (tok : Token) (lex : TokenStream) :
    weight (putback lex tok) = tok.weight + weight lex := rfl

/-- Reading a token takes its weight from the stream. -/
theorem weight_getToken (lex : TokenStream) :
    (getToken lex).1.weight + weight (getToken lex).2 = weight lex := by
  cases lex with
  | nil => rfl
  | cons tok rest => rfl

/-- A token that is not the end of the input counts for one at least. -/
theorem Token.one_le_weight (tok : Token) (h : tok.type ≠ .TOK_EOF) : 1 ≤ tok.weight := by
  unfold Token.weight
  split <;> simp_all

/-- What is left of a stream is the stream when nothing was read. -/
theorem LeftOf.refl (lex : TokenStream) : LeftOf lex lex := Or.inl (List.suffix_refl _)

/-- What is left of what is left of a stream is left of that stream. -/
theorem LeftOf.trans {a b c : TokenStream} (hab : LeftOf a b) (hbc : LeftOf b c) :
    LeftOf a c := by
  rcases hab with hab | hab
  · rcases hbc with hbc | hbc
    · exact Or.inl (hab.trans hbc)
    · subst hbc
      rcases List.suffix_cons_iff.1 hab with h | h
      · exact Or.inr h
      · exact Or.inl ((List.suffix_nil.1 h) ▸ List.nil_suffix)
  · exact Or.inr hab

/-- Reading a token leaves what is left of the stream. -/
theorem LeftOf.after_read (lex : TokenStream) : LeftOf (getToken lex).2 lex := by
  cases lex with
  | nil => exact LeftOf.refl _
  | cons tok rest => exact Or.inl (List.suffix_cons _ _)

/-- Reading a token and putting it back leaves what is left of the stream. -/
theorem LeftOf.after_reread (lex : TokenStream) :
    LeftOf (putback (getToken lex).2 (getToken lex).1) lex := by
  cases lex with
  | nil => exact Or.inr rfl
  | cons tok rest => exact LeftOf.refl _

/-- The stream behind the first token of what is left is left too. -/
theorem LeftOf.tail {tok : Token} {rest lex : TokenStream} (h : LeftOf (tok :: rest) lex) :
    LeftOf rest lex := by
  rcases h with h | h
  · exact Or.inl ((List.suffix_cons _ _).trans h)
  · simp only [List.cons.injEq] at h
    exact Or.inl (h.2 ▸ List.nil_suffix)

/-- What is left of a stream weighs no more than the stream. -/
theorem LeftOf.weight_le {rest lex : TokenStream} (h : LeftOf rest lex) :
    weight rest ≤ weight lex := by
  rcases h with h | h
  · obtain ⟨pre, rfl⟩ := h
    induction pre with
    | nil => exact Nat.le_refl _
    | cons tok pre ih => exact Nat.le_trans ih (Nat.le_add_left _ _)
  · subst h
    exact Nat.zero_le _

/-- What is left of a stream with a token in front and weighs no more than the
stream behind that token is left of the stream behind it, when the token
counts. -/
theorem LeftOf.of_cons {tok : Token} {rest lex : TokenStream} (h : LeftOf rest (tok :: lex))
    (hw : weight rest ≤ weight lex) (ht : 1 ≤ tok.weight) : LeftOf rest lex := by
  rcases h with h | h
  · rcases List.suffix_cons_iff.1 h with h | h
    · subst h
      rw [weight_cons] at hw
      omega
    · exact Or.inl h
  · exact Or.inr h

/-- The exhaustion of the fuel meets every condition when the fuel is not
enough. -/
theorem Outcome.meets_out_of_fuel {α : Type} (post : α → Prop) {enough : Prop}
    (h : ¬ enough) : (Outcome.out_of_fuel : Outcome α).Meets post enough :=
  ⟨fun w hw => (by cases hw), fun he => absurd he h⟩

/-- The bounds loop leaves, with the token that ended it in front, what is left
of its stream, and finishes within one round per token and one more. -/
theorem path_bounds_meets (env : ParseEnv P E M) (henv : env.consumes_only) :
    ∀ (n : Nat) (traits : List P) (lifetimes : List String) (lex : TokenStream),
      (Parse_Type_Path_bounds env n traits lifetimes lex).Meets
        (fun r => LeftOf (r.2.2.1 :: r.2.2.2) lex ∧
          r.2.2.1.weight + weight r.2.2.2 ≤ weight lex ∧
          (env.path_consumes → r.2.2.1.weight + weight r.2.2.2 < weight lex))
        (weight lex + 1 ≤ n) := by
  intro n
  induction n with
  | zero =>
    intro traits lifetimes lex
    exact Outcome.meets_out_of_fuel _ (by omega)
  | succ n ih =>
    intro traits lifetimes lex
    rw [Parse_Type_Path_bounds]
    simp only [lookahead_zero]
    have w0 := weight_getToken lex
    have w1 := weight_getToken (getToken lex).2
    split
    · rename_i hlt
      have t0 := Token.one_le_weight (getToken lex).1 (by rw [hlt]; decide)
      split
      · rename_i hplus
        have t1 := Token.one_le_weight (getToken (getToken lex).2).1 (by rw [hplus]; decide)
        refine Outcome.meets_weaken (ih _ _ _) (by omega) (fun v hv => ?_)
        refine ⟨?_, by omega, fun _ => by omega⟩
        exact hv.1.trans ((LeftOf.after_read _).trans (LeftOf.after_read _))
      · refine Outcome.meets_ok ?_
        dsimp only
        exact ⟨(LeftOf.after_reread _).trans (LeftOf.after_read _), by omega, fun _ => by omega⟩
    · refine Outcome.meets_andThen
        (Outcome.meets_ofExcept True _ (fun v hv => (⟨henv.1 lex v.1 v.2 hv, fun hp => hp lex v.1 v.2 hv⟩ :
          LeftOf v.2 lex ∧ (env.path_consumes → weight v.2 < weight lex))))
        (fun _ => trivial) ?_
      rintro ⟨path, lex1⟩ ⟨hl, hs⟩
      have hw := hl.weight_le
      have w2 := weight_getToken lex1
      dsimp only at hl hs hw ⊢
      split
      · rename_i hplus
        have t1 := Token.one_le_weight (getToken lex1).1 (by rw [hplus]; decide)
        refine Outcome.meets_weaken (ih _ _ _) (by omega) (fun v hv => ?_)
        refine ⟨?_, by omega, fun _ => by omega⟩
        exact hv.1.trans ((LeftOf.after_read _).trans hl)
      · have hlt := fun hp => hs hp
        exact Outcome.meets_ok ⟨(LeftOf.after_reread _).trans hl, (by dsimp only; omega),
          fun hp => (by have := hs hp; dsimp only; omega)⟩

/-- The function `Parse_Type_Path` leaves what is left of its stream, less
when the path parser consumes, and finishes within one round per token and one
more. -/
theorem parse_type_path_meets (env : ParseEnv P E M) (henv : env.consumes_only) (n : Nat)
    (hrls : List String) (lex : TokenStream) :
    (Parse_Type_Path env n hrls lex).Meets
      (fun r => LeftOf r.2 lex ∧ weight r.2 ≤ weight lex ∧
        (env.path_consumes → weight r.2 < weight lex))
      (weight lex + 1 ≤ n) := by
  unfold Parse_Type_Path
  refine Outcome.meets_andThen (path_bounds_meets env henv n [] [] lex) (fun h => h) ?_
  rintro ⟨traits, lifetimes, tok, lex1⟩ ⟨hl, hw, hs⟩
  dsimp only at hl hw hs ⊢
  have hpost : LeftOf (putback lex1 tok) lex ∧ weight (putback lex1 tok) ≤ weight lex ∧
      (env.path_consumes → weight (putback lex1 tok) < weight lex) :=
    ⟨hl, hw, hs⟩
  split
  · exact Outcome.meets_ok hpost
  · split
    · exact Outcome.meets_ok hpost
    · exact Outcome.meets_error _ _ _

/-- The lifetime-list loop leaves, with the token that ended it in front, less
than its stream, and finishes within one round per token and one more. -/
theorem hrls_meets :
    ∀ (n : Nat) (hrls : List String) (lex : TokenStream),
      (Parse_Type_hrls n hrls lex).Meets
        (fun r => LeftOf (r.2.1 :: r.2.2) lex ∧ r.2.1.weight + weight r.2.2 < weight lex)
        (weight lex + 1 ≤ n) := by
  intro n
  induction n with
  | zero =>
    intro hrls lex
    exact Outcome.meets_out_of_fuel _ (by omega)
  | succ n ih =>
    intro hrls lex
    rw [Parse_Type_hrls]
    dsimp only
    have w0 := weight_getToken lex
    have w1 := weight_getToken (getToken lex).2
    split
    · exact Outcome.meets_error _ _ _
    · rename_i hlt
      have t0 := Token.one_le_weight (getToken lex).1 (by simp at hlt; rw [hlt]; decide)
      split
      · rename_i hcomma
        have t1 := Token.one_le_weight (getToken (getToken lex).2).1 (by rw [hcomma]; decide)
        refine Outcome.meets_weaken (ih _ _) (by omega) (fun v hv => ?_)
        exact ⟨hv.1.trans ((LeftOf.after_read _).trans (LeftOf.after_read _)), by omega⟩
      · refine Outcome.meets_ok ?_
        dsimp only
        exact ⟨(LeftOf.after_reread _).trans (LeftOf.after_read _), by omega⟩

/-- Reading the first token of a stream that is not at its end and putting it
back gives the stream again. -/
theorem putback_getToken (lex : TokenStream) (h : (getToken lex).1.type ≠ .TOK_EOF) :
    putback (getToken lex).2 (getToken lex).1 = lex := by
  cases lex with
  | nil => exact absurd rfl h
  | cons tok rest => rfl

/-- Reading a token and putting it back leaves the weight of a stream. -/
theorem weight_reread (lex : TokenStream) :
    weight (putback (getToken lex).2 (getToken lex).1) = weight lex := by
  rw [weight_putback, weight_getToken]

/-- The token `&&` counts for two. -/
theorem Token.weight_double_amp (tok : Token) (h : tok.type = .TOK_DOUBLE_AMP) :
    tok.weight = 2 := by
  simp [Token.weight, h]

set_option maxHeartbeats 1000000 in
/-- The step of the fuel induction for `Parse_Type_Int`: what it leaves, and
the fuel that is enough for it. -/
theorem parse_type_int_meets_step (env : ParseEnv P E M) (henv : env.consumes_only) (n : Nat)
    (ihT : ∀ lex, (Parse_Type env n lex).Meets
      (fun r => LeftOf r.2 lex ∧ weight r.2 ≤ weight lex ∧
        (env.path_consumes ∨ starts_path lex = false → weight r.2 < weight lex))
      (4 * weight lex + 3 ≤ n))
    (ihU : ∀ types lex, (Parse_Type_tuple env n types lex).Meets
      (fun r => LeftOf (r.2.1 :: r.2.2) lex ∧ r.2.1.weight + weight r.2.2 ≤ weight lex)
      (4 * weight lex + 4 ≤ n))
    (ihF : ∀ hrls lex, (Parse_Type_Fn env n hrls lex).Meets
      (fun r => LeftOf r.2 lex ∧ weight r.2 < weight lex)
      (4 * weight lex + 1 ≤ n))
    (lex0 : TokenStream) :
    (Parse_Type_Int env (n + 1) lex0).Meets
      (fun r => LeftOf r.2 lex0 ∧ weight r.2 ≤ weight lex0 ∧
        (env.path_consumes ∨ starts_path lex0 = false → weight r.2 < weight lex0))
      (4 * weight lex0 + 2 ≤ n + 1) := by
  have ihP := parse_type_path_meets env henv n
  have ihH := hrls_meets n
  have w0 := weight_getToken lex0
  have w1 := weight_getToken (getToken lex0).2
  have w2 := weight_getToken (getToken (getToken lex0).2).2
  have r1 := weight_reread (getToken lex0).2
  have r2 := weight_reread (getToken (getToken lex0).2).2
  have l1 := LeftOf.after_read lex0
  have l2 := (LeftOf.after_read (getToken lex0).2).trans l1
  have l3 := (LeftOf.after_read (getToken (getToken lex0).2).2).trans l2
  rw [Parse_Type_Int]
  dsimp only
  cases htt : (getToken lex0).1.type <;> simp only [htt]
  any_goals exact Outcome.meets_error _ _ _
  all_goals have t0 := Token.one_le_weight (getToken lex0).1 (by rw [htt]; decide)
  all_goals have hput := putback_getToken lex0 (by rw [htt]; decide)
  case TOK_MACRO =>
    refine Outcome.meets_andThen
      (Outcome.meets_ofExcept True _ (fun v hv =>
        (henv.2.2 _ _ v.1 v.2 hv : LeftOf v.2 (getToken lex0).2))) (fun _ => trivial) ?_
    rintro ⟨inv, lex1⟩ hl
    have hw := hl.weight_le
    dsimp only at hl hw ⊢
    refine Outcome.meets_ok ?_
    dsimp only
    exact ⟨hl.trans l1, by omega, fun _ => by omega⟩
  case TOK_UNDERSCORE =>
    refine Outcome.meets_ok ?_
    dsimp only
    exact ⟨l1, by omega, fun _ => by omega⟩
  case TOK_RWORD_UNSAFE =>
    rw [hput]
    exact Outcome.meets_weaken (ihF _ _) (by omega)
      (fun v hv => ⟨hv.1, by omega, fun _ => hv.2⟩)
  case TOK_RWORD_EXTERN =>
    rw [hput]
    exact Outcome.meets_weaken (ihF _ _) (by omega)
      (fun v hv => ⟨hv.1, by omega, fun _ => hv.2⟩)
  case TOK_RWORD_FN =>
    rw [hput]
    exact Outcome.meets_weaken (ihF _ _) (by omega)
      (fun v hv => ⟨hv.1, by omega, fun _ => hv.2⟩)
  case TOK_LT =>
    rw [hput]
    refine Outcome.meets_andThen
      (Outcome.meets_ofExcept True _ (fun v hv =>
        (⟨henv.1 lex0 v.1 v.2 hv, fun hp => hp lex0 v.1 v.2 hv⟩ :
          LeftOf v.2 lex0 ∧ (env.path_consumes → weight v.2 < weight lex0))))
      (fun _ => trivial) ?_
    rintro ⟨path, lex1⟩ ⟨hl, hs⟩
    refine Outcome.meets_ok ⟨hl, hl.weight_le, fun hc => ?_⟩
    rcases hc with hp | hsp
    · exact hs hp
    · simp [starts_path, htt] at hsp
  case TOK_DOUBLE_LT =>
    rw [hput]
    refine Outcome.meets_andThen
      (Outcome.meets_ofExcept True _ (fun v hv =>
        (⟨henv.1 lex0 v.1 v.2 hv, fun hp => hp lex0 v.1 v.2 hv⟩ :
          LeftOf v.2 lex0 ∧ (env.path_consumes → weight v.2 < weight lex0))))
      (fun _ => trivial) ?_
    rintro ⟨path, lex1⟩ ⟨hl, hs⟩
    refine Outcome.meets_ok ⟨hl, hl.weight_le, fun hc => ?_⟩
    rcases hc with hp | hsp
    · exact hs hp
    · simp [starts_path, htt] at hsp
  case TOK_DOUBLE_COLON =>
    rw [hput]
    refine Outcome.meets_weaken (ihP _ _) (by omega) (fun v hv => ⟨hv.1, hv.2.1, fun hc => ?_⟩)
    rcases hc with hp | hsp
    · exact hv.2.2 hp
    · simp [starts_path, htt] at hsp
  case TOK_RWORD_SUPER =>
    rw [hput]
    refine Outcome.meets_weaken (ihP _ _) (by omega) (fun v hv => ⟨hv.1, hv.2.1, fun hc => ?_⟩)
    rcases hc with hp | hsp
    · exact hv.2.2 hp
    · simp [starts_path, htt] at hsp
  case TOK_IDENT =>
    split
    · refine Outcome.meets_ok ?_
      dsimp only
      exact ⟨l1, by omega, fun _ => by omega⟩
    · split
      · refine Outcome.meets_ok ?_
        dsimp only
        exact ⟨l1, by omega, fun _ => by omega⟩
      · rw [hput]
        refine Outcome.meets_weaken (ihP _ _) (by omega)
          (fun v hv => ⟨hv.1, hv.2.1, fun hc => ?_⟩)
        rcases hc with hp | hsp
        · exact hv.2.2 hp
        · simp [starts_path, htt] at hsp
  case TOK_RWORD_FOR =>
    split
    · exact Outcome.meets_error _ _ _
    · rename_i hlt
      have t1 := Token.one_le_weight (getToken (getToken lex0).2).1
        (by simp at hlt; rw [hlt]; decide)
      refine Outcome.meets_andThen (ihH _ _) (by omega) ?_
      rintro ⟨hrls, tok, lex1⟩ ⟨hl, hw⟩
      dsimp only at hl hw ⊢
      have hl1 : LeftOf lex1 lex0 := hl.tail.trans l2
      split
      · exact Outcome.meets_error _ _ _
      · split
        · exact Outcome.meets_weaken (ihF _ _) (by omega)
            (fun v hv => ⟨hv.1.trans hl1, by omega, fun _ => by omega⟩)
        · exact Outcome.meets_weaken (ihF _ _) (by omega)
            (fun v hv => ⟨hv.1.trans hl1, by omega, fun _ => by omega⟩)
        · exact Outcome.meets_weaken (ihF _ _) (by omega)
            (fun v hv => ⟨hv.1.trans hl1, by omega, fun _ => by omega⟩)
        · exact Outcome.meets_weaken (ihP _ _) (by omega)
            (fun v hv => ⟨hv.1.trans hl1, by omega, fun _ => by omega⟩)
  case TOK_STAR =>
    split
    · rename_i hm
      have t1 := Token.one_le_weight (getToken (getToken lex0).2).1 (by rw [hm]; decide)
      refine Outcome.meets_andThen (ihT _) (by omega) ?_
      rintro ⟨inner, lex1⟩ hv
      refine Outcome.meets_ok ?_
      dsimp only at hv ⊢
      exact ⟨hv.1.trans l2, by omega, fun _ => by omega⟩
    · rename_i hm
      have t1 := Token.one_le_weight (getToken (getToken lex0).2).1 (by rw [hm]; decide)
      refine Outcome.meets_andThen (ihT _) (by omega) ?_
      rintro ⟨inner, lex1⟩ hv
      refine Outcome.meets_ok ?_
      dsimp only at hv ⊢
      exact ⟨hv.1.trans l2, by omega, fun _ => by omega⟩
    · exact Outcome.meets_error _ _ _
  case TOK_SQUARE_OPEN =>
    refine Outcome.meets_andThen (ihT _) (by omega) ?_
    rintro ⟨inner, lex1⟩ hv
    dsimp only at hv ⊢
    have hl1 : LeftOf lex1 lex0 := hv.1.trans l1
    have w3 := weight_getToken lex1
    split
    · refine Outcome.meets_andThen
        (Outcome.meets_ofExcept True _ (fun v hv =>
          (henv.2.1 _ v.1 v.2 hv : LeftOf v.2 (getToken lex1).2))) (fun _ => trivial) ?_
      rintro ⟨size, lex2⟩ hl
      have hw := hl.weight_le
      have w4 := weight_getToken lex2
      dsimp only at hl hw ⊢
      split
      · exact Outcome.meets_error _ _ _
      · refine Outcome.meets_ok ?_
        dsimp only
        exact ⟨(LeftOf.after_read _).trans (hl.trans ((LeftOf.after_read _).trans hl1)),
          by omega, fun _ => by omega⟩
    · split
      · refine Outcome.meets_ok ?_
        dsimp only
        exact ⟨(LeftOf.after_read _).trans hl1, by omega, fun _ => by omega⟩
      · exact Outcome.meets_error _ _ _
  case TOK_PAREN_OPEN =>
    split
    · refine Outcome.meets_ok ?_
      dsimp only
      exact ⟨l2, by omega, fun _ => by omega⟩
    · refine Outcome.meets_andThen (ihT _) (by omega) ?_
      rintro ⟨inner, lex1⟩ hv
      dsimp only at hv ⊢
      have hl1 : LeftOf lex1 lex0 := hv.1.trans ((LeftOf.after_reread _).trans l1)
      have w3 := weight_getToken lex1
      have w4 := weight_getToken (getToken lex1).2
      have w5 := weight_getToken (getToken (getToken lex1).2).2
      have r3 := weight_reread lex1
      split
      · split
        · exact Outcome.meets_error _ _ _
        · split
          · exact Outcome.meets_error _ _ _
          · refine Outcome.meets_ok ?_
            dsimp only
            exact ⟨(LeftOf.after_read _).trans ((LeftOf.after_read _).trans
              ((LeftOf.after_read _).trans hl1)), by omega, fun _ => by omega⟩
      · refine Outcome.meets_andThen (ihU _ _) (by omega) ?_
        rintro ⟨types, tok, lex2⟩ hu
        dsimp only at hu ⊢
        split
        · exact Outcome.meets_error _ _ _
        · refine Outcome.meets_ok ?_
          dsimp only
          exact ⟨hu.1.tail.trans ((LeftOf.after_reread _).trans hl1), by omega,
            fun _ => by omega⟩
  case TOK_AMP =>
    have w3 := weight_getToken (getToken (getToken (getToken lex0).2).2).2
    simp only [eq_false (by decide : ¬ eTokenType.TOK_AMP = eTokenType.TOK_DOUBLE_AMP),
      if_false]
    split_ifs
    all_goals
      refine Outcome.meets_andThen (ihT _) (by omega) ?_
      rintro ⟨inner, lex1⟩ hv
      refine Outcome.meets_ok ?_
      dsimp only at hv ⊢
    · exact ⟨hv.1.trans l3, by omega, fun _ => by omega⟩
    · exact ⟨hv.1.trans ((LeftOf.after_reread _).trans l2), by omega, fun _ => by omega⟩
    · exact ⟨hv.1.trans l2, by omega, fun _ => by omega⟩
    · exact ⟨hv.1.trans ((LeftOf.after_reread _).trans l1), by omega, fun _ => by omega⟩
  case TOK_DOUBLE_AMP =>
    have t2 := Token.weight_double_amp _ htt
    simp only [if_true, putback, getToken_cons,
      eq_false (by decide : ¬ eTokenType.TOK_AMP = eTokenType.TOK_LIFETIME),
      eq_false (by decide : ¬ eTokenType.TOK_AMP = eTokenType.TOK_RWORD_MUT), if_false]
    have ha : weight ((⟨.TOK_AMP, ""⟩ : Token) :: (getToken lex0).2) =
        1 + weight (getToken lex0).2 := rfl
    refine Outcome.meets_andThen (ihT _) (by omega) ?_
    rintro ⟨inner, lex1⟩ hv
    refine Outcome.meets_ok ?_
    dsimp only at hv ⊢
    have hlt := hv.2.2 (Or.inr rfl)
    exact ⟨(LeftOf.of_cons hv.1 (by omega) (by decide)).trans l1, by omega, fun _ => by omega⟩

/-- The step of the fuel induction for the tuple loop. -/
theorem parse_type_tuple_meets_step (env : ParseEnv P E M) (n : Nat)
    (ihT : ∀ lex, (Parse_Type env n lex).Meets
      (fun r => LeftOf r.2 lex ∧ weight r.2 ≤ weight lex ∧
        (env.path_consumes ∨ starts_path lex = false → weight r.2 < weight lex))
      (4 * weight lex + 3 ≤ n))
    (ihU : ∀ types lex, (Parse_Type_tuple env n types lex).Meets
      (fun r => LeftOf (r.2.1 :: r.2.2) lex ∧ r.2.1.weight + weight r.2.2 ≤ weight lex)
      (4 * weight lex + 4 ≤ n))
    (types : List (TypeRef P E M)) (lex0 : TokenStream) :
    (Parse_Type_tuple env (n + 1) types lex0).Meets
      (fun r => LeftOf (r.2.1 :: r.2.2) lex0 ∧ r.2.1.weight + weight r.2.2 ≤ weight lex0)
      (4 * weight lex0 + 4 ≤ n + 1) := by
  have w0 := weight_getToken lex0
  have w1 := weight_getToken (getToken lex0).2
  have r1 := weight_reread (getToken lex0).2
  have l1 := LeftOf.after_read lex0
  rw [Parse_Type_tuple]
  dsimp only
  split
  · rename_i hc
    have t0 := Token.one_le_weight (getToken lex0).1 (by rw [hc]; decide)
    split
    · refine Outcome.meets_ok ?_
      dsimp only
      exact ⟨(LeftOf.after_reread _).trans l1, by omega⟩
    · refine Outcome.meets_andThen (ihT _) (by omega) ?_
      rintro ⟨ty, lex1⟩ hv
      dsimp only at hv ⊢
      refine Outcome.meets_weaken (ihU _ _) (by omega) (fun v hu => ?_)
      exact ⟨hu.1.trans (hv.1.trans ((LeftOf.after_reread _).trans l1)), by omega⟩
  · refine Outcome.meets_ok ?_
    dsimp only
    exact ⟨LeftOf.after_reread _, by omega⟩

/-- The step of the fuel induction for the argument loop. -/
theorem parse_type_fn_args_meets_step (env : ParseEnv P E M) (n : Nat)
    (ihT : ∀ lex, (Parse_Type env n lex).Meets
      (fun r => LeftOf r.2 lex ∧ weight r.2 ≤ weight lex ∧
        (env.path_consumes ∨ starts_path lex = false → weight r.2 < weight lex))
      (4 * weight lex + 3 ≤ n))
    (ihA : ∀ args lex, (Parse_Type_Fn_args env n args lex).Meets
      (fun r => LeftOf r.2 lex ∧ weight r.2 ≤ weight lex)
      (4 * weight lex + 5 ≤ n))
    (args : List (TypeRef P E M)) (lex0 : TokenStream) :
    (Parse_Type_Fn_args env (n + 1) args lex0).Meets
      (fun r => LeftOf r.2 lex0 ∧ weight r.2 ≤ weight lex0)
      (4 * weight lex0 + 5 ≤ n + 1) := by
  have w0 := weight_getToken lex0
  have w1 := weight_getToken (getToken lex0).2
  have l1 := LeftOf.after_read lex0
  have l2 := (LeftOf.after_read (getToken lex0).2).trans l1
  rw [Parse_Type_Fn_args]
  dsimp only
  split
  · split
    · refine Outcome.meets_ok ?_
      dsimp only
      exact ⟨l1, by omega⟩
    · have hl : LeftOf (if lookahead lex0 0 = .TOK_IDENT ∧ lookahead lex0 1 = .TOK_COLON then
          (getToken (getToken lex0).2).2 else lex0) lex0 := by
        split
        · exact l2
        · exact LeftOf.refl _
      have hw := hl.weight_le
      refine Outcome.meets_andThen (ihT _) (by omega) ?_
      rintro ⟨ty, lex1⟩ hv
      dsimp only at hv ⊢
      have w3 := weight_getToken lex1
      have r3 := weight_reread lex1
      split
      · refine Outcome.meets_ok ?_
        dsimp only
        exact ⟨(LeftOf.after_reread _).trans (hv.1.trans hl), by omega⟩
      · rename_i hc
        have t1 := Token.one_le_weight (getToken lex1).1 (by simp at hc; rw [hc]; decide)
        refine Outcome.meets_weaken (ihA _ _) (by omega) (fun v ha => ?_)
        exact ⟨ha.1.trans ((LeftOf.after_read _).trans (hv.1.trans hl)), by omega⟩
  · refine Outcome.meets_ok ?_
    dsimp only
    exact ⟨LeftOf.refl _, by omega⟩

/-- A token of a kind that is not the end of the input counts for one at
least. -/
theorem Token.one_le_weight_of_eq {tok : Token} {type : eTokenType} (h : tok.type = type)
    (htype : type ≠ .TOK_EOF) : 1 ≤ tok.weight :=
  Token.one_le_weight tok (h ▸ htype)

set_option maxHeartbeats 1000000 in
/-- The step of the fuel induction for `Parse_Type_Fn`. -/
theorem parse_type_fn_meets_step (env : ParseEnv P E M) (n : Nat)
    (ihT : ∀ lex, (Parse_Type env n lex).Meets
      (fun r => LeftOf r.2 lex ∧ weight r.2 ≤ weight lex ∧
        (env.path_consumes ∨ starts_path lex = false → weight r.2 < weight lex))
      (4 * weight lex + 3 ≤ n))
    (ihA : ∀ args lex, (Parse_Type_Fn_args env n args lex).Meets
      (fun r => LeftOf r.2 lex ∧ weight r.2 ≤ weight lex)
      (4 * weight lex + 5 ≤ n))
    (hrls : List String) (lex0 : TokenStream) :
    (Parse_Type_Fn env (n + 1) hrls lex0).Meets
      (fun r => LeftOf r.2 lex0 ∧ weight r.2 < weight lex0)
      (4 * weight lex0 + 1 ≤ n + 1) := by
  have w0 := weight_getToken lex0
  have w1 := weight_getToken (getToken lex0).2
  have w2 := weight_getToken (getToken (getToken lex0).2).2
  have w3 := weight_getToken (getToken (getToken (getToken lex0).2).2).2
  have w4 := weight_getToken (getToken (getToken (getToken (getToken lex0).2).2).2).2
  have l1 := LeftOf.after_read lex0
  have l2 := (LeftOf.after_read (getToken lex0).2).trans l1
  have l3 := (LeftOf.after_read (getToken (getToken lex0).2).2).trans l2
  have l4 := (LeftOf.after_read (getToken (getToken (getToken lex0).2).2).2).trans l3
  have l5 := (LeftOf.after_read (getToken (getToken (getToken (getToken lex0).2).2).2).2).trans l4
  rw [Parse_Type_Fn]
  dsimp only
  split_ifs
  any_goals exact Outcome.meets_error _ _ _
  all_goals
    rename_i hfn hparen
    have tfn := Token.one_le_weight_of_eq (of_not_not hfn) (by decide)
    have tparen := Token.one_le_weight_of_eq (of_not_not hparen) (by decide)
    refine Outcome.meets_andThen (ihA _ _) (by omega) ?_
    rintro ⟨args, lex1⟩ ha
    dsimp only at ha ⊢
    have hl1 : LeftOf lex1 lex0 := by
      first
        | exact ha.1.trans l2
        | exact ha.1.trans l3
        | exact ha.1.trans l4
        | exact ha.1.trans l5
    have w5 := weight_getToken lex1
    have w6 := weight_getToken (getToken lex1).2
    have r6 := weight_reread (getToken lex1).2
    split
    · exact Outcome.meets_error _ _ _
    · split
      · refine Outcome.meets_andThen (ihT _) (by omega) ?_
        rintro ⟨ret_type, lex2⟩ hv
        refine Outcome.meets_ok ?_
        dsimp only at hv ⊢
        exact ⟨hv.1.trans ((LeftOf.after_read _).trans ((LeftOf.after_read _).trans hl1)),
          by omega⟩
      · refine Outcome.meets_ok ?_
        dsimp only
        exact ⟨(LeftOf.after_reread _).trans ((LeftOf.after_read _).trans hl1), by omega⟩

/-- What each of the five mutually recursive parsers leaves of its stream when
it returns, and the fuel that is enough for it to finish: four units for each
token still to be read, and a few more. -/
theorem parse_meets (env : ParseEnv P E M) (henv : env.consumes_only) :
    ∀ n : Nat,
      (∀ lex, (Parse_Type env n lex).Meets
        (fun r => LeftOf r.2 lex ∧ weight r.2 ≤ weight lex ∧
          (env.path_consumes ∨ starts_path lex = false → weight r.2 < weight lex))
        (4 * weight lex + 3 ≤ n)) ∧
      (∀ lex, (Parse_Type_Int env n lex).Meets
        (fun r => LeftOf r.2 lex ∧ weight r.2 ≤ weight lex ∧
          (env.path_consumes ∨ starts_path lex = false → weight r.2 < weight lex))
        (4 * weight lex + 2 ≤ n)) ∧
      (∀ types lex, (Parse_Type_tuple env n types lex).Meets
        (fun r => LeftOf (r.2.1 :: r.2.2) lex ∧ r.2.1.weight + weight r.2.2 ≤ weight lex)
        (4 * weight lex + 4 ≤ n)) ∧
      (∀ hrls lex, (Parse_Type_Fn env n hrls lex).Meets
        (fun r => LeftOf r.2 lex ∧ weight r.2 < weight lex)
        (4 * weight lex + 1 ≤ n)) ∧
      (∀ args lex, (Parse_Type_Fn_args env n args lex).Meets
        (fun r => LeftOf r.2 lex ∧ weight r.2 ≤ weight lex)
        (4 * weight lex + 5 ≤ n)) := by
  intro n
  induction n with
  | zero =>
    refine ⟨fun _ => ?_, fun _ => ?_, fun _ _ => ?_, fun _ _ => ?_, fun _ _ => ?_⟩
    · rw [Parse_Type]; exact Outcome.meets_out_of_fuel _ (by omega)
    · rw [Parse_Type_Int]; exact Outcome.meets_out_of_fuel _ (by omega)
    · rw [Parse_Type_tuple]; exact Outcome.meets_out_of_fuel _ (by omega)
    · rw [Parse_Type_Fn]; exact Outcome.meets_out_of_fuel _ (by omega)
    · rw [Parse_Type_Fn_args]; exact Outcome.meets_out_of_fuel _ (by omega)
  | succ n ih =>
    obtain ⟨ihT, ihI, ihU, ihF, ihA⟩ := ih
    refine ⟨fun lex => ?_, parse_type_int_meets_step env henv n ihT ihU ihF,
      parse_type_tuple_meets_step env n ihT ihU, parse_type_fn_meets_step env n ihT ihA,
      parse_type_fn_args_meets_step env n ihT ihA⟩
    rw [Parse_Type]
    exact Outcome.meets_weaken (ihI lex) (by omega) (fun _ h => h)

/-- The parsers of the sample environment only consume tokens from the front
of the stream. -/
theorem sample_env_consumes_only : sample_env.consumes_only := by
  refine ⟨fun lex path rest h => ?_, fun lex expr rest h => ?_, fun name lex inv rest h => ?_⟩
  · simp only [sample_env] at h
    split at h
    · cases h; exact LeftOf.after_read _
    · cases h
  · simp only [sample_env] at h
    split at h
    · cases h; exact LeftOf.after_read _
    · cases h
  · simp only [sample_env] at h
    cases h; exact LeftOf.refl _

/-- The path parser of the sample environment consumes a token whenever it
returns. -/
theorem sample_env_path_consumes : sample_env.path_consumes := by
  intro lex path rest h
  simp only [sample_env] at h
  split at h
  · rename_i hi
    cases h
    have := weight_getToken lex
    have := Token.one_le_weight_of_eq hi (by decide)
    omega
  · cases h

/-- The parsers of the environment with the idle path parser only consume
tokens from the front of the stream. -/
theorem idle_path_env_consumes_only : idle_path_env.consumes_only := by
  refine ⟨fun lex path rest h => ?_, sample_env_consumes_only.2.1,
    sample_env_consumes_only.2.2⟩
  simp only [idle_path_env] at h
  cases h; exact LeftOf.refl _

/-- A run that finished with some fuel gives the same outcome with more. -/
theorem parse_type_stable (env : ParseEnv P E M) (lex : TokenStream) (n m : Nat) (hnm : n ≤ m)
    (h : Parse_Type env n lex ≠ .out_of_fuel) :
    Parse_Type env m lex = Parse_Type env n lex := by
  rcases parse_type_fuel_le env lex n m hnm with h' | h'
  · exact absurd h' h
  · exact h'

/-- What is left of a stream, with fewer tokens than the stream has, is left
of the stream behind its first token, which is not the end-of-input token. -/
theorem LeftOf.behind_first {rest lex : TokenStream} (h : LeftOf rest lex)
    (hw : weight rest < weight lex) (hne : (getToken lex).1.type ≠ .TOK_EOF) :
    ∃ tok tl, lex = tok :: tl ∧ tok.type ≠ .TOK_EOF ∧ LeftOf rest tl := by
  cases lex with
  | nil => exact absurd rfl hne
  | cons tok tl =>
    refine ⟨tok, tl, rfl, hne, ?_⟩
    rcases h with h | h
    · rcases List.suffix_cons_iff.1 h with h | h
      · subst h
        exact absurd hw (Nat.lt_irrefl _)
      · exact Or.inl h
    · exact Or.inr h

/-- C23: when the parsers of other files only consume tokens from the front of
the stream, the mutual recursion of `Parse_Type`, `Parse_Type_Fn` and
`Parse_Type_Path` ends on every token stream: four units of fuel for each
token of the stream and three more are enough for `Parse_Type` to finish, so
that every stream parses or fails; and a successful call of `Parse_Type`
leaves what is left of its stream after tokens were read from its front.
When the path parser consumes a token whenever it returns, or the stream does
not start with a token handed to the path parser, the call has consumed a
token: fewer tokens are left than it was given, and what it leaves is left of
the stream behind the first token. -/
theorem parse_type_consumes (env : ParseEnv P E M) (henv : env.consumes_only) :
    (∀ lex fuel, 4 * weight lex + 3 ≤ fuel → Parse_Type env fuel lex ≠ .out_of_fuel) ∧
    (∀ hrls lex fuel, 4 * weight lex + 1 ≤ fuel →
      Parse_Type_Fn env fuel hrls lex ≠ .out_of_fuel) ∧
    (∀ hrls lex fuel, weight lex + 1 ≤ fuel →
      Parse_Type_Path env fuel hrls lex ≠ .out_of_fuel) ∧
    (∀ lex, (∃ ty rest, ParsesTo env lex ty rest) ∨ (∃ err, FailsWith env lex err)) ∧
    (∀ fuel lex ty rest, Parse_Type env fuel lex = .ok (ty, rest) →
      LeftOf rest lex ∧
      (env.path_consumes ∨ starts_path lex = false →
        weight rest < weight lex ∧
        ∃ tok tl, lex = tok :: tl ∧ tok.type ≠ .TOK_EOF ∧ LeftOf rest tl)) := by
  have hT : ∀ lex fuel, 4 * weight lex + 3 ≤ fuel → Parse_Type env fuel lex ≠ .out_of_fuel :=
    fun lex fuel h => ((parse_meets env henv fuel).1 lex).2 h
  refine ⟨hT, fun hrls lex fuel h => ((parse_meets env henv fuel).2.2.2.1 hrls lex).2 h,
    fun hrls lex fuel h => (parse_type_path_meets env henv fuel hrls lex).2 h,
    fun lex => ?_, fun fuel lex ty rest h => ?_⟩
  · have hstable := fun fuel hfuel =>
      parse_type_stable env lex (4 * weight lex + 3) fuel hfuel (hT lex _ (Nat.le_refl _))
    cases hr : Parse_Type env (4 * weight lex + 3) lex with
    | ok r => exact Or.inl ⟨r.1, r.2, _, fun fuel hfuel => by rw [hstable fuel hfuel, hr]⟩
    | error e => exact Or.inr ⟨e, _, fun fuel hfuel => by rw [hstable fuel hfuel, hr]⟩
    | out_of_fuel => exact absurd hr (hT lex _ (Nat.le_refl _))
  · have hm := ((parse_meets env henv fuel).1 lex).1 _ h
    exact ⟨hm.1, fun hc => ⟨hm.2.2 hc,
      LeftOf.behind_first hm.1 (hm.2.2 hc) (parse_type_head env fuel lex _ h).1⟩⟩

/-- In the sample environment, whose parsers only consume tokens, twenty-three
units of fuel are enough for `Parse_Type` on the four tokens `&& A + B`, which
parse, and the parse of the one token `A` leaves the end of the input, with no
token left. -/
theorem parse_type_consumes_witness :
    sample_env.consumes_only ∧
    (∀ fuel, 23 ≤ fuel →
      Parse_Type sample_env fuel [tk .TOK_DOUBLE_AMP, ident "A", tk .TOK_PLUS, ident "B"] ≠
        .out_of_fuel) ∧
    (LeftOf [Token.eof] [ident "A"] ∧ weight [Token.eof] < weight [ident "A"]) :=
  ⟨sample_env_consumes_only,
    fun fuel hfuel => (parse_type_consumes sample_env sample_env_consumes_only).1 _ fuel hfuel,
    ((parse_type_consumes sample_env sample_env_consumes_only).2.2.2.2 3 [ident "A"]
      (.Path ["A"]) [Token.eof] rfl).1,
    (((parse_type_consumes sample_env sample_env_consumes_only).2.2.2.2 3 [ident "A"]
      (.Path ["A"]) [Token.eof] rfl).2 (Or.inl sample_env_path_consumes)).1⟩

/-- With a path parser that returns at once, which only consumes tokens from
the front of the stream, as do the other parsers of that environment,
`Parse_Type` succeeds on the one token `A` and leaves the stream as it was
given, that token included: no token was consumed. -/
theorem parse_type_idle_path :
    idle_path_env.consumes_only ∧
    ParsesTo idle_path_env [ident "A"] (.Path []) [ident "A"] :=
  ⟨idle_path_env_consumes_only, (parses_iff_some_fuel _ _ _ _).2 ⟨3, rfl⟩⟩

end Parse
